import Mathlib

/-! A shallow embedding of `paul-didati/please-delete-me`.

The development follows the Go packages of the repository:

* `pkg/graphql/typer`    : `resolveType`, `ParseTypes` (schema to type graph), and the
  methods `ToGoType` and `TypeIsObject` of `Type`,
* `pkg/graphql`          : `ScanResolver.Resolve` (the path-recording resolver),
* `pkg/graphql/generate` : `TypesToTmpl` (type graph to the data of the code template).

Go pointers to `typer.Type` are indices into an explicit heap (`List TypeNode`), so that
pointer identity is equality of indices.  A nil pointer is `none`.  Go maps are association
lists with unique keys.  Recursion that Go performs on the call stack is bounded by a fuel
argument; running out of fuel, and a Go panic, are distinct outcomes.  The order in which a
`range` statement visits a Go map is a parameter of the function that contains it.
-/

/-! ## The introspection library (`github.com/graph-gophers/graphql-go/introspection`)

The library is not part of the repository.  Its `*introspection.Type` is modelled by the
observations the repository makes on it: `Kind`, `Name`, `OfType`, `Interfaces`, `Fields`,
`EnumValues`.  A `LIST` or `NON_NULL` type is an anonymous wrapper around another type; every
other type is a named declaration that the schema resolves by name, which is how a schema
can refer to itself. -/

namespace introspection

/-- A `*introspection.Type` value: a reference to a named declaration, or a wrapper. -/
inductive IType where
  | named (name : String) : IType
  | list (ofType : IType) : IType
  | nonNull (ofType : IType) : IType
  deriving DecidableEq

/-- An argument of a field (`*introspection.InputValue`). -/
structure InputValue where
  Name : String
  Typ : IType
  deriving DecidableEq

/-- A field of an object or interface (`*introspection.Field`). -/
structure Field where
  Name : String
  Args : List InputValue
  Typ : IType
  deriving DecidableEq

/-- What the schema records for a named type.  `Kind` is the string returned by `Kind()`;
`Interfaces`, `Fields` and `EnumValues` are the possibly nil results of the methods of the
same names (an entry of `Interfaces` is the possibly nil `Name()` of that interface). -/
structure Decl where
  Kind : String
  Interfaces : Option (List (Option String)) := none
  Fields : Option (List Field) := none
  EnumValues : Option (List String) := none
  deriving DecidableEq

/-- A schema resolves every type name to its declaration. -/
abbrev Schema := String → Decl

/-- The method `Kind()`. -/
def IType.Kind (S : Schema) : IType → String
  | .named n => (S n).Kind
  | .list _ => "LIST"
  | .nonNull _ => "NON_NULL"

/-- The method `Name()`: nil for a wrapper. -/
def IType.Name : IType → Option String
  | .named n => some n
  | .list _ => none
  | .nonNull _ => none

/-- The method `OfType()`: nil for a named type. -/
def IType.OfType : IType → Option IType
  | .named _ => none
  | .list t => some t
  | .nonNull t => some t

/-- The method `Interfaces()`. -/
def IType.Interfaces (S : Schema) : IType → Option (List (Option String))
  | .named n => (S n).Interfaces
  | .list _ => none
  | .nonNull _ => none

/-- The method `Fields(nil)`. -/
def IType.Fields (S : Schema) : IType → Option (List Field)
  | .named n => (S n).Fields
  | .list _ => none
  | .nonNull _ => none

/-- The method `EnumValues(nil)`. -/
def IType.EnumValues (S : Schema) : IType → Option (List String)
  | .named n => (S n).EnumValues
  | .list _ => none
  | .nonNull _ => none

end introspection

/-! ## Package `typer` -/

namespace typer

open introspection

/-- A `*Type`: an address in the heap, or nil. -/
abbrev Ptr := Option Nat

/-- The struct `Kind`. -/
structure Kind where
  Value : String := ""
  deriving DecidableEq

/-- The struct `Argument`. -/
structure Argument where
  Name : String
  Typ : Ptr
  deriving DecidableEq

/-- The struct `ObjectField`.  The zero value is what a Go map returns for a missing key. -/
structure ObjectField where
  Arguments : List Argument := []
  Field : Ptr := none
  deriving DecidableEq

/-- A Go `map[string]V`: an association list in which every key occurs once. -/
abbrev GoMap (V : Type) := List (String × V)

/-- The statement `m[k] = v`. -/
def GoMap.set {V : Type} : GoMap V → String → V → GoMap V
  | [], k, v => [(k, v)]
  | (k', v') :: m, k, v => if k' = k then (k, v) :: m else (k', v') :: GoMap.set m k v

/-- The two-valued read `v, ok := m[k]`. -/
def GoMap.get {V : Type} : GoMap V → String → Option V
  | [], _ => none
  | (k', v') :: m, k => if k' = k then some v' else GoMap.get m k

/-- The struct `Type` (a reserved word here, hence `TypeNode`; its field `List` is `ListOf`).
A nil slice is `[]` for `Implements` (its nil-ness is never inspected) and `none` for `Enum`
and `Object` (a nil map). -/
structure TypeNode where
  Nullable : Ptr := none
  Scalar : Kind := {}
  ListOf : Ptr := none
  Named : String := ""
  Interface : Bool := false
  Implements : List String := []
  Object : Option (GoMap ObjectField) := none
  Enum : Option (List String) := none
  deriving DecidableEq

/-- The Go heap of `Type` values together with the `TypeTracker` (its `atoms` map). -/
structure St where
  heap : List TypeNode := []
  atoms : GoMap Nat := []
  deriving DecidableEq

/-- The outcome of running Go code: a value and the state reached, a panic, or not enough
fuel for the recursion depth. -/
inductive Res (α : Type) where
  | ok (a : α) (st : St) : Res α
  | panic : Res α
  | outOfFuel : Res α
  deriving DecidableEq

/-- Sequencing of outcomes. -/
def Res.bind {α β : Type} (r : Res α) (f : α → St → Res β) : Res β :=
  match r with
  | .ok a st => f a st
  | .panic => .panic
  | .outOfFuel => .outOfFuel

/-- The expression `&Type{...}`: allocation of a new node. -/
def alloc (st : St) (v : TypeNode) : Nat × St :=
  (st.heap.length, { st with heap := st.heap ++ [v] })

/-- An assignment through a pointer, `p.field = ...`. -/
def St.modify (st : St) (p : Nat) (f : TypeNode → TypeNode) : St :=
  { st with heap := st.heap.modify f p }

/-- The statement `return &Type{Nullable: r}` when `nullable`, else `return r`. -/
def boxIf (nullable : Bool) (r : Nat) (st : St) : Res Ptr :=
  if nullable then
    let (p, st) := alloc st { Nullable := some r }
    .ok (some p) st
  else .ok (some r) st

/-- The inner loop `for _, arg := range field.Args()` appending to `fieldArgs`. -/
def resolveArgs (Title : String → String) (rec : Bool → IType → St → Res Ptr) :
    List InputValue → List Argument → St → Res (List Argument)
  | [], fieldArgs, st => .ok fieldArgs st
  | arg :: rest, fieldArgs, st =>
    (rec true arg.Typ st).bind fun p st =>
      resolveArgs Title rec rest (fieldArgs ++ [{ Name := Title arg.Name, Typ := p }]) st

/-- The loop `for _, field := range *t.Fields(nil)` filling the map `fields`. -/
def resolveFields (Title : String → String) (rec : Bool → IType → St → Res Ptr) :
    List Field → GoMap ObjectField → St → Res (GoMap ObjectField)
  | [], fields, st => .ok fields st
  | field :: rest, fields, st =>
    (resolveArgs Title rec field.Args [] st).bind fun fieldArgs st =>
      (rec true field.Typ st).bind fun fieldType st =>
        resolveFields Title rec rest
          (fields.set field.Name { Field := fieldType, Arguments := fieldArgs }) st

/-- The names collected into `interfaces`. -/
def interfaceNames : Option (List (Option String)) → List String
  | none => []
  | some is => is.filterMap id

/-- The values collected into `valSet`: nil when nothing was appended. -/
def enumValSet : Option (List String) → Option (List String)
  | none => none
  | some [] => none
  | some (v :: vs) => some (v :: vs)

/-- The method `(*TypeTracker).resolveType`.  `Title` is `strings.Title`.  The calls to
`fmt.Println` are not modelled. -/
def resolveType (S : Schema) (Title : String → String) :
    Nat → Bool → IType → St → Res Ptr
  | 0, _, _, _ => .outOfFuel
  | fuel + 1, nullable, t, st =>
    if t.Kind S = "NON_NULL" then
      match t.OfType with
      | none => .panic
      | some u => resolveType S Title fuel false u st
    else if t.Kind S = "SCALAR" then
      let kindValue := match t.Name with
        | some n => n
        | none => "invalid scalar"
      let (r, st) := alloc st { Scalar := { Value := kindValue } }
      let st := { st with atoms := st.atoms.set kindValue r }
      boxIf nullable r st
    else if t.Kind S = "OBJECT" ∨ t.Kind S = "INTERFACE" ∨ t.Kind S = "INPUT_OBJECT" then
      let interfaces := interfaceNames (t.Interfaces S)
      let (obj, st) := alloc st
        { Implements := interfaces, Interface := decide (t.Kind S = "INTERFACE") }
      let registered : Option Nat × St :=
        match t.Name with
        | some n =>
          let st := st.modify obj fun o => { o with Named := n }
          match st.atoms.get n with
          | none => (none, { st with atoms := st.atoms.set n obj })
          | some r => (some r, st)
        | none => (none, st)
      match registered with
      | (some r, st) => .ok (some r) st
      | (none, st) =>
        match t.Fields S with
        | some fs =>
          (resolveFields Title (resolveType S Title fuel) fs [] st).bind fun fields st =>
            let st := st.modify obj fun o => { o with Object := some fields }
            boxIf nullable obj st
        | none => boxIf nullable obj st
    else if t.Kind S = "LIST" then
      match t.OfType with
      | none => .panic
      | some u =>
        (resolveType S Title fuel true u st).bind fun elem st =>
          let (l, st) := alloc st { ListOf := elem }
          boxIf nullable l st
    else if t.Kind S = "ENUM" then
      let (e, st) := alloc st { Enum := enumValSet (t.EnumValues S) }
      boxIf nullable e st
    else
      .ok none st

/-- The function `strings.HasPrefix`. -/
def HasPrefix (s p : String) : Bool := p.data.isPrefixOf s.data

/-- The test at the head of the loop of `ParseTypes`: the entries that `continue` skips. -/
def skipped (t : IType) : Bool :=
  match t.Name with
  | none => true
  | some n =>
    if HasPrefix n "_" then true
    else n = "String" ∨ n = "Boolean" ∨ n = "Float" ∨ n = "Int" ∨ n = "ID"

/-- The loop `for _, t := range input` of `ParseTypes`, appending to `types`. -/
def parseLoop (S : Schema) (Title : String → String) (fuel : Nat) :
    List IType → List Ptr → St → Res (List Ptr)
  | [], types, st => .ok types st
  | t :: rest, types, st =>
    if skipped t then parseLoop S Title fuel rest types st
    else
      (resolveType S Title fuel true t st).bind fun r st =>
        parseLoop S Title fuel rest (types ++ [r]) st

/-- The function `ParseTypes`: the roots, and the final state, whose `atoms` is the second
result of the Go function and whose `heap` holds the nodes the pointers refer to. -/
def ParseTypes (S : Schema) (Title : String → String) (fuel : Nat) (input : List IType) :
    Res (List Ptr) :=
  parseLoop S Title fuel input [] {}

end typer

/-! ## The standard package `reflect`

A `reflect.Type` is modelled by what the repository observes: whether its kind is `Ptr` or
`Slice`, its `Name()`, and its `Elem()`.  A nil `reflect.Type` is `none`. -/

namespace reflect

/-- A non-nil `reflect.Type`: a pointer type, a slice type, a type of kind `Array`, `Chan`
or `Map` (`container`, which has an element type), or a type of any other kind. -/
inductive RType where
  | ptr (name : String) (elem : RType) : RType
  | slice (name : String) (elem : RType) : RType
  | container (name : String) (elem : RType) : RType
  | other (name : String) : RType
  deriving DecidableEq

/-- The method `Name()`. -/
def RType.Name : RType → String
  | .ptr n _ => n
  | .slice n _ => n
  | .container n _ => n
  | .other n => n

/-- The test `t.Kind() == reflect.Ptr`. -/
def RType.isPtr : RType → Bool
  | .ptr _ _ => true
  | _ => false

/-- The test `t.Kind() == reflect.Slice`. -/
def RType.isSlice : RType → Bool
  | .slice _ _ => true
  | _ => false

/-- The method `Elem()`; `none` is the panic of a type without element type. -/
def RType.Elem : RType → Option RType
  | .ptr _ e => some e
  | .slice _ e => some e
  | .container _ e => some e
  | .other _ => none

/-- A value of type `any`. -/
inductive GoValue where
  | nil : GoValue
  | val (typ : RType) (data : Nat) : GoValue
  | new (elem : RType) : GoValue
  | slice (typ : RType) (elems : List GoValue) : GoValue

/-- The function `reflect.TypeOf`: nil for the nil interface; `reflect.New(e)` has the
unnamed pointer type to `e`. -/
def TypeOf : GoValue → Option RType
  | .nil => none
  | .val t _ => some t
  | .new e => some (.ptr "" e)
  | .slice t _ => some t

end reflect

/-! ## Package `graphql` -/

namespace graphql

open reflect

/-- The outcome of running Go code that may panic, or whose loop is bounded by fuel. -/
inductive Outcome (α : Type) where
  | ret (a : α) : Outcome α
  | panic : Outcome α
  | outOfFuel : Outcome α

/-- The struct `Field`, an entry of the record of resolutions. -/
structure Field where
  Name : String
  On : String
  Typ : Option RType
  UnderlyingType : Option RType
  Args : GoValue
  Path : String
  Leaf : Bool

/-- The struct `ScanResolver`. -/
structure ScanResolver where
  Types : typer.GoMap Nat := []
  Fields : List Field := []

/-- The function `getUnderlying` on a non-nil type (a nil one panics at `t.Kind()`). -/
def getUnderlying : RType → RType
  | .ptr _ e => getUnderlying e
  | .slice _ e => getUnderlying e
  | .container n e => .container n e
  | .other n => .other n

/-- The loop of `resolvePathPart` with the loop variable about to take the value `i - 1`;
`none` is the result `-1`. -/
def resolvePathPartFrom (fields : List Field) (entity : String) : Nat → Outcome (Option Nat)
  | 0 => .ret none
  | i + 1 =>
    match fields[i]? with
    | none => .panic
    | some f =>
      match f.UnderlyingType with
      | none => .panic
      | some u =>
        if entity = u.Name then .ret (some i) else resolvePathPartFrom fields entity i

/-- The function `resolvePathPart`. -/
def resolvePathPart (fields : List Field) (entity : String) : Outcome (Option Nat) :=
  resolvePathPartFrom fields entity fields.length

/-- The loop `for idx >= 0` of `Resolve`, entered with `idx >= 0`. -/
def pathLoop (fields : List Field) : Nat → Nat → String → Outcome String
  | 0, _, _ => .outOfFuel
  | fuel + 1, idx, path =>
    match fields[idx]? with
    | none => .panic
    | some f =>
      match resolvePathPart (fields.take idx) f.On with
      | .ret none => .ret (f.Name ++ "." ++ path)
      | .ret (some j) => pathLoop fields fuel j (f.Name ++ "." ++ path)
      | .panic => .panic
      | .outOfFuel => .outOfFuel

/-- The first five lines of `Resolve`: the path before it is lower-cased. -/
def resolvePath (fields : List Field) (entity field : String) : Outcome String :=
  match resolvePathPart fields entity with
  | .ret none => .ret field
  | .ret (some idx) => pathLoop fields (idx + 1) idx field
  | .panic => .panic
  | .outOfFuel => .outOfFuel

/-- The function `strings.ToLower`, which maps the runes one by one with `lower`. -/
def ToLower (lower : Char → Char) (s : String) : String := ⟨s.data.map lower⟩

/-- The last branch of `Resolve`, `if list`.  `assignable v t` is the check that
`reflect.Append` makes: a value of type `v` can be stored in a slot of type `t`.  The value
appended is `innerVal`, the pointer that `reflect.New` returned: the statement
`innerVal.Elem()` of the source drops its result. -/
def resolveList (assignable : RType → RType → Bool) (zero : GoValue) :
    Outcome (GoValue × Option String) :=
  match TypeOf zero with
  | none => .panic
  | some zt =>
    match zt.Elem with
    | none => .panic
    | some slot =>
      let listType : Option RType := if slot.isPtr then slot.Elem else some slot
      match listType with
      | none => .panic
      | some listType =>
        if zt.isSlice then
          if assignable (.ptr "" listType) slot then
            .ret (.slice zt [.new listType], none)
          else .panic
        else .panic

set_option linter.unusedVariables false in
/-- The method `(*ScanResolver).Resolve`: the outcome, and the receiver as it is when the
call returns or panics.  `lower` is the rune map of `strings.ToLower`. -/
def Resolve (lower : Char → Char) (assignable : RType → RType → Bool) (r : ScanResolver)
    (entity field : String) (args zero : GoValue) (object list nullable : Bool) :
    Outcome (GoValue × Option String) × ScanResolver :=
  match resolvePath r.Fields entity field with
  | .panic => (.panic, r)
  | .outOfFuel => (.outOfFuel, r)
  | .ret path =>
    match TypeOf zero with
    | none => (.panic, r)
    | some zt =>
      let r : ScanResolver := { r with Fields := r.Fields ++ [{
        On := entity
        Name := field
        Args := args
        Typ := some zt
        UnderlyingType := some (getUnderlying zt)
        Path := ToLower lower path
        Leaf := !object && !list }] }
      if !object && !list then (.ret (zero, none), r)
      else if object then
        match r.Types.get field with
        | some _ =>
          match zt.Elem with
          | some e => (.ret (.new e, none), r)
          | none => (.panic, r)
        | none => (.ret (zero, some ("no such object " ++ field)), r)
      else if list then (resolveList assignable zero, r)
      else (.ret (.nil, some "unimplemented"), r)

end graphql

/-! ## Predicates and measures on the type graph -/

namespace typer

open introspection

/-- The kinds that `resolveType` treats as objects. -/
def isObjKind (k : String) : Prop := k = "OBJECT" ∨ k = "INTERFACE" ∨ k = "INPUT_OBJECT"

instance (k : String) : Decidable (isObjKind k) := by
  unfold isObjKind; infer_instance

/-- The node that `resolveType` allocates for the object declaration named `n`, once its
name is set and before its fields are. -/
def objNode (S : Schema) (n : String) : TypeNode :=
  { Implements := interfaceNames (S n).Interfaces
    Interface := decide ((S n).Kind = "INTERFACE")
    Named := n }

/-- The number of wrappers around the name of a type. -/
def depth : IType → Nat
  | .named _ => 0
  | .list t => depth t + 1
  | .nonNull t => depth t + 1

end typer

namespace typer

open introspection

/-- The state `st2` extends `st1`: the nodes of `st1` are still there, unchanged, object
names keep the node they are registered with, and no key leaves the registry. -/
structure Ext (S : Schema) (st1 st2 : St) : Prop where
  heap : st1.heap <+: st2.heap
  objs : ∀ n a, isObjKind (S n).Kind → st1.atoms.get n = some a → st2.atoms.get n = some a
  keys : ∀ n, st1.atoms.get n ≠ none → st2.atoms.get n ≠ none

end typer

namespace typer

open introspection

/-- The name a type expression refers to once its `NON_NULL` wrappers are peeled; none for
a list. -/
def referent : IType → Option String
  | .named n => some n
  | .nonNull t => referent t
  | .list _ => none

/-- Unwrapping `Nullable`: the node inside a `Nullable` box, the node itself when it is not
a box. -/
def unwrapNullable (heap : List TypeNode) : Ptr → Ptr
  | none => none
  | some b =>
    match heap[b]? with
    | some o =>
      match o.Nullable with
      | some a => some a
      | none => some b
    | none => some b

/-- The pointer `q` is the node `a` or a `Nullable` box around it. -/
def RefersTo (st : St) (q : Ptr) (a : Nat) : Prop :=
  ∃ b o, q = some b ∧ st.heap[b]? = some o ∧
    (o.Nullable = some a ∨ (o.Nullable = none ∧ b = a))

/-- The pointer `q` was resolved from the type expression `e`: when `e` refers to an object
type, `q` refers to the node registered for it. -/
def FieldOK (S : Schema) (st : St) (q : Ptr) (e : IType) : Prop :=
  ∀ T, referent e = some T → isObjKind (S T).Kind →
    ∃ a, st.atoms.get T = some a ∧ RefersTo st q a

/-- The map `m` holds, under the name of each field of `fs`, a pointer resolved from the
type of a field of that name. -/
def FieldsOK (S : Schema) (st : St) (m : GoMap ObjectField) (fs : List Field) : Prop :=
  ∀ fld ∈ fs, ∃ entry fld2, m.get fld.Name = some entry ∧ fld2 ∈ fs ∧
    fld2.Name = fld.Name ∧ FieldOK S st entry.Field fld2.Typ

/-- The node `a` of the object type `n` has its fields. -/
def Complete (S : Schema) (st : St) (n : String) (a : Nat) : Prop :=
  ∀ fs, (S n).Fields = some fs →
    ∃ o m, st.heap[a]? = some o ∧ o.Object = some m ∧ FieldsOK S st m fs

/-- The invariant of the type tracker.  `pending` lists the object types whose fields are
being resolved by a call that has not returned yet. -/
structure Inv (S : Schema) (pending : List String) (st : St) : Prop where
  node : ∀ n a, isObjKind (S n).Kind → st.atoms.get n = some a →
    ∃ o, st.heap[a]? = some o ∧ o.Named = n ∧ o.Nullable = none
  complete : ∀ n a, isObjKind (S n).Kind → st.atoms.get n = some a → n ∉ pending →
    Complete S st n a

/-- What a call of `resolveType` guarantees when it returns. -/
def CallSpec (S : Schema) (pending : List String) (rec : Bool → IType → St → Res Ptr) :
    Prop :=
  ∀ nullable t st r st2, Inv S pending st → rec nullable t st = .ok r st2 →
    Inv S pending st2 ∧ FieldOK S st2 r t

end typer

namespace typer

open introspection

/-- The types that resolving a field list visits: of each field, the types of its arguments
and then its own type. -/
def fieldTypes : List Field → List IType
  | [] => []
  | f :: fs => f.Args.map (fun a => a.Typ) ++ f.Typ :: fieldTypes fs

/-- The largest number of wrappers in a list of types. -/
def maxDepthOf : List IType → Nat
  | [] => 0
  | t :: ts => max (depth t) (maxDepthOf ts)

/-- The largest number of wrappers around a field or argument type of the declaration
named `n`. -/
def declDepth (S : Schema) (n : String) : Nat :=
  match (S n).Fields with
  | some fs => maxDepthOf (fieldTypes fs)
  | none => 0

/-- The largest number of wrappers around a field or argument type of the declarations
named in `names`. -/
def maxDepth (S : Schema) : List String → Nat
  | [] => 0
  | n :: names => max (declDepth S n) (maxDepth S names)

/-- The number of names in `names` that are not keys of the registry. -/
def unregistered (st : St) : List String → Nat
  | [] => 0
  | n :: names =>
    (match st.atoms.get n with
      | none => 1
      | some _ => 0) + unregistered st names

/-- A schema as the introspection library presents it: a named declaration is never a
wrapper, and the object, interface and input object declarations are those in `names`. -/
def WellFormed (S : Schema) (names : List String) : Prop :=
  (∀ n, (S n).Kind ≠ "NON_NULL" ∧ (S n).Kind ≠ "LIST") ∧
  ∀ n, isObjKind (S n).Kind → n ∈ names

/-- A recursion depth that suffices to resolve `t` in the state `st`. -/
def fuelFor (S : Schema) (names : List String) (st : St) (t : IType) : Nat :=
  depth t + unregistered st names * (maxDepth S names + 1) + 1

/-- A recursion depth that suffices for `ParseTypes` on `input`. -/
def fuelBound (S : Schema) (names : List String) (input : List IType) : Nat :=
  maxDepthOf input + names.length * (maxDepth S names + 1) + 1

/-- The entries of the input that `ParseTypes` does not skip. -/
def kept (input : List IType) : List IType :=
  input.filter fun t => !skipped t

end typer

namespace typer

open introspection

/-- The Go expression `p.Object[key].Field`; nil when `p` is nil, has no such field, or the
map has no such key. -/
def fieldOf (heap : List TypeNode) (p : Ptr) (key : String) : Ptr :=
  match p with
  | none => none
  | some a =>
    match heap[a]? with
    | none => none
    | some o =>
      match o.Object with
      | none => none
      | some m =>
        match m.get key with
        | none => none
        | some e => e.Field

/-- The pointer is a `Nullable` box: its `Nullable` field is set. -/
def isNullableBox (heap : List TypeNode) (p : Ptr) : Bool :=
  match p with
  | none => false
  | some a =>
    match heap[a]? with
    | none => false
    | some o => o.Nullable.isSome

end typer

namespace typer

open introspection

/-- The shape of a node built from a scalar: the variants `Nullable`, `Scalar` and `List`
of the data model. -/
inductive Shape where
  | Nullable (inner : Shape) : Shape
  | Scalar (name : String) : Shape
  | ListOf (elem : Shape) : Shape
  deriving DecidableEq

/-- Boxing in `Nullable` iff the context is nullable. -/
def boxed (nullable : Bool) (s : Shape) : Shape :=
  if nullable then .Nullable s else s

/-- The node that section 4.1 of the specification prescribes for a scalar under wrappers:
a `NON_NULL` wrapper passes a non-nullable context to what it wraps, a scalar and a list are
boxed iff their context is nullable, and the element of a list has a nullable context. -/
def specShape : Bool → IType → Shape
  | _, .nonNull t => specShape false t
  | nullable, .named n => boxed nullable (.Scalar n)
  | nullable, .list t => boxed nullable (.ListOf (specShape true t))

/-- The node at `p` has exactly the shape `s`: at each level the one field of the variant is
set and every other field of the node is zero. -/
def hasShape (heap : List TypeNode) : Shape → Ptr → Bool
  | .Scalar n, p =>
    match p with
    | none => false
    | some a => decide (heap[a]? = some { Scalar := { Value := n } })
  | .Nullable s, p =>
    match p with
    | none => false
    | some a =>
      match heap[a]? with
      | none => false
      | some o => decide (o = { Nullable := o.Nullable }) && hasShape heap s o.Nullable
  | .ListOf s, p =>
    match p with
    | none => false
    | some a =>
      match heap[a]? with
      | none => false
      | some o => decide (o = { ListOf := o.ListOf }) && hasShape heap s o.ListOf

/-- A type expression built from a `SCALAR` name with `LIST` and `NON_NULL` wrappers. -/
def ScalarExpr (S : Schema) : IType → Prop
  | .named n => (S n).Kind = "SCALAR"
  | .list t => ScalarExpr S t
  | .nonNull t => ScalarExpr S t

instance ScalarExpr.decidable (S : Schema) : (t : IType) → Decidable (ScalarExpr S t)
  | .named n => inferInstanceAs (Decidable ((S n).Kind = "SCALAR"))
  | .list t => ScalarExpr.decidable S t
  | .nonNull t => ScalarExpr.decidable S t

/-- A kind that `resolveType` does not support: `UNION`, or none of the seven kinds it
handles. -/
def Unsupported (k : String) : Prop :=
  k = "UNION" ∨
  (k ≠ "NON_NULL" ∧ k ≠ "SCALAR" ∧ k ≠ "OBJECT" ∧ k ≠ "INTERFACE" ∧ k ≠ "INPUT_OBJECT" ∧
    k ≠ "LIST" ∧ k ≠ "ENUM")

end typer

/-! ### Predicates on the record of resolutions -/

namespace graphql

open reflect

/-- The entry `f` was returned for a field whose type, unwrapped, is named `entity`. -/
def Matches (f : Field) (entity : String) : Prop :=
  ∃ u, f.UnderlyingType = some u ∧ u.Name = entity

/-- Every entry of the log carries an underlying type, as the entries `Resolve` writes do. -/
def TypedLog (fields : List Field) : Prop :=
  ∀ f ∈ fields, f.UnderlyingType ≠ none

/-- The receivers whose log was built from the empty log by calls of `Resolve` only. -/
inductive Reachable (lower : Char → Char) (assignable : RType → RType → Bool) :
    ScanResolver → Prop where
  | init (types : typer.GoMap Nat) : Reachable lower assignable { Types := types, Fields := [] }
  | step (r : ScanResolver) (entity field : String) (args zero : GoValue)
      (object list nullable : Bool) :
      Reachable lower assignable r →
      Reachable lower assignable
        (Resolve lower assignable r entity field args zero object list nullable).2

/-- The entry that `Resolve` appends, given the path it computed and the type of `zero`. -/
def newEntry (lower : Char → Char) (entity field : String) (args : GoValue) (zt : RType)
    (path : String) (object list : Bool) : Field :=
  { On := entity
    Name := field
    Args := args
    Typ := some zt
    UnderlyingType := some (getUnderlying zt)
    Path := ToLower lower path
    Leaf := !object && !list }

/-- What every entry of a log written by `Resolve` satisfies: it carries an underlying type,
and its path is the lower-cased path computed from the entries before it. -/
def LogInv (lower : Char → Char) (fields : List Field) : Prop :=
  TypedLog fields ∧
  ∀ i f, fields[i]? = some f →
    ∃ p, resolvePath (fields.take i) f.On f.Name = .ret p ∧ f.Path = ToLower lower p

end graphql

/-! ### Concrete inputs -/

namespace examples

open introspection typer reflect graphql

/-- The schema of the test `single-simple-type`: `Query{a: Apple}`, `Apple{s: String}`; every
other name is a scalar. -/
def appleSchema : Schema := fun n =>
  if n = "Query" then
    { Kind := "OBJECT", Fields := some [{ Name := "a", Args := [], Typ := .named "Apple" }] }
  else if n = "Apple" then
    { Kind := "OBJECT", Fields := some [{ Name := "s", Args := [], Typ := .named "String" }] }
  else { Kind := "SCALAR" }

/-- The schema of the test `single-int`: `Query{a: Int}`; every other name is a scalar. -/
def intSchema : Schema := fun n =>
  if n = "Query" then
    { Kind := "OBJECT", Fields := some [{ Name := "a", Args := [], Typ := .named "Int" }] }
  else { Kind := "SCALAR" }

/-- A schema in the order of the introspection library (sorted by name) in which a later
type is used by a field of an earlier one: `Apple{b: Banana}`, `Banana{s: String}`. -/
def basketSchema : Schema := fun n =>
  if n = "Apple" then
    { Kind := "OBJECT", Fields := some [{ Name := "b", Args := [], Typ := .named "Banana" }] }
  else if n = "Banana" then
    { Kind := "OBJECT", Fields := some [{ Name := "s", Args := [], Typ := .named "String" }] }
  else { Kind := "SCALAR" }

/-- A schema with a union: `Query{a: Int}`, `union SearchResult`. -/
def unionSchema : Schema := fun n =>
  if n = "Query" then
    { Kind := "OBJECT", Fields := some [{ Name := "a", Args := [], Typ := .named "Int" }] }
  else if n = "SearchResult" then { Kind := "UNION" }
  else { Kind := "SCALAR" }

/-- A cyclic schema: `A{b: B}`, `B{a: A}`. -/
def cycleSchema : Schema := fun n =>
  if n = "A" then
    { Kind := "OBJECT", Fields := some [{ Name := "b", Args := [], Typ := .named "B" }] }
  else if n = "B" then
    { Kind := "OBJECT", Fields := some [{ Name := "a", Args := [], Typ := .named "A" }] }
  else { Kind := "SCALAR" }

/-- The registry that `ParseTypes` returns for `appleSchema`, as `BuildScannableSchema`
stores it in the `ScanResolver`. -/
def appleTypes : GoMap Nat :=
  match ParseTypes appleSchema id 4 [.named "Apple", .named "Query"] with
  | .ok _ st => st.atoms
  | _ => []

/-- An assignability check for the examples: identical types. -/
def sameType (v t : RType) : Bool := decide (v = t)

/-- A typed nil pointer `(*Apple)(nil)`. -/
def zeroApple : GoValue := .val (.ptr "" (.other "Apple")) 0

/-- The zero value of `string`. -/
def zeroString : GoValue := .val (.other "string") 0

/-- The receiver after resolving field `a` on `Query`, from the empty log. -/
def afterQueryA : ScanResolver :=
  (Resolve Char.toLower sameType { Types := appleTypes } "Query" "a" .nil zeroApple
    true false true).2

end examples

/-! ## Package `typer`: the methods `ToGoType` and `TypeIsObject` -/

namespace graphql

/-- Sequencing of outcomes. -/
def Outcome.bind {α β : Type} (x : Outcome α) (f : α → Outcome β) : Outcome β :=
  match x with
  | .ret a => f a
  | .panic => .panic
  | .outOfFuel => .outOfFuel

end graphql

namespace typer

open graphql (Outcome)

/-- The `switch t.Scalar.Value` of `ToGoType` with its fall-through `return`. -/
def scalarGoType (value : String) : String :=
  if value = "String" then "string"
  else if value = "Float" then "float64"
  else if value = "ID" then "graphql.ID"
  else if value = "Int" then "int32"
  else if value = "Boolean" then "bool"
  else value

/-- The method `(*Type).ToGoType`.  A nil receiver panics at `t.Named`, before the test
`t == nil` of the source is reached; `inner[0]` panics on an empty string. -/
def ToGoType (heap : List TypeNode) : Nat → Ptr → Outcome String
  | 0, _ => .outOfFuel
  | _ + 1, none => .panic
  | fuel + 1, some a =>
    match heap[a]? with
    | none => .panic
    | some t =>
      if t.Named ≠ "" then .ret ("*" ++ t.Named ++ "Resolver")
      else if t.ListOf ≠ none then
        (ToGoType heap fuel t.ListOf).bind fun inner => .ret ("[]" ++ inner)
      else if t.Nullable ≠ none then
        (ToGoType heap fuel t.Nullable).bind fun inner =>
          match inner.data with
          | [] => .panic
          | c :: _ => if c ≠ '*' then .ret ("*" ++ inner) else .ret inner
      else if t.Enum ≠ none then .ret "string"
      else .ret (scalarGoType t.Scalar.Value)

/-- The loop `for _, v := range t.Object` of `TypeIsObject`, over the entries in the order
of the iteration; `rec` is the recursive call. -/
def typeIsObjectRange (rec : Ptr → Outcome Ptr) : List (String × ObjectField) → Outcome Ptr
  | [] => .ret none
  | (_, v) :: rest =>
    (rec v.Field).bind fun found =>
      if found ≠ none then .ret v.Field else typeIsObjectRange rec rest

/-- The method `(*Type).TypeIsObject`.  `order` is the order in which Go iterates over a
map.  In the `Nullable` and `List` branches the source calls the method on `t` itself. -/
def TypeIsObject (order : GoMap ObjectField → List (String × ObjectField))
    (heap : List TypeNode) : Nat → Ptr → String → Outcome Ptr
  | 0, _, _ => .outOfFuel
  | _ + 1, none, _ => .panic
  | fuel + 1, some a, name =>
    match heap[a]? with
    | none => .panic
    | some t =>
      if t.Named = name then .ret (some a)
      else if t.Nullable ≠ none then TypeIsObject order heap fuel (some a) name
      else if t.ListOf ≠ none then TypeIsObject order heap fuel (some a) name
      else
        typeIsObjectRange (fun p => TypeIsObject order heap fuel p name)
          (order (t.Object.getD []))

end typer

namespace typer

open introspection

/-- What the registry holds under the key `n` at the address `a`: for an object type its
object node, which is `objNode` but for the map `Object`; for a scalar type a scalar node
of that name. -/
def RegEntryOK (S : Schema) (heap : List TypeNode) (n : String) (a : Nat) : Prop :=
  (isObjKind (S n).Kind ∧
    ∃ o, heap[a]? = some o ∧ o = { objNode S n with Object := o.Object }) ∨
  ((S n).Kind = "SCALAR" ∧ heap[a]? = some { Scalar := { Value := n } })

/-- The invariant of the registry: its keys are distinct and every entry is an object node
or a scalar node registered under its own name. -/
structure RegOK (S : Schema) (st : St) : Prop where
  keys : (st.atoms.map Prod.fst).Nodup
  entries : ∀ n a, st.atoms.get n = some a → RegEntryOK S st.heap n a

/-- The top-level filter in the words of the specification, to be compared with `kept`: an
entry contributes a root when it has a name which does not start with `_` and is none of
the built-in scalars. -/
def isTopLevel (t : IType) : Bool :=
  match t.Name with
  | none => false
  | some n =>
    !HasPrefix n "_" && !decide (n ∈ ["String", "Boolean", "Float", "Int", "ID"])

end typer

namespace examples

open introspection typer

/-- The nodes that `ParseTypes` builds for `appleSchema`: `Apple` is node 0, the scalar
`String` node 1, the field `s` node 2 (a box around 1), the root of `Apple` node 3 (a box
around 0), `Query` node 4, the root of `Query` node 6 (a box around 4). -/
def appleHeap : List TypeNode :=
  match ParseTypes appleSchema id 4 [.named "Apple", .named "Query"] with
  | .ok _ st => st.heap
  | _ => []

end examples

/-! ## Package `generate` -/

namespace generate

open typer
open graphql (Outcome)

/-- The struct `Arg`: one argument of the args struct of a method. -/
structure Arg where
  Name : String
  Typ : String
  deriving DecidableEq

/-- The struct `Implement`: the mapping from an object to an interface it implements. -/
structure Implement where
  To : String
  From : String
  deriving DecidableEq

/-- The struct `Field`: a method on a resolver. -/
structure Field where
  Object : Bool
  Nullable : Bool
  Args : List Arg
  Field : String
  HasArg : Bool
  ResponseType : String
  List : Bool
  deriving DecidableEq

/-- The struct `Resolver`: the Go type produced for each resolver. -/
structure Resolver where
  Name : String
  Interface : Bool
  Implements : List Implement
  Fields : List Field
  deriving DecidableEq

/-- The struct `Generator`. -/
structure Generator where
  Resolvers : List Resolver
  deriving DecidableEq

/-- The loop `for _, arg := range field.Arguments` of `TypesToTmpl`: one `Arg` per argument,
in the order of the slice; `arg.Type.ToGoType()` may panic. -/
def argsLoop (heap : List TypeNode) (depth : Nat) : List Argument → Outcome (List Arg)
  | [] => .ret []
  | arg :: rest =>
    (ToGoType heap depth arg.Typ).bind fun ty =>
      (argsLoop heap depth rest).bind fun args => .ret ({ Name := arg.Name, Typ := ty } :: args)

/-- The body of the loop over `val.Object` in `TypesToTmpl`: the `Field` built for the entry
`key`, `field`.  The three flags are read from the node `field.Field` itself; reading
`field.Field.Named` panics on a nil pointer. -/
def makeField (Title : String → String) (heap : List TypeNode) (depth : Nat)
    (key : String) (field : ObjectField) : Outcome Field :=
  match field.Field with
  | none => .panic
  | some a =>
    match heap[a]? with
    | none => .panic
    | some ft =>
      (ToGoType heap depth field.Field).bind fun resp =>
        (argsLoop heap depth field.Arguments).bind fun args =>
          .ret { Object := decide (ft.Named ≠ "")
                 List := decide (ft.ListOf ≠ none)
                 Nullable := decide (ft.Nullable ≠ none)
                 Field := Title key
                 ResponseType := resp
                 HasArg := decide (0 < field.Arguments.length)
                 Args := args }

/-- The loop `for key, field := range val.Object`, over the entries of the map in the order
in which this run of the loop visits them. -/
def fieldsLoop (Title : String → String) (heap : List TypeNode) (depth : Nat) :
    List (String × ObjectField) → Outcome (List Field)
  | [] => .ret []
  | (key, field) :: rest =>
    (makeField Title heap depth key field).bind fun f =>
      (fieldsLoop Title heap depth rest).bind fun fs => .ret (f :: fs)

/-- The `Resolver` that `TypesToTmpl` builds for the named node `val` once the loop over its
fields has produced `fields`. -/
def resolverOf (val : TypeNode) (fields : List Field) : Resolver :=
  { Name := val.Named
    Interface := val.Interface
    Implements := val.Implements.map fun i => { To := val.Named, From := i }
    Fields := fields }

/-- The loop `for len(queue) > 0` of `TypesToTmpl`.  `order i m` is the order in which the
`range` statement of the `i`-th round visits the entries of the map `m` (Go fixes no
order); `depth` bounds the recursion of `ToGoType`, `fuel` the number of rounds. -/
def tmplLoop (Title : String → String)
    (order : Nat → GoMap ObjectField → List (String × ObjectField))
    (heap : List TypeNode) (depth : Nat) :
    Nat → Nat → List Ptr → List Resolver → Outcome Generator
  | _, _, [], acc => .ret { Resolvers := acc }
  | 0, _, _ :: _, _ => .outOfFuel
  | _ + 1, _, none :: _, _ => .panic
  | fuel + 1, i, some a :: rest, acc =>
    match heap[a]? with
    | none => .panic
    | some val =>
      let queue := if val.Nullable ≠ none then rest ++ [val.Nullable] else rest
      if val.Named = "" then tmplLoop Title order heap depth fuel (i + 1) queue acc
      else
        (fieldsLoop Title heap depth (order i (val.Object.getD []))).bind fun fields =>
          tmplLoop Title order heap depth fuel (i + 1) queue (acc ++ [resolverOf val fields])

/-- The function `TypesToTmpl`. -/
def TypesToTmpl (Title : String → String)
    (order : Nat → GoMap ObjectField → List (String × ObjectField))
    (heap : List TypeNode) (depth fuel : Nat) (types : List Ptr) : Outcome Generator :=
  tmplLoop Title order heap depth fuel 0 types []

end generate

/-! ### Predicates on the queue of `TypesToTmpl` -/

namespace graphql

/-- Whether an outcome is a normal return. -/
def Outcome.isRet {α : Type} : Outcome α → Bool
  | .ret _ => true
  | _ => false

end graphql

namespace generate

open typer
open graphql (Outcome)

/-- The node a pointer points to, if it is not nil and not dangling. -/
def nodeAt (heap : List TypeNode) (p : Ptr) : Option TypeNode :=
  p.bind fun a => heap[a]?

/-- The contents of the `Nullable` boxes among the entries of `q`, in order. -/
def contents (heap : List TypeNode) (q : List Ptr) : List Ptr :=
  q.filterMap fun p =>
    match nodeAt heap p with
    | some val => if val.Nullable ≠ none then some val.Nullable else none
    | none => none

/-- Whether a pointer points to a node with a name. -/
def isNamed (heap : List TypeNode) (p : Ptr) : Bool :=
  match nodeAt heap p with
  | some val => decide (val.Named ≠ "")
  | none => false

/-- The pointer `q` is reached from `p` by unwrapping `Nullable` boxes, zero or more. -/
inductive Unwraps (heap : List TypeNode) : Ptr → Ptr → Prop
  | refl (p : Ptr) : Unwraps heap p p
  | step {p q : Ptr} {val : TypeNode} : Unwraps heap p q → nodeAt heap q = some val →
      val.Nullable ≠ none → Unwraps heap p val.Nullable

/-- An order of iteration over Go maps: every round visits every entry of the map once. -/
def IsOrder (order : Nat → GoMap ObjectField → List (String × ObjectField)) : Prop :=
  ∀ i m, (order i m).Perm m

/-- The resolver `r` is the one built for the node at `p`: its name, interface flag and
implemented interfaces are those of the node, and its fields are built from the entries of
the node's map `Object`, each once, in some order. -/
def Emits (Title : String → String) (heap : List TypeNode) (depth : Nat) (p : Ptr)
    (r : Resolver) : Prop :=
  ∃ val l fields, nodeAt heap p = some val ∧ l.Perm (val.Object.getD []) ∧
    fieldsLoop Title heap depth l = .ret fields ∧ r = resolverOf val fields

/-- The node at `p` exists and, if it has a name, each of its fields can be built: the type
of the field and of every argument is a node on which `ToGoType` returns within `depth`. -/
def Renders (Title : String → String) (heap : List TypeNode) (depth : Nat) (p : Ptr) : Prop :=
  match nodeAt heap p with
  | none => False
  | some val => val.Named = "" ∨
      ∀ kv ∈ val.Object.getD [], (makeField Title heap depth kv.1 kv.2).isRet = true

instance (Title : String → String) (heap : List TypeNode) (depth : Nat) (p : Ptr) :
    Decidable (Renders Title heap depth p) := by
  unfold Renders
  split <;> infer_instance

/-- Two resolvers agree but for the order of their fields. -/
def SameUpToFieldOrder (r1 r2 : Resolver) : Prop :=
  r1.Name = r2.Name ∧ r1.Interface = r2.Interface ∧ r1.Implements = r2.Implements ∧
    r1.Fields.Perm r2.Fields

end generate

namespace examples

open introspection typer generate

/-- A schema with an object of two fields: `Query{a: Int, b: String}`. -/
def pairSchema : Schema := fun n =>
  if n = "Query" then
    { Kind := "OBJECT", Fields := some [{ Name := "a", Args := [], Typ := .named "Int" },
        { Name := "b", Args := [], Typ := .named "String" }] }
  else { Kind := "SCALAR" }

/-- A schema with an internal type that only a field refers to: `Query{h: _Hidden}`,
`_Hidden{s: String}`. -/
def hiddenSchema : Schema := fun n =>
  if n = "Query" then
    { Kind := "OBJECT", Fields := some [{ Name := "h", Args := [], Typ := .named "_Hidden" }] }
  else if n = "_Hidden" then
    { Kind := "OBJECT", Fields := some [{ Name := "s", Args := [], Typ := .named "String" }] }
  else { Kind := "SCALAR" }

/-- The function `strings.Title` on a single word of ASCII letters, as the names of the
examples are: the first letter in upper case. -/
def title (s : String) : String :=
  match s.data with
  | [] => ""
  | c :: cs => String.mk (c.toUpper :: cs)

/-- The order in which a run visits the entries of a map: as they are stored. -/
def stored : Nat → GoMap ObjectField → List (String × ObjectField) := fun _ m => m

/-- Another order in which a run may visit the entries of a map: the reverse. -/
def reversed : Nat → GoMap ObjectField → List (String × ObjectField) := fun _ m => m.reverse

end examples

namespace examples

open introspection typer generate

/-- A schema with a list field: `Query{l: [String]}`. -/
def listSchema : Schema := fun n =>
  if n = "Query" then
    { Kind := "OBJECT", Fields := some [{ Name := "l", Args := [], Typ := .list (.named "String") }] }
  else { Kind := "SCALAR" }

/-- The nodes that `ParseTypes` builds for `pairSchema`: `Query` is node 0, its fields `a`
and `b` are the boxes 2 and 4, the root is node 5, a box around 0. -/
def pairHeap : List TypeNode :=
  match ParseTypes pairSchema id 4 [.named "Query"] with
  | .ok _ st => st.heap
  | _ => []

end examples

namespace typer

open introspection

/-- The map `m` holds, under the name of each field of `fs`, a pointer resolved from the type
of a field of that name; when that type is built from a scalar, the node has the shape that
the specification prescribes for it in a nullable context. -/
def FieldsShaped (S : Schema) (heap : List TypeNode) (m : GoMap ObjectField)
    (fs : List Field) : Prop :=
  ∀ fld ∈ fs, ∃ entry fld2, m.get fld.Name = some entry ∧ fld2 ∈ fs ∧
    fld2.Name = fld.Name ∧
    (ScalarExpr S fld2.Typ → hasShape heap (specShape true fld2.Typ) entry.Field = true)

end typer

namespace examples

open introspection typer

/-- The four fields of the specification on one object:
`Query{a: Int, b: Int!, c: [String], d: [String!]!}`. -/
def fourSchema : Schema := fun n =>
  if n = "Query" then
    { Kind := "OBJECT"
      Fields := some [
        { Name := "a", Args := [], Typ := .named "Int" },
        { Name := "b", Args := [], Typ := .nonNull (.named "Int") },
        { Name := "c", Args := [], Typ := .list (.named "String") },
        { Name := "d", Args := [], Typ := .nonNull (.list (.nonNull (.named "String"))) }] }
  else { Kind := "SCALAR" }

end examples

/-! # Theorems -/

/-! ## Package `typer` -/

namespace typer
open introspection

@[simp] theorem Res.bind_ok {α β : Type} (a : α) (st : St) (f : α → St → Res β) :
    (Res.ok a st).bind f = f a st := rfl

theorem Res.bind_eq_ok {α β : Type} {r : Res α} {f : α → St → Res β} {b : β} {st2 : St}
    (h : r.bind f = .ok b st2) : ∃ a st1, r = .ok a st1 ∧ f a st1 = .ok b st2 := by
  cases r with
  | ok a st1 => exact ⟨a, st1, rfl, h⟩
  | panic => cases h
  | outOfFuel => cases h

theorem resolveType_nonNull (S : Schema) (Title : String → String) (fuel : Nat)
    (nullable : Bool) (u : IType) (st : St) :
    resolveType S Title (fuel + 1) nullable (.nonNull u) st =
      resolveType S Title fuel false u st := by
  simp [resolveType, IType.Kind, IType.OfType]

theorem resolveType_list (S : Schema) (Title : String → String) (fuel : Nat)
    (nullable : Bool) (u : IType) (st : St) :
    resolveType S Title (fuel + 1) nullable (.list u) st =
      (resolveType S Title fuel true u st).bind fun elem st =>
        boxIf nullable st.heap.length { st with heap := st.heap ++ [{ ListOf := elem }] } := by
  simp [resolveType, IType.Kind, IType.OfType, alloc]

theorem resolveType_scalar (S : Schema) (Title : String → String) (fuel : Nat)
    (nullable : Bool) (n : String) (st : St) (hk : (S n).Kind = "SCALAR") :
    resolveType S Title (fuel + 1) nullable (.named n) st =
      boxIf nullable st.heap.length
        { heap := st.heap ++ [{ Scalar := { Value := n } }],
          atoms := st.atoms.set n st.heap.length } := by
  simp [resolveType, IType.Kind, IType.Name, alloc, hk]

theorem resolveType_enum (S : Schema) (Title : String → String) (fuel : Nat)
    (nullable : Bool) (n : String) (st : St) (hk : (S n).Kind = "ENUM") :
    resolveType S Title (fuel + 1) nullable (.named n) st =
      boxIf nullable st.heap.length
        { st with heap := st.heap ++ [{ Enum := enumValSet (S n).EnumValues }] } := by
  simp [resolveType, IType.Kind, IType.EnumValues, alloc, hk]

theorem resolveType_wrapperKind (S : Schema) (Title : String → String) (fuel : Nat)
    (nullable : Bool) (n : String) (st : St)
    (hk : (S n).Kind = "NON_NULL" ∨ (S n).Kind = "LIST") :
    resolveType S Title (fuel + 1) nullable (.named n) st = .panic := by
  rcases hk with hk | hk <;> simp [resolveType, IType.Kind, IType.OfType, hk]

theorem resolveType_unsupported (S : Schema) (Title : String → String) (fuel : Nat)
    (nullable : Bool) (t : IType) (st : St)
    (h1 : t.Kind S ≠ "NON_NULL") (h2 : t.Kind S ≠ "SCALAR") (h3 : ¬ isObjKind (t.Kind S))
    (h4 : t.Kind S ≠ "LIST") (h5 : t.Kind S ≠ "ENUM") :
    resolveType S Title (fuel + 1) nullable t st = .ok none st := by
  unfold isObjKind at h3
  simp [resolveType, h1, h2, h3, h4, h5]

theorem modify_append_length {α : Type} (l : List α) (x : α) (f : α → α) :
    (l ++ [x]).modify f l.length = l ++ [f x] := by
  induction l with
  | nil => rfl
  | cons a l ih => simp [List.modify_succ_cons, ih]

theorem resolveType_object (S : Schema) (Title : String → String) (fuel : Nat)
    (nullable : Bool) (n : String) (st : St) (hk : isObjKind (S n).Kind) :
    resolveType S Title (fuel + 1) nullable (.named n) st =
      match st.atoms.get n with
      | some r => .ok (some r) { st with heap := st.heap ++ [objNode S n] }
      | none =>
        match (S n).Fields with
        | some fs =>
          (resolveFields Title (resolveType S Title fuel) fs []
            { heap := st.heap ++ [objNode S n],
              atoms := st.atoms.set n st.heap.length }).bind fun fields st2 =>
            boxIf nullable st.heap.length
              (st2.modify st.heap.length fun o => { o with Object := some fields })
        | none => boxIf nullable st.heap.length
            { heap := st.heap ++ [objNode S n],
              atoms := st.atoms.set n st.heap.length } := by
  have h1 : (S n).Kind ≠ "NON_NULL" := by
    rcases hk with h | h | h <;> rw [h] <;> decide
  have h2 : (S n).Kind ≠ "SCALAR" := by
    rcases hk with h | h | h <;> rw [h] <;> decide
  unfold isObjKind at hk
  rw [resolveType]
  simp only [IType.Kind, h1, h2, hk, if_true, if_false, IType.Name, IType.Interfaces,
    IType.Fields, alloc, St.modify, modify_append_length]
  cases hg : st.atoms.get n with
  | some r => simp [objNode]
  | none => cases (S n).Fields <;> simp [objNode]

end typer

namespace typer
open introspection

theorem kind_cases (k : String) :
    k = "NON_NULL" ∨ k = "LIST" ∨ k = "SCALAR" ∨ isObjKind k ∨ k = "ENUM" ∨
    (k ≠ "NON_NULL" ∧ k ≠ "SCALAR" ∧ ¬ isObjKind k ∧ k ≠ "LIST" ∧ k ≠ "ENUM") := by
  by_cases h1 : k = "NON_NULL"
  · exact Or.inl h1
  by_cases h2 : k = "LIST"
  · exact Or.inr (Or.inl h2)
  by_cases h3 : k = "SCALAR"
  · exact Or.inr (Or.inr (Or.inl h3))
  by_cases h4 : isObjKind k
  · exact Or.inr (Or.inr (Or.inr (Or.inl h4)))
  by_cases h5 : k = "ENUM"
  · exact Or.inr (Or.inr (Or.inr (Or.inr (Or.inl h5))))
  exact Or.inr (Or.inr (Or.inr (Or.inr (Or.inr ⟨h1, h3, h4, h2, h5⟩))))

theorem GoMap.get_set_self {V : Type} (m : GoMap V) (k : String) (v : V) :
    (m.set k v).get k = some v := by
  induction m with
  | nil => simp [GoMap.set, GoMap.get]
  | cons e m ih =>
    obtain ⟨k2, v2⟩ := e
    by_cases h : k2 = k
    · simp [GoMap.set, GoMap.get, h]
    · simp [GoMap.set, GoMap.get, h, ih]

theorem GoMap.get_set_ne {V : Type} (m : GoMap V) (k k2 : String) (v : V) (h : k2 ≠ k) :
    (m.set k v).get k2 = m.get k2 := by
  induction m with
  | nil => simp [GoMap.set, GoMap.get, Ne.symm h]
  | cons e m ih =>
    obtain ⟨k3, v3⟩ := e
    by_cases h3 : k3 = k
    · subst h3
      simp [GoMap.set, GoMap.get, Ne.symm h]
    · by_cases h4 : k3 = k2
      · subst h4
        simp [GoMap.set, GoMap.get, h3]
      · simp [GoMap.set, GoMap.get, h3, h4, ih]

theorem prefix_modify {α : Type} (f : α → α) :
    ∀ (l l2 : List α) (p : Nat), l <+: l2 → l.length ≤ p → l <+: l2.modify f p := by
  intro l
  induction l with
  | nil => intro l2 p _ _; exact List.nil_prefix
  | cons a l ih =>
    intro l2 p hpre hp
    obtain ⟨t, rfl⟩ := hpre
    obtain ⟨q, rfl⟩ : ∃ q, p = q + 1 := ⟨p - 1, by simp at hp; omega⟩
    simp only [List.cons_append, List.modify_succ_cons]
    have := ih (l ++ t) q (List.prefix_append l t) (by simpa using hp)
    exact List.cons_prefix_cons.mpr ⟨rfl, this⟩

namespace Ext

theorem refl (S : Schema) (st : St) : Ext S st st :=
  ⟨List.prefix_refl _, fun _ _ _ h => h, fun _ h => h⟩

theorem trans {S : Schema} {st1 st2 st3 : St} (h12 : Ext S st1 st2) (h23 : Ext S st2 st3) :
    Ext S st1 st3 :=
  ⟨h12.heap.trans h23.heap, fun n a ho h => h23.objs n a ho (h12.objs n a ho h),
    fun n h => h23.keys n (h12.keys n h)⟩

/-- Allocation extends the state. -/
theorem push (S : Schema) (st : St) (v : TypeNode) :
    Ext S st { st with heap := st.heap ++ [v] } :=
  ⟨List.prefix_append _ _, fun _ _ _ h => h, fun _ h => h⟩

/-- An assignment to a node that the earlier state does not have extends that state. -/
theorem modify {S : Schema} {st1 st2 : St} (h : Ext S st1 st2) (p : Nat)
    (hp : st1.heap.length ≤ p) (f : TypeNode → TypeNode) : Ext S st1 (st2.modify p f) :=
  ⟨prefix_modify f _ _ p h.heap hp, h.objs, h.keys⟩

/-- Registering a name that is no object, or is not yet registered, extends the state. -/
theorem register (S : Schema) (st : St) (v : TypeNode) (n : String) (a : Nat)
    (hn : ¬ isObjKind (S n).Kind ∨ st.atoms.get n = none) :
    Ext S st { heap := st.heap ++ [v], atoms := st.atoms.set n a } := by
  refine ⟨List.prefix_append _ _, ?_, ?_⟩
  · intro n2 a2 ho h
    have hne : n2 ≠ n := by
      rintro rfl
      rcases hn with hn | hn
      · exact hn ho
      · rw [hn] at h; cases h
    simpa [GoMap.get_set_ne _ _ _ _ hne] using h
  · intro n2 h
    by_cases hne : n2 = n
    · subst hne
      simp [GoMap.get_set_self]
    · simpa [GoMap.get_set_ne _ _ _ _ hne] using h

end Ext

theorem boxIf_ext (S : Schema) (nullable : Bool) (a : Nat) (st : St) (r : Ptr) (st2 : St)
    (h : boxIf nullable a st = .ok r st2) : Ext S st st2 := by
  unfold boxIf at h
  cases nullable with
  | true =>
    simp only [alloc, if_true] at h
    cases h
    exact Ext.push S st _
  | false =>
    simp only [Bool.false_eq_true, if_false] at h
    cases h
    exact Ext.refl S st

theorem resolveArgs_ext (S : Schema) (Title : String → String)
    (rec : Bool → IType → St → Res Ptr)
    (hrec : ∀ nullable t st r st2, rec nullable t st = .ok r st2 → Ext S st st2) :
    ∀ (args : List InputValue) (acc : List Argument) (st : St) (r : List Argument) (st2 : St),
      resolveArgs Title rec args acc st = .ok r st2 → Ext S st st2 := by
  intro args
  induction args with
  | nil =>
    intro acc st r st2 h
    simp only [resolveArgs] at h
    cases h
    exact Ext.refl S st
  | cons arg rest ih =>
    intro acc st r st2 h
    simp only [resolveArgs] at h
    obtain ⟨p, st1, h1, h2⟩ := Res.bind_eq_ok h
    exact (hrec _ _ _ _ _ h1).trans (ih _ _ _ _ h2)

theorem resolveFields_ext (S : Schema) (Title : String → String)
    (rec : Bool → IType → St → Res Ptr)
    (hrec : ∀ nullable t st r st2, rec nullable t st = .ok r st2 → Ext S st st2) :
    ∀ (fs : List Field) (m : GoMap ObjectField) (st : St) (r : GoMap ObjectField) (st2 : St),
      resolveFields Title rec fs m st = .ok r st2 → Ext S st st2 := by
  intro fs
  induction fs with
  | nil =>
    intro m st r st2 h
    simp only [resolveFields] at h
    cases h
    exact Ext.refl S st
  | cons fld rest ih =>
    intro m st r st2 h
    simp only [resolveFields] at h
    obtain ⟨fa, st1, h1, h2⟩ := Res.bind_eq_ok h
    obtain ⟨ft, st1b, h3, h4⟩ := Res.bind_eq_ok h2
    exact ((resolveArgs_ext S Title rec hrec _ _ _ _ _ h1).trans (hrec _ _ _ _ _ h3)).trans
      (ih _ _ _ _ h4)

/-- Every call of `resolveType` that returns extends the state it was given. -/
theorem resolveType_ext (S : Schema) (Title : String → String) :
    ∀ (fuel : Nat) (nullable : Bool) (t : IType) (st : St) (r : Ptr) (st2 : St),
      resolveType S Title fuel nullable t st = .ok r st2 → Ext S st st2 := by
  intro fuel
  induction fuel with
  | zero => intro nullable t st r st2 h; simp [resolveType] at h
  | succ fuel ih =>
    intro nullable t st r st2 h
    cases t with
    | nonNull u =>
      rw [resolveType_nonNull] at h
      exact ih _ _ _ _ _ h
    | list u =>
      rw [resolveType_list] at h
      obtain ⟨e, st1, h1, h2⟩ := Res.bind_eq_ok h
      exact (ih _ _ _ _ _ h1).trans ((Ext.push S st1 _).trans (boxIf_ext S _ _ _ _ _ h2))
    | named n =>
      rcases kind_cases (S n).Kind with hk | hk | hk | hk | hk | ⟨k1, k2, k3, k4, k5⟩
      · rw [resolveType_wrapperKind S Title fuel nullable n st (Or.inl hk)] at h; cases h
      · rw [resolveType_wrapperKind S Title fuel nullable n st (Or.inr hk)] at h; cases h
      · rw [resolveType_scalar S Title fuel nullable n st hk] at h
        have hno : ¬ isObjKind (S n).Kind := by rw [hk]; decide
        exact (Ext.register S st _ n _ (Or.inl hno)).trans (boxIf_ext S _ _ _ _ _ h)
      · rw [resolveType_object S Title fuel nullable n st hk] at h
        cases hg : st.atoms.get n with
        | some a =>
          simp only [hg] at h
          cases h
          exact Ext.push S st _
        | none =>
          simp only [hg] at h
          have hreg := Ext.register S st (objNode S n) n st.heap.length (Or.inr hg)
          cases hf : (S n).Fields with
          | none =>
            simp only [hf] at h
            exact hreg.trans (boxIf_ext S _ _ _ _ _ h)
          | some fs =>
            simp only [hf] at h
            obtain ⟨m, st1, h1, h2⟩ := Res.bind_eq_ok h
            have hloop := resolveFields_ext S Title _ ih _ _ _ _ _ h1
            exact ((hreg.trans hloop).modify _ (Nat.le_refl _) _).trans
              (boxIf_ext S _ _ _ _ _ h2)
      · rw [resolveType_enum S Title fuel nullable n st hk] at h
        exact (Ext.push S st _).trans (boxIf_ext S _ _ _ _ _ h)
      · rw [resolveType_unsupported S Title fuel nullable (.named n) st k1 k2 k3 k4 k5] at h
        cases h
        exact Ext.refl S st

end typer

namespace typer
open introspection

theorem prefix_getElem? {α : Type} {l l2 : List α} (h : l <+: l2) {b : Nat} {o : α}
    (hb : l[b]? = some o) : l2[b]? = some o := by
  obtain ⟨t, rfl⟩ := h
  have hlt : b < l.length := (List.getElem?_eq_some.mp hb).1
  rw [List.getElem?_append_left hlt]
  exact hb

theorem RefersTo.mono {st st2 : St} {q : Ptr} {a : Nat} (hp : st.heap <+: st2.heap)
    (h : RefersTo st q a) : RefersTo st2 q a := by
  obtain ⟨b, o, hq, hb, ho⟩ := h
  exact ⟨b, o, hq, prefix_getElem? hp hb, ho⟩

theorem RefersTo.modify_object {st : St} {q : Ptr} {a : Nat} (p : Nat)
    (x : Option (GoMap ObjectField)) (h : RefersTo st q a) :
    RefersTo (st.modify p fun o => { o with Object := x }) q a := by
  obtain ⟨b, o, hq, hb, ho⟩ := h
  by_cases hpb : p = b
  · subst hpb
    refine ⟨p, { o with Object := x }, hq, ?_, ho⟩
    simp [St.modify, List.getElem?_modify, hb]
  · refine ⟨b, o, hq, ?_, ho⟩
    simp [St.modify, List.getElem?_modify_ne _ _ hpb, hb]

theorem RefersTo.unwrap {st : St} {q : Ptr} {a : Nat} (h : RefersTo st q a) :
    unwrapNullable st.heap q = some a := by
  obtain ⟨b, o, rfl, hb, ho⟩ := h
  rcases ho with ho | ⟨ho, rfl⟩ <;> simp [unwrapNullable, hb, ho]

theorem FieldOK.extend {S : Schema} {st st2 : St} {q : Ptr} {e : IType} (hx : Ext S st st2)
    (h : FieldOK S st q e) : FieldOK S st2 q e := by
  intro T hT ho
  obtain ⟨a, ha, hr⟩ := h T hT ho
  exact ⟨a, hx.objs T a ho ha, hr.mono hx.heap⟩

theorem FieldOK.setObject {S : Schema} {st : St} {q : Ptr} {e : IType} (p : Nat)
    (x : Option (GoMap ObjectField)) (h : FieldOK S st q e) :
    FieldOK S (st.modify p fun o => { o with Object := x }) q e := by
  intro T hT ho
  obtain ⟨a, ha, hr⟩ := h T hT ho
  exact ⟨a, ha, hr.modify_object p x⟩

theorem FieldsOK.extendAll {S : Schema} {st st2 : St} {m : GoMap ObjectField} {fs : List Field}
    (hx : Ext S st st2) (h : FieldsOK S st m fs) : FieldsOK S st2 m fs := by
  intro fld hfld
  obtain ⟨entry, fld2, h1, h2, h3, h4⟩ := h fld hfld
  exact ⟨entry, fld2, h1, h2, h3, h4.extend hx⟩

theorem FieldsOK.setObjectAll {S : Schema} {st : St} {m : GoMap ObjectField}
    {fs : List Field} (p : Nat) (x : Option (GoMap ObjectField)) (h : FieldsOK S st m fs) :
    FieldsOK S (st.modify p fun o => { o with Object := x }) m fs := by
  intro fld hfld
  obtain ⟨entry, fld2, h1, h2, h3, h4⟩ := h fld hfld
  exact ⟨entry, fld2, h1, h2, h3, h4.setObject p x⟩

theorem Complete.extendNode {S : Schema} {st st2 : St} {n : String} {a : Nat} (hx : Ext S st st2)
    (h : Complete S st n a) : Complete S st2 n a := by
  intro fs hfs
  obtain ⟨o, m, h1, h2, h3⟩ := h fs hfs
  exact ⟨o, m, prefix_getElem? hx.heap h1, h2, h3.extendAll hx⟩

theorem Complete.setObjectOther {S : Schema} {st : St} {n : String} {a : Nat} (p : Nat)
    (hpa : p ≠ a) (x : Option (GoMap ObjectField)) (h : Complete S st n a) :
    Complete S (st.modify p fun o => { o with Object := x }) n a := by
  intro fs hfs
  obtain ⟨o, m, h1, h2, h3⟩ := h fs hfs
  refine ⟨o, m, ?_, h2, h3.setObjectAll p x⟩
  simp [St.modify, List.getElem?_modify_ne _ _ hpa, h1]

/-- The invariant survives an extension of the state that registers no object. -/
theorem Inv.of_ext {S : Schema} {pending : List String} {st st2 : St}
    (h : Inv S pending st) (hx : Ext S st st2)
    (hobj : ∀ n a, isObjKind (S n).Kind → st2.atoms.get n = some a →
      st.atoms.get n = some a) : Inv S pending st2 := by
  constructor
  · intro n a ho ha
    obtain ⟨o, h1, h2, h3⟩ := h.node n a ho (hobj n a ho ha)
    exact ⟨o, prefix_getElem? hx.heap h1, h2, h3⟩
  · intro n a ho ha hp
    exact (h.complete n a ho (hobj n a ho ha) hp).extendNode hx

theorem Inv.alloc {S : Schema} {pending : List String} {st : St} (h : Inv S pending st)
    (v : TypeNode) : Inv S pending { st with heap := st.heap ++ [v] } :=
  h.of_ext (Ext.push S st v) fun _ _ _ ha => ha

/-- Registering a scalar keeps the invariant. -/
theorem Inv.registerOther {S : Schema} {pending : List String} {st : St}
    (h : Inv S pending st) (v : TypeNode) (n : String) (a : Nat)
    (hn : ¬ isObjKind (S n).Kind) :
    Inv S pending { heap := st.heap ++ [v], atoms := st.atoms.set n a } := by
  refine h.of_ext (Ext.register S st v n a (Or.inl hn)) ?_
  intro n2 a2 ho ha
  have hne : n2 ≠ n := by
    rintro rfl
    exact hn ho
  simpa [GoMap.get_set_ne _ _ _ _ hne] using ha

/-- Registering an object before its fields are resolved keeps the invariant, with the
object pending. -/
theorem Inv.registerObject {S : Schema} {pending : List String} {st : St}
    (h : Inv S pending st) (n : String) (hg : st.atoms.get n = none) :
    Inv S (n :: pending)
      { heap := st.heap ++ [objNode S n], atoms := st.atoms.set n st.heap.length } := by
  have hx := Ext.register S st (objNode S n) n st.heap.length (Or.inr hg)
  constructor
  · intro n2 a2 ho ha
    by_cases hne : n2 = n
    · subst hne
      rw [GoMap.get_set_self] at ha
      cases ha
      exact ⟨objNode S n2, by simp, rfl, rfl⟩
    · rw [GoMap.get_set_ne _ _ _ _ hne] at ha
      obtain ⟨o, h1, h2, h3⟩ := h.node n2 a2 ho ha
      exact ⟨o, prefix_getElem? hx.heap h1, h2, h3⟩
  · intro n2 a2 ho ha hp
    have hne : n2 ≠ n := fun e => hp (e ▸ List.mem_cons_self _ _)
    rw [GoMap.get_set_ne _ _ _ _ hne] at ha
    exact (h.complete n2 a2 ho ha (fun hm => hp (List.mem_cons_of_mem _ hm))).extendNode hx

/-- Storing the resolved fields in a pending object completes it. -/
theorem Inv.completeObject {S : Schema} {pending : List String} {st : St} {n : String}
    {obj : Nat} (h : Inv S (n :: pending) st) (ho : isObjKind (S n).Kind)
    (hreg : st.atoms.get n = some obj) (m : GoMap ObjectField)
    (hm : ∀ fs, (S n).Fields = some fs → FieldsOK S st m fs) :
    Inv S pending (st.modify obj fun o => { o with Object := some m }) := by
  obtain ⟨oo, hoo1, hoo2, hoo3⟩ := h.node n obj ho hreg
  constructor
  · intro n2 a2 ho2 ha
    obtain ⟨o, h1, h2, h3⟩ := h.node n2 a2 ho2 ha
    by_cases hpa : obj = a2
    · subst hpa
      exact ⟨{ o with Object := some m }, by simp [St.modify, List.getElem?_modify, h1],
        h2, h3⟩
    · exact ⟨o, by simp [St.modify, List.getElem?_modify_ne _ _ hpa, h1], h2, h3⟩
  · intro n2 a2 ho2 ha hp
    by_cases hne : n2 = n
    · subst hne
      have ha2 : st.atoms.get n2 = some a2 := ha
      rw [hreg] at ha2
      cases ha2
      intro fs hfs
      refine ⟨{ oo with Object := some m }, m, ?_, rfl, (hm fs hfs).setObjectAll _ _⟩
      simp [St.modify, List.getElem?_modify, hoo1]
    · have hp2 : n2 ∉ n :: pending := by
        intro hmem
        rcases List.mem_cons.mp hmem with e | e
        · exact hne e
        · exact hp e
      have hc := h.complete n2 a2 ho2 ha hp2
      have hpa : obj ≠ a2 := by
        rintro rfl
        obtain ⟨o, h1, h2, _⟩ := h.node n2 obj ho2 ha
        rw [hoo1] at h1
        cases h1
        exact hne (h2.symm.trans hoo2)
      exact hc.setObjectOther obj hpa _

/-- An object without field list is complete as it is. -/
theorem Inv.completeEmpty {S : Schema} {pending : List String} {st : St} {n : String}
    (h : Inv S (n :: pending) st) (hf : (S n).Fields = none) : Inv S pending st := by
  constructor
  · exact h.node
  · intro n2 a2 ho2 ha hp
    by_cases hne : n2 = n
    · subst hne
      intro fs hfs
      rw [hf] at hfs
      cases hfs
    · exact h.complete n2 a2 ho2 ha (by
        intro hmem
        rcases List.mem_cons.mp hmem with e | e
        · exact hne e
        · exact hp e)

end typer

namespace typer
open introspection

theorem boxIf_refersTo (nullable : Bool) (a : Nat) (st : St) (r : Ptr) (st2 : St)
    (h : boxIf nullable a st = .ok r st2) (o : TypeNode) (ha : st.heap[a]? = some o)
    (hn : o.Nullable = none) : RefersTo st2 r a := by
  unfold boxIf at h
  cases nullable with
  | true =>
    simp only [alloc, if_true] at h
    cases h
    exact ⟨st.heap.length, { Nullable := some a }, rfl, by simp, Or.inl rfl⟩
  | false =>
    simp only [Bool.false_eq_true, if_false] at h
    cases h
    exact ⟨a, o, rfl, ha, Or.inr ⟨hn, rfl⟩⟩

theorem boxIf_inv {S : Schema} {pending : List String} (nullable : Bool) (a : Nat) (st : St)
    (r : Ptr) (st2 : St) (h : boxIf nullable a st = .ok r st2) (hinv : Inv S pending st) :
    Inv S pending st2 := by
  unfold boxIf at h
  cases nullable with
  | true =>
    simp only [alloc, if_true] at h
    cases h
    exact hinv.alloc _
  | false =>
    simp only [Bool.false_eq_true, if_false] at h
    cases h
    exact hinv

theorem FieldOK.of_not_object {S : Schema} (st : St) (q : Ptr) (n : String)
    (hn : ¬ isObjKind (S n).Kind) : FieldOK S st q (.named n) := by
  intro T hT ho
  simp only [referent, Option.some.injEq] at hT
  subst hT
  exact absurd ho hn

theorem FieldOK.list {S : Schema} (st : St) (q : Ptr) (u : IType) :
    FieldOK S st q (.list u) := by
  intro T hT
  simp [referent] at hT

theorem resolveArgs_inv (S : Schema) (Title : String → String) (pending : List String)
    (rec : Bool → IType → St → Res Ptr) (hspec : CallSpec S pending rec) :
    ∀ (args : List InputValue) (acc : List Argument) (st : St) (r : List Argument) (st2 : St),
      Inv S pending st → resolveArgs Title rec args acc st = .ok r st2 →
      Inv S pending st2 := by
  intro args
  induction args with
  | nil =>
    intro acc st r st2 hinv h
    simp only [resolveArgs] at h
    cases h
    exact hinv
  | cons arg rest ih =>
    intro acc st r st2 hinv h
    simp only [resolveArgs] at h
    obtain ⟨p, st1, h1, h2⟩ := Res.bind_eq_ok h
    exact ih _ _ _ _ (hspec _ _ _ _ _ hinv h1).1 h2

theorem resolveFields_inv (S : Schema) (Title : String → String) (pending : List String)
    (rec : Bool → IType → St → Res Ptr)
    (hext : ∀ nullable t st r st2, rec nullable t st = .ok r st2 → Ext S st st2)
    (hspec : CallSpec S pending rec) :
    ∀ (fs done : List Field) (m : GoMap ObjectField) (st : St) (m2 : GoMap ObjectField)
      (st2 : St),
      Inv S pending st → FieldsOK S st m done →
      resolveFields Title rec fs m st = .ok m2 st2 →
      Inv S pending st2 ∧ FieldsOK S st2 m2 (done ++ fs) := by
  intro fs
  induction fs with
  | nil =>
    intro done m st m2 st2 hinv hm h
    simp only [resolveFields] at h
    cases h
    simpa using ⟨hinv, hm⟩
  | cons fld rest ih =>
    intro done m st m2 st2 hinv hm h
    simp only [resolveFields] at h
    obtain ⟨fa, st1, h1, h2⟩ := Res.bind_eq_ok h
    obtain ⟨ft, st1b, h3, h4⟩ := Res.bind_eq_ok h2
    have hinv1 := resolveArgs_inv S Title pending rec hspec _ _ _ _ _ hinv h1
    have hx1 := resolveArgs_ext S Title rec hext _ _ _ _ _ h1
    obtain ⟨hinv2, hft⟩ := hspec _ _ _ _ _ hinv1 h3
    have hx2 := hext _ _ _ _ _ h3
    have hm2 : FieldsOK S st1b
        (m.set fld.Name { Field := ft, Arguments := fa }) (done ++ [fld]) := by
      intro f hf
      by_cases hname : f.Name = fld.Name
      · refine ⟨{ Field := ft, Arguments := fa }, fld, ?_, by simp, hname.symm, hft⟩
        rw [hname, GoMap.get_set_self]
      · have hfd : f ∈ done := by
          rcases List.mem_append.mp hf with hf | hf
          · exact hf
          · rw [List.mem_singleton.mp hf] at hname
            exact absurd rfl hname
        obtain ⟨entry, fld2, e1, e2, e3, e4⟩ := hm f hfd
        refine ⟨entry, fld2, ?_, List.mem_append_left _ e2, e3, e4.extend (hx1.trans hx2)⟩
        rw [GoMap.get_set_ne _ _ _ _ hname]
        exact e1
    have := ih (done ++ [fld]) _ _ _ _ hinv2 hm2 h4
    simpa using this

/-- The invariant is kept by `resolveType`, and the pointer it returns was resolved from the
type it was given. -/
theorem resolveType_spec (S : Schema) (Title : String → String) :
    ∀ (fuel : Nat) (pending : List String), CallSpec S pending (resolveType S Title fuel) := by
  intro fuel
  induction fuel with
  | zero => intro pending nullable t st r st2 _ h; simp [resolveType] at h
  | succ fuel ih =>
    intro pending nullable t st r st2 hinv h
    cases t with
    | nonNull u =>
      rw [resolveType_nonNull] at h
      obtain ⟨h1, h2⟩ := ih pending _ _ _ _ _ hinv h
      exact ⟨h1, fun T hT ho => h2 T (by simpa [referent] using hT) ho⟩
    | list u =>
      rw [resolveType_list] at h
      obtain ⟨e, st1, h1, h2⟩ := Res.bind_eq_ok h
      obtain ⟨hinv1, _⟩ := ih pending _ _ _ _ _ hinv h1
      exact ⟨boxIf_inv _ _ _ _ _ h2 (hinv1.alloc _), FieldOK.list _ _ _⟩
    | named n =>
      rcases kind_cases (S n).Kind with hk | hk | hk | hk | hk | ⟨k1, k2, k3, k4, k5⟩
      · rw [resolveType_wrapperKind S Title fuel nullable n st (Or.inl hk)] at h; cases h
      · rw [resolveType_wrapperKind S Title fuel nullable n st (Or.inr hk)] at h; cases h
      · rw [resolveType_scalar S Title fuel nullable n st hk] at h
        have hno : ¬ isObjKind (S n).Kind := by rw [hk]; decide
        exact ⟨boxIf_inv _ _ _ _ _ h (hinv.registerOther _ n _ hno),
          FieldOK.of_not_object _ _ n hno⟩
      · rw [resolveType_object S Title fuel nullable n st hk] at h
        cases hg : st.atoms.get n with
        | some a =>
          simp only [hg] at h
          cases h
          refine ⟨hinv.alloc _, ?_⟩
          intro T hT ho
          simp only [referent, Option.some.injEq] at hT
          subst hT
          obtain ⟨o, h1, _, h3⟩ := hinv.node n a ho hg
          exact ⟨a, hg, a, o, rfl,
            prefix_getElem? (List.prefix_append _ _) h1, Or.inr ⟨h3, rfl⟩⟩
        | none =>
          simp only [hg] at h
          have hreg := hinv.registerObject n hg
          have hget : (st.atoms.set n st.heap.length).get n = some st.heap.length :=
            GoMap.get_set_self _ _ _
          cases hf : (S n).Fields with
          | none =>
            simp only [hf] at h
            have hinv3 := hreg.completeEmpty hf
            refine ⟨boxIf_inv _ _ _ _ _ h hinv3, ?_⟩
            intro T hT ho
            simp only [referent, Option.some.injEq] at hT
            subst hT
            have hx := boxIf_ext S _ _ _ _ _ h
            exact ⟨st.heap.length, hx.objs n _ ho hget,
              boxIf_refersTo _ _ _ _ _ h (objNode S n) (by simp) rfl⟩
          | some fs =>
            simp only [hf] at h
            obtain ⟨m, st1, h1, h2⟩ := Res.bind_eq_ok h
            have hext := resolveType_ext S Title fuel
            obtain ⟨hinv4, hm⟩ := resolveFields_inv S Title (n :: pending) _ hext
              (ih (n :: pending)) fs [] [] _ m st1 hreg (fun f hf => by simp at hf) h1
            have hx34 := resolveFields_ext S Title _ hext _ _ _ _ _ h1
            have hreg4 : st1.atoms.get n = some st.heap.length := hx34.objs n _ hk hget
            have hinv5 := hinv4.completeObject hk hreg4 m (by
              intro fs2 hfs2
              rw [hf] at hfs2
              cases hfs2
              simpa using hm)
            refine ⟨boxIf_inv _ _ _ _ _ h2 hinv5, ?_⟩
            intro T hT ho
            simp only [referent, Option.some.injEq] at hT
            subst hT
            have hx := boxIf_ext S _ _ _ _ _ h2
            obtain ⟨o5, ho5, _, ho5n⟩ := hinv5.node n st.heap.length ho hreg4
            exact ⟨st.heap.length, hx.objs n _ ho hreg4,
              boxIf_refersTo _ _ _ _ _ h2 o5 ho5 ho5n⟩
      · rw [resolveType_enum S Title fuel nullable n st hk] at h
        have hno : ¬ isObjKind (S n).Kind := by rw [hk]; decide
        exact ⟨boxIf_inv _ _ _ _ _ h (hinv.alloc _), FieldOK.of_not_object _ _ n hno⟩
      · rw [resolveType_unsupported S Title fuel nullable (.named n) st k1 k2 k3 k4 k5] at h
        cases h
        exact ⟨hinv, FieldOK.of_not_object _ _ n k3⟩

end typer

namespace typer
open introspection

theorem depth_le_maxDepthOf {t : IType} {ts : List IType} (h : t ∈ ts) :
    depth t ≤ maxDepthOf ts := by
  induction ts with
  | nil => cases h
  | cons u us ih =>
    simp only [maxDepthOf]
    rcases List.mem_cons.mp h with rfl | h
    · exact Nat.le_max_left _ _
    · exact Nat.le_trans (ih h) (Nat.le_max_right _ _)

theorem declDepth_le_maxDepth (S : Schema) {n : String} {names : List String}
    (h : n ∈ names) : declDepth S n ≤ maxDepth S names := by
  induction names with
  | nil => cases h
  | cons u us ih =>
    simp only [maxDepth]
    rcases List.mem_cons.mp h with rfl | h
    · exact Nat.le_max_left _ _
    · exact Nat.le_trans (ih h) (Nat.le_max_right _ _)

theorem unregistered_le_length (st : St) (names : List String) :
    unregistered st names ≤ names.length := by
  induction names with
  | nil => exact Nat.le_refl _
  | cons n names ih =>
    simp only [unregistered, List.length_cons]
    cases st.atoms.get n <;> simp <;> omega

theorem unregistered_mono {S : Schema} {st st2 : St} (hx : Ext S st st2)
    (names : List String) : unregistered st2 names ≤ unregistered st names := by
  induction names with
  | nil => exact Nat.le_refl _
  | cons n names ih =>
    simp only [unregistered]
    cases h1 : st.atoms.get n with
    | none => cases st2.atoms.get n <;> simp <;> omega
    | some a =>
      have := hx.keys n (by rw [h1]; exact Option.some_ne_none a)
      cases h2 : st2.atoms.get n with
      | none => exact absurd h2 this
      | some b => simpa using ih

/-- Registering a new name of `names` leaves fewer names unregistered. -/
theorem unregistered_register {S : Schema} {st st2 : St} (hx : Ext S st st2) {n : String}
    (h1 : st.atoms.get n = none) (h2 : st2.atoms.get n ≠ none) :
    ∀ names : List String, n ∈ names → unregistered st2 names + 1 ≤ unregistered st names := by
  intro names
  induction names with
  | nil => intro h; cases h
  | cons u us ih =>
    intro hmem
    simp only [unregistered]
    by_cases hu : u = n
    · subst hu
      have hmono := unregistered_mono hx us
      rw [h1]
      cases h3 : st2.atoms.get u with
      | none => exact absurd h3 h2
      | some b => simp; omega
    · have hn : n ∈ us := by
        rcases List.mem_cons.mp hmem with e | e
        · exact absurd e.symm hu
        · exact e
      have := ih hn
      cases h3 : st.atoms.get u with
      | none => cases st2.atoms.get u <;> simp <;> omega
      | some a =>
        have hk := hx.keys u (by rw [h3]; exact Option.some_ne_none a)
        cases h4 : st2.atoms.get u with
        | none => exact absurd h4 hk
        | some b => simpa using this

theorem boxIf_ok (nullable : Bool) (a : Nat) (st : St) :
    ∃ r st2, boxIf nullable a st = .ok r st2 := by
  unfold boxIf
  cases nullable with
  | true => exact ⟨_, _, rfl⟩
  | false => exact ⟨_, _, rfl⟩

theorem resolveArgs_ok (Title : String → String) (rec : Bool → IType → St → Res Ptr)
    (R : St → Prop) :
    ∀ (args : List InputValue),
      (∀ a ∈ args, ∀ st, R st → ∃ r st2, rec true a.Typ st = .ok r st2 ∧ R st2) →
      ∀ (acc : List Argument) (st : St), R st →
        ∃ r st2, resolveArgs Title rec args acc st = .ok r st2 ∧ R st2 := by
  intro args
  induction args with
  | nil => intro _ acc st hR; exact ⟨acc, st, rfl, hR⟩
  | cons arg rest ih =>
    intro hrec acc st hR
    obtain ⟨p, st1, h1, hR1⟩ := hrec arg (List.mem_cons_self _ _) st hR
    obtain ⟨r, st2, h2, hR2⟩ :=
      ih (fun a ha => hrec a (List.mem_cons_of_mem _ ha)) (acc ++ [{ Name := Title arg.Name, Typ := p }]) st1 hR1
    exact ⟨r, st2, by simp only [resolveArgs, h1, Res.bind_ok, h2], hR2⟩

theorem resolveFields_ok (Title : String → String) (rec : Bool → IType → St → Res Ptr)
    (R : St → Prop) :
    ∀ (fs : List Field),
      (∀ e ∈ fieldTypes fs, ∀ st, R st → ∃ r st2, rec true e st = .ok r st2 ∧ R st2) →
      ∀ (m : GoMap ObjectField) (st : St), R st →
        ∃ m2 st2, resolveFields Title rec fs m st = .ok m2 st2 ∧ R st2 := by
  intro fs
  induction fs with
  | nil => intro _ m st hR; exact ⟨m, st, rfl, hR⟩
  | cons fld rest ih =>
    intro hrec m st hR
    have hargs : ∀ a ∈ fld.Args, ∀ st, R st → ∃ r st2, rec true a.Typ st = .ok r st2 ∧ R st2 := by
      intro a ha
      apply hrec
      simp only [fieldTypes, List.mem_append, List.mem_map]
      exact Or.inl ⟨a, ha, rfl⟩
    obtain ⟨fa, st1, h1, hR1⟩ := resolveArgs_ok Title rec R fld.Args hargs [] st hR
    obtain ⟨ft, st1b, h2, hR2⟩ := hrec fld.Typ (by simp [fieldTypes]) st1 hR1
    obtain ⟨m2, st2, h3, hR3⟩ := ih (fun e he => hrec e (by
      simp only [fieldTypes, List.mem_append, List.mem_cons]
      exact Or.inr (Or.inr he))) (m.set fld.Name { Field := ft, Arguments := fa }) st1b hR2
    exact ⟨m2, st2, by simp only [resolveFields, h1, Res.bind_ok, h2, h3], hR3⟩

/-- Termination of `resolveType`: on a well-formed schema every call returns, given a
recursion depth of `fuelFor` or more. -/
theorem resolveType_ok (S : Schema) (Title : String → String) (names : List String)
    (hwf : WellFormed S names) :
    ∀ (fuel : Nat) (nullable : Bool) (t : IType) (st : St),
      fuelFor S names st t ≤ fuel →
      ∃ r st2, resolveType S Title fuel nullable t st = .ok r st2 := by
  intro fuel
  induction fuel with
  | zero => intro nullable t st h; simp [fuelFor] at h
  | succ fuel ih =>
    intro nullable t st hfuel
    cases t with
    | nonNull u =>
      rw [resolveType_nonNull]
      exact ih _ _ _ (by simp only [fuelFor, depth] at hfuel ⊢; omega)
    | list u =>
      rw [resolveType_list]
      obtain ⟨e, st1, h1⟩ := ih true u st (by simp only [fuelFor, depth] at hfuel ⊢; omega)
      rw [h1, Res.bind_ok]
      exact boxIf_ok _ _ _
    | named n =>
      rcases kind_cases (S n).Kind with hk | hk | hk | hk | hk | ⟨k1, k2, k3, k4, k5⟩
      · exact absurd hk (hwf.1 n).1
      · exact absurd hk (hwf.1 n).2
      · rw [resolveType_scalar S Title fuel nullable n st hk]
        exact boxIf_ok _ _ _
      · rw [resolveType_object S Title fuel nullable n st hk]
        cases hg : st.atoms.get n with
        | some a => exact ⟨_, _, rfl⟩
        | none =>
          simp only []
          cases hf : (S n).Fields with
          | none => exact boxIf_ok _ _ _
          | some fs =>
            simp only []
            have hmem : n ∈ names := hwf.2 n hk
            have hreg := Ext.register S st (objNode S n) n st.heap.length (Or.inr hg)
            have hget : (st.atoms.set n st.heap.length).get n ≠ none := by
              rw [GoMap.get_set_self]; exact Option.some_ne_none _
            have hless := unregistered_register hreg hg hget names hmem
            have hM : ∀ e ∈ fieldTypes fs, depth e ≤ maxDepth S names := by
              intro e he
              have h1 := depth_le_maxDepthOf he
              have h2 := declDepth_le_maxDepth S hmem
              simp only [declDepth, hf] at h2
              exact Nat.le_trans h1 h2
            obtain ⟨m, st1, h1, _⟩ := resolveFields_ok Title (resolveType S Title fuel)
              (fun s => unregistered s names + 1 ≤ unregistered st names) fs (by
                intro e he s hs
                have hdepth := hM e he
                obtain ⟨r, s2, hr⟩ := ih true e s (by
                  simp only [fuelFor, depth] at hfuel ⊢
                  have h3 : (unregistered s names + 1) * (maxDepth S names + 1) ≤
                      unregistered st names * (maxDepth S names + 1) :=
                    Nat.mul_le_mul_right _ hs
                  rw [Nat.add_mul] at h3
                  omega)
                have hx := resolveType_ext S Title _ _ _ _ _ _ hr
                have := unregistered_mono hx names
                exact ⟨r, s2, hr, by omega⟩) [] _ hless
            rw [h1, Res.bind_ok]
            exact boxIf_ok _ _ _
      · rw [resolveType_enum S Title fuel nullable n st hk]
        exact boxIf_ok _ _ _
      · rw [resolveType_unsupported S Title fuel nullable (.named n) st k1 k2 k3 k4 k5]
        exact ⟨_, _, rfl⟩

end typer

namespace typer
open introspection

theorem parseLoop_ok (S : Schema) (Title : String → String) (fuel : Nat) :
    ∀ (input : List IType),
      (∀ t ∈ input, ∀ st, ∃ r st2, resolveType S Title fuel true t st = .ok r st2) →
      ∀ (types : List Ptr) (st : St), ∃ roots st2,
        parseLoop S Title fuel input types st = .ok roots st2 := by
  intro input
  induction input with
  | nil => intro _ types st; exact ⟨types, st, rfl⟩
  | cons t rest ih =>
    intro hrec types st
    have hrest := ih fun u hu => hrec u (List.mem_cons_of_mem _ hu)
    simp only [parseLoop]
    split_ifs with hs
    · exact hrest types st
    · obtain ⟨r, st1, h1⟩ := hrec t (List.mem_cons_self _ _) st
      rw [h1, Res.bind_ok]
      exact hrest _ st1

theorem parseLoop_spec (S : Schema) (Title : String → String) (fuel : Nat) :
    ∀ (input done : List IType) (types : List Ptr) (st : St) (roots : List Ptr) (st2 : St),
      Inv S [] st → List.Forall₂ (fun t r => FieldOK S st r t) done types →
      parseLoop S Title fuel input types st = .ok roots st2 →
      Inv S [] st2 ∧ List.Forall₂ (fun t r => FieldOK S st2 r t) (done ++ kept input) roots := by
  intro input
  induction input with
  | nil =>
    intro done types st roots st2 hinv hdone h
    simp only [parseLoop] at h
    cases h
    simpa [kept] using ⟨hinv, hdone⟩
  | cons t rest ih =>
    intro done types st roots st2 hinv hdone h
    simp only [parseLoop] at h
    split_ifs at h with hs
    · have := ih done types st roots st2 hinv hdone h
      simpa [kept, hs] using this
    · obtain ⟨r, st1, h1, h2⟩ := Res.bind_eq_ok h
      obtain ⟨hinv1, hr⟩ := resolveType_spec S Title fuel [] _ _ _ _ _ hinv h1
      have hx := resolveType_ext S Title _ _ _ _ _ _ h1
      have hdone1 : List.Forall₂ (fun t r => FieldOK S st1 r t) (done ++ [t])
          (types ++ [r]) :=
        List.rel_append (hdone.imp fun _ _ hf => hf.extend hx)
          (List.Forall₂.cons hr List.Forall₂.nil)
      have := ih (done ++ [t]) (types ++ [r]) st1 roots st2 hinv1 hdone1 h2
      simpa [kept, hs] using this

theorem forall₂_getElem? {α β : Type} {R : α → β → Prop} :
    ∀ {l1 : List α} {l2 : List β}, List.Forall₂ R l1 l2 →
      ∀ (i : Nat) (a : α), l1[i]? = some a → ∃ b, l2[i]? = some b ∧ R a b := by
  intro l1 l2 h
  induction h with
  | nil => intro i a ha; simp at ha
  | cons hab _ ih =>
    intro i a ha
    cases i with
    | zero =>
      simp only [List.getElem?_cons_zero, Option.some.injEq] at ha
      subst ha
      exact ⟨_, by simp, hab⟩
    | succ i =>
      simp only [List.getElem?_cons_succ] at ha
      obtain ⟨b, hb, hr⟩ := ih i a ha
      exact ⟨b, by simpa using hb, hr⟩

theorem Inv.empty (S : Schema) : Inv S [] {} :=
  ⟨fun n a _ h => by simp [GoMap.get] at h, fun n a _ h => by simp [GoMap.get] at h⟩

/-- `ParseTypes` returns on a well-formed schema; the state it returns satisfies the
invariant with no object pending, and every root was resolved from its input type. -/
theorem ParseTypes_spec (S : Schema) (Title : String → String) (names : List String)
    (hwf : WellFormed S names) (input : List IType) (fuel : Nat)
    (hfuel : fuelBound S names input ≤ fuel) :
    ∃ roots st, ParseTypes S Title fuel input = .ok roots st ∧ Inv S [] st ∧
      List.Forall₂ (fun t r => FieldOK S st r t) (kept input) roots := by
  have hok : ∀ t ∈ input, ∀ st, ∃ r st2, resolveType S Title fuel true t st = .ok r st2 := by
    intro t ht st
    apply resolveType_ok S Title names hwf
    have h1 := depth_le_maxDepthOf ht
    have h2 := unregistered_le_length st names
    have h3 : unregistered st names * (maxDepth S names + 1) ≤
        names.length * (maxDepth S names + 1) := Nat.mul_le_mul_right _ h2
    simp only [fuelFor, fuelBound] at hfuel ⊢
    omega
  obtain ⟨roots, st, h⟩ := parseLoop_ok S Title fuel input hok [] {}
  obtain ⟨hinv, hroots⟩ := parseLoop_spec S Title fuel input [] [] {} roots st (Inv.empty S)
    List.Forall₂.nil h
  exact ⟨roots, st, h, hinv, by simpa using hroots⟩

/-- In a complete object node, the field `fld` holds a pointer that refers to the node
registered for its declared object type. -/
theorem fieldOf_complete {S : Schema} {st : St} (hinv : Inv S [] st) {Q T : String}
    {aQ : Nat} {fs : List Field} {fld : Field} (hQ : isObjKind (S Q).Kind)
    (hT : isObjKind (S T).Kind) (hreg : st.atoms.get Q = some aQ)
    (hfs : (S Q).Fields = some fs) (hnd : (fs.map fun f => f.Name).Nodup)
    (hfld : fld ∈ fs) (hty : fld.Typ = .named T) :
    ∃ aT, st.atoms.get T = some aT ∧
      unwrapNullable st.heap (fieldOf st.heap (some aQ) fld.Name) = some aT := by
  obtain ⟨o, m, h1, h2, h3⟩ := hinv.complete Q aQ hQ hreg (List.not_mem_nil _) fs hfs
  obtain ⟨entry, fld2, e1, e2, e3, e4⟩ := h3 fld hfld
  have heq : fld2 = fld := List.inj_on_of_nodup_map hnd e2 hfld e3
  subst heq
  obtain ⟨aT, hT1, hT2⟩ := e4 T (by rw [hty]; rfl) hT
  refine ⟨aT, hT1, ?_⟩
  simp only [fieldOf, h1, h2, e1]
  exact hT2.unwrap

end typer

namespace typer
open introspection

theorem hasShape_mono {heap heap2 : List TypeNode} (hp : heap <+: heap2) :
    ∀ (s : Shape) (p : Ptr), hasShape heap s p = true → hasShape heap2 s p = true := by
  intro s
  induction s with
  | Scalar n =>
    intro p h
    cases p with
    | none => simp [hasShape] at h
    | some a =>
      simp only [hasShape, decide_eq_true_eq] at h ⊢
      exact prefix_getElem? hp h
  | Nullable s ih =>
    intro p h
    cases p with
    | none => simp [hasShape] at h
    | some a =>
      simp only [hasShape] at h ⊢
      cases ho : heap[a]? with
      | none => simp [ho] at h
      | some o =>
        rw [prefix_getElem? hp ho]
        simp only [ho, Bool.and_eq_true, decide_eq_true_eq] at h ⊢
        exact ⟨h.1, ih _ h.2⟩
  | ListOf s ih =>
    intro p h
    cases p with
    | none => simp [hasShape] at h
    | some a =>
      simp only [hasShape] at h ⊢
      cases ho : heap[a]? with
      | none => simp [ho] at h
      | some o =>
        rw [prefix_getElem? hp ho]
        simp only [ho, Bool.and_eq_true, decide_eq_true_eq] at h ⊢
        exact ⟨h.1, ih _ h.2⟩

theorem boxIf_hasShape (nullable : Bool) (a : Nat) (st : St) (s : Shape)
    (h : hasShape st.heap s (some a) = true) :
    ∃ p st2, boxIf nullable a st = .ok (some p) st2 ∧
      hasShape st2.heap (boxed nullable s) (some p) = true := by
  cases nullable with
  | true =>
    refine ⟨st.heap.length, { st with heap := st.heap ++ [{ Nullable := some a }] }, rfl, ?_⟩
    have := hasShape_mono (List.prefix_append st.heap [{ Nullable := some a }]) s _ h
    simp only [boxed, if_true, hasShape, List.getElem?_concat_length, Bool.and_eq_true,
      decide_eq_true_eq]
    exact ⟨trivial, this⟩
  | false => exact ⟨a, st, rfl, by simpa [boxed] using h⟩

/-- For a type expression built from a scalar name with `LIST` and `NON_NULL` wrappers,
`resolveType` returns a node of exactly the shape that the specification prescribes for the
context it is called in: each level is boxed in `Nullable` iff it is not directly under a
`NON_NULL` wrapper. -/
theorem resolveType_scalar_shape (S : Schema) (Title : String → String) (t : IType)
    (hs : ScalarExpr S t) :
    ∀ (fuel : Nat) (nullable : Bool) (st : St), depth t < fuel →
      ∃ p st2, resolveType S Title fuel nullable t st = .ok (some p) st2 ∧
        hasShape st2.heap (specShape nullable t) (some p) = true := by
  induction t with
  | named n =>
    intro fuel nullable st hfuel
    obtain ⟨k, rfl⟩ : ∃ k, fuel = k + 1 := ⟨fuel - 1, by omega⟩
    rw [resolveType_scalar S Title k nullable n st hs]
    apply boxIf_hasShape
    simp [hasShape]
  | list u ih =>
    intro fuel nullable st hfuel
    obtain ⟨k, rfl⟩ : ∃ k, fuel = k + 1 := ⟨fuel - 1, by omega⟩
    rw [resolveType_list]
    obtain ⟨p1, st1, h1, h2⟩ := ih hs k true st (by simp only [depth] at hfuel; omega)
    rw [h1, Res.bind_ok]
    apply boxIf_hasShape
    have := hasShape_mono (List.prefix_append st1.heap [{ ListOf := some p1 }]) _ _ h2
    simp only [hasShape, List.getElem?_concat_length, Bool.and_eq_true, decide_eq_true_eq]
    exact ⟨trivial, this⟩
  | nonNull u ih =>
    intro fuel nullable st hfuel
    obtain ⟨k, rfl⟩ : ∃ k, fuel = k + 1 := ⟨fuel - 1, by omega⟩
    rw [resolveType_nonNull]
    exact ih hs k false st (by simp only [depth] at hfuel; omega)

end typer

namespace typer
open introspection

theorem modify_getElem?_ne {α : Type} (f : α → α) (l : List α) (p a : Nat) (h : p ≠ a) :
    (l.modify f p)[a]? = l[a]? := by
  rw [List.getElem?_modify]
  cases l[a]? <;> simp [h]

theorem hasShape_none (heap : List TypeNode) (s : Shape) : hasShape heap s none = false := by
  cases s <;> rfl

theorem hasShape_scalar_setObject (S : Schema) (heap : List TypeNode) (obj : Nat) (n : String)
    (x : Option (GoMap ObjectField)) (hobj : isObjKind (S n).Kind)
    (hnode : heap[obj]? = some (objNode S n)) (v : String) (hv : (S v).Kind = "SCALAR")
    (q : Ptr) (h : hasShape heap (.Scalar v) q = true) :
    hasShape (heap.modify (fun o => { o with Object := x }) obj) (.Scalar v) q = true := by
  cases q with
  | none => simp [hasShape] at h
  | some a =>
    simp only [hasShape, decide_eq_true_eq] at h ⊢
    by_cases hab : obj = a
    · subst hab
      rw [hnode] at h
      have h2 := Option.some.inj h
      have hname : n = "" := by
        have := congrArg TypeNode.Named h2
        simpa [objNode] using this
      have hval : v = "" := by
        have := congrArg (fun o => o.Scalar.Value) h2
        simpa [objNode] using this.symm
      subst hname hval
      rw [hv] at hobj
      exact absurd hobj (by decide)
    · rw [modify_getElem?_ne _ _ _ _ hab]
      exact h

theorem hasShape_nullable_setObject (S : Schema) (heap : List TypeNode) (obj : Nat)
    (n : String) (x : Option (GoMap ObjectField))
    (hnode : heap[obj]? = some (objNode S n)) (s : Shape)
    (ih : ∀ q, hasShape heap s q = true →
      hasShape (heap.modify (fun o => { o with Object := x }) obj) s q = true)
    (q : Ptr) (h : hasShape heap (.Nullable s) q = true) :
    hasShape (heap.modify (fun o => { o with Object := x }) obj) (.Nullable s) q = true := by
  cases q with
  | none => simp [hasShape] at h
  | some a =>
    simp only [hasShape] at h ⊢
    cases ho : heap[a]? with
    | none => simp [ho] at h
    | some o =>
      simp only [ho, Bool.and_eq_true, decide_eq_true_eq] at h
      by_cases hab : obj = a
      · subst hab
        rw [hnode] at ho
        have : o.Nullable = none := by rw [← Option.some.inj ho]; rfl
        rw [this, hasShape_none] at h
        exact absurd h.2 (by decide)
      · rw [modify_getElem?_ne _ _ _ _ hab, ho]
        simp only [Bool.and_eq_true, decide_eq_true_eq]
        exact ⟨h.1, ih _ h.2⟩

theorem hasShape_list_setObject (S : Schema) (heap : List TypeNode) (obj : Nat)
    (n : String) (x : Option (GoMap ObjectField))
    (hnode : heap[obj]? = some (objNode S n)) (s : Shape)
    (ih : ∀ q, hasShape heap s q = true →
      hasShape (heap.modify (fun o => { o with Object := x }) obj) s q = true)
    (q : Ptr) (h : hasShape heap (.ListOf s) q = true) :
    hasShape (heap.modify (fun o => { o with Object := x }) obj) (.ListOf s) q = true := by
  cases q with
  | none => simp [hasShape] at h
  | some a =>
    simp only [hasShape] at h ⊢
    cases ho : heap[a]? with
    | none => simp [ho] at h
    | some o =>
      simp only [ho, Bool.and_eq_true, decide_eq_true_eq] at h
      by_cases hab : obj = a
      · subst hab
        rw [hnode] at ho
        have : o.ListOf = none := by rw [← Option.some.inj ho]; rfl
        rw [this, hasShape_none] at h
        exact absurd h.2 (by decide)
      · rw [modify_getElem?_ne _ _ _ _ hab, ho]
        simp only [Bool.and_eq_true, decide_eq_true_eq]
        exact ⟨h.1, ih _ h.2⟩

theorem hasShape_setObject (S : Schema) (heap : List TypeNode) (obj : Nat) (n : String)
    (x : Option (GoMap ObjectField)) (hobj : isObjKind (S n).Kind)
    (hnode : heap[obj]? = some (objNode S n)) :
    ∀ (t : IType), ScalarExpr S t → ∀ (nullable : Bool) (q : Ptr),
      hasShape heap (specShape nullable t) q = true →
      hasShape (heap.modify (fun o => { o with Object := x }) obj) (specShape nullable t) q =
        true := by
  intro t
  induction t with
  | named v =>
    intro hs nullable q h
    have hsc := hasShape_scalar_setObject S heap obj n x hobj hnode v hs
    cases nullable with
    | true =>
      exact hasShape_nullable_setObject S heap obj n x hnode _ hsc q h
    | false => exact hsc q h
  | list u ih =>
    intro hs nullable q h
    have hl := hasShape_list_setObject S heap obj n x hnode _ (ih hs true)
    cases nullable with
    | true => exact hasShape_nullable_setObject S heap obj n x hnode _ hl q h
    | false => exact hl q h
  | nonNull u ih =>
    intro hs nullable q h
    exact ih hs false q h

end typer

namespace typer
open introspection

theorem resolveFields_shaped (S : Schema) (Title : String → String) (fuel : Nat) :
    ∀ (fs done : List Field) (m : GoMap ObjectField) (st : St) (m2 : GoMap ObjectField)
      (st2 : St),
      (∀ fld ∈ fs, depth fld.Typ < fuel) →
      FieldsShaped S st.heap m done →
      resolveFields Title (resolveType S Title fuel) fs m st = .ok m2 st2 →
      FieldsShaped S st2.heap m2 (done ++ fs) := by
  intro fs
  induction fs with
  | nil =>
    intro done m st m2 st2 _ hm h
    simp only [resolveFields] at h
    cases h
    simpa using hm
  | cons fld rest ih =>
    intro done m st m2 st2 hdepth hm h
    simp only [resolveFields] at h
    obtain ⟨fa, st1, h1, h2⟩ := Res.bind_eq_ok h
    obtain ⟨ft, st1b, h3, h4⟩ := Res.bind_eq_ok h2
    have hx1 := resolveArgs_ext S Title (resolveType S Title fuel)
      (resolveType_ext S Title fuel) _ _ _ _ _ h1
    have hx2 := resolveType_ext S Title _ _ _ _ _ _ h3
    have hft : ScalarExpr S fld.Typ → hasShape st1b.heap (specShape true fld.Typ) ft = true := by
      intro hs
      obtain ⟨p, s2, hp1, hp2⟩ := resolveType_scalar_shape S Title fld.Typ hs fuel true st1
        (hdepth fld (List.mem_cons_self _ _))
      rw [hp1] at h3
      cases h3
      exact hp2
    have hm2 : FieldsShaped S st1b.heap
        (m.set fld.Name { Field := ft, Arguments := fa }) (done ++ [fld]) := by
      intro f hf
      by_cases hname : f.Name = fld.Name
      · refine ⟨{ Field := ft, Arguments := fa }, fld, ?_, by simp, hname.symm, hft⟩
        rw [hname, GoMap.get_set_self]
      · have hfd : f ∈ done := by
          rcases List.mem_append.mp hf with hf | hf
          · exact hf
          · rw [List.mem_singleton.mp hf] at hname
            exact absurd rfl hname
        obtain ⟨entry, fld2, e1, e2, e3, e4⟩ := hm f hfd
        refine ⟨entry, fld2, ?_, List.mem_append_left _ e2, e3,
          fun hs => hasShape_mono (hx1.trans hx2).heap _ _ (e4 hs)⟩
        rw [GoMap.get_set_ne _ _ _ _ hname]
        exact e1
    have := ih (done ++ [fld]) _ _ _ _
      (fun f hf => hdepth f (List.mem_cons_of_mem _ hf)) hm2 h4
    simpa using this

end typer

namespace typer
open introspection

/-- C1. Nullability boxing.  When `resolveType` resolves an object type for the first time,
the node of every field whose type is built from a scalar name with `LIST` and `NON_NULL`
wrappers has exactly the shape that the specification prescribes for a nullable context:
fields start with `nullable = true`, a `NON_NULL` wrapper passes `nullable = false` to what
it wraps, the element of a list starts with `nullable = true` again, and a level is boxed in
`Nullable` iff its context is nullable.  The same holds for a direct call on such a type
expression in either context. -/
theorem resolveType_nullability_boxing (S : Schema) (Title : String → String)
    (names : List String) (hwf : WellFormed S names) (n : String) (fs : List Field)
    (hobj : isObjKind (S n).Kind) (hfs : (S n).Fields = some fs)
    (hnd : (fs.map fun f => f.Name).Nodup) (fuel : Nat) (nullable : Bool) (st : St)
    (hnew : st.atoms.get n = none) (hfuel : fuelFor S names st (.named n) ≤ fuel) :
    (∃ p st2 obj, resolveType S Title fuel nullable (.named n) st = .ok p st2 ∧
      RefersTo st2 p obj ∧
      (∃ o, st2.heap[obj]? = some o ∧ o.Named = n) ∧
      ∀ fld ∈ fs, ScalarExpr S fld.Typ →
        hasShape st2.heap (specShape true fld.Typ) (fieldOf st2.heap (some obj) fld.Name) =
          true) ∧
    (∀ t, ScalarExpr S t → ∀ (k : Nat) (ctx : Bool) (s : St), depth t < k →
      ∃ p s2, resolveType S Title k ctx t s = .ok (some p) s2 ∧
        hasShape s2.heap (specShape ctx t) (some p) = true) := by
  refine ⟨?_, fun t hs k ctx s hk => resolveType_scalar_shape S Title t hs k ctx s hk⟩
  have hmem : n ∈ names := hwf.2 n hobj
  have hreg := Ext.register S st (objNode S n) n st.heap.length (Or.inr hnew)
  have hget : (st.atoms.set n st.heap.length).get n ≠ none := by
    rw [GoMap.get_set_self]; exact Option.some_ne_none _
  have hless := unregistered_register hreg hnew hget names hmem
  obtain ⟨k, rfl⟩ : ∃ k, fuel = k + 1 := ⟨fuel - 1, by simp only [fuelFor] at hfuel; omega⟩
  have hk : maxDepth S names < k := by
    simp only [fuelFor, depth] at hfuel
    have h1 : 1 ≤ unregistered st names := by omega
    have h2 : 1 * (maxDepth S names + 1) ≤ unregistered st names * (maxDepth S names + 1) :=
      Nat.mul_le_mul_right _ h1
    omega
  have hdepth : ∀ fld ∈ fs, depth fld.Typ < k := by
    intro fld hfld
    have h1 : fld.Typ ∈ fieldTypes fs := by
      clear hfs hnd
      induction fs with
      | nil => simp at hfld
      | cons f rest ih =>
        simp only [fieldTypes, List.mem_append, List.mem_cons]
        rcases List.mem_cons.1 hfld with rfl | h
        · exact Or.inr (Or.inl rfl)
        · exact Or.inr (Or.inr (ih h))
    have h2 := depth_le_maxDepthOf h1
    have h3 := declDepth_le_maxDepth S hmem
    simp only [declDepth, hfs] at h3
    omega
  obtain ⟨r, st3, hrun⟩ := resolveType_ok S Title names hwf (k + 1) nullable (.named n) st hfuel
  have hrun2 := hrun
  rw [resolveType_object S Title k nullable n st hobj] at hrun2
  simp only [hnew, hfs] at hrun2
  obtain ⟨m, st2, hfields, hbox⟩ := Res.bind_eq_ok hrun2
  have hx := resolveFields_ext S Title (resolveType S Title k) (resolveType_ext S Title k)
    _ _ _ _ _ hfields
  have hnode : st2.heap[st.heap.length]? = some (objNode S n) :=
    prefix_getElem? hx.heap (by simp)
  have hshaped := resolveFields_shaped S Title k fs [] [] _ m st2 hdepth
    (fun f hf => absurd hf (List.not_mem_nil _)) hfields
  rw [List.nil_append] at hshaped
  have hnode2 : (st2.modify st.heap.length fun o => { o with Object := some m }).heap[
      st.heap.length]? = some { objNode S n with Object := some m } := by
    simp only [St.modify, List.getElem?_modify, hnode]
    simp
  have hxb := boxIf_ext S _ _ _ _ _ hbox
  have hnode3 : st3.heap[st.heap.length]? = some { objNode S n with Object := some m } :=
    prefix_getElem? hxb.heap hnode2
  refine ⟨r, st3, st.heap.length, hrun, ?_, ⟨_, hnode3, rfl⟩, ?_⟩
  · exact boxIf_refersTo _ _ _ _ _ hbox _ hnode2 rfl
  · intro fld hfld hs
    obtain ⟨entry, fld2, e1, e2, e3, e4⟩ := hshaped fld hfld
    have heq : fld2 = fld := List.inj_on_of_nodup_map hnd e2 hfld e3
    subst heq
    have h1 := hasShape_setObject S st2.heap st.heap.length n (some m) hobj hnode fld2.Typ hs
      true entry.Field (e4 hs)
    have h2 := hasShape_mono hxb.heap _ _ h1
    simp only [fieldOf, hnode3, e1]
    exact h2

/-- Witness of C1, the four fields of the specification on one object,
`Query{a: Int, b: Int!, c: [String], d: [String!]!}`: resolving `Query` gives its node with
the four field nodes of the specification. -/
theorem resolveType_nullability_boxing_witness :
    ∃ p st2 obj, resolveType examples.fourSchema id 5 true (.named "Query") {} = .ok p st2 ∧
      RefersTo st2 p obj ∧
      hasShape st2.heap (.Nullable (.Scalar "Int")) (fieldOf st2.heap (some obj) "a") = true ∧
      hasShape st2.heap (.Scalar "Int") (fieldOf st2.heap (some obj) "b") = true ∧
      hasShape st2.heap (.Nullable (.ListOf (.Nullable (.Scalar "String"))))
        (fieldOf st2.heap (some obj) "c") = true ∧
      hasShape st2.heap (.ListOf (.Scalar "String")) (fieldOf st2.heap (some obj) "d") =
        true := by
  obtain ⟨⟨p, st2, obj, h1, h2, _, h3⟩, _⟩ :=
    resolveType_nullability_boxing examples.fourSchema id ["Query"]
      ⟨fun n => by unfold examples.fourSchema; split <;> decide,
        fun n hn => by
          unfold examples.fourSchema at hn
          split at hn
          · simp_all
          · exact absurd hn (by decide)⟩
      "Query" _ (by decide) rfl (by decide) 5 true {} rfl (by decide)
  exact ⟨p, st2, obj, h1, h2,
    h3 { Name := "a", Args := [], Typ := .named "Int" } (by simp) (by decide),
    h3 { Name := "b", Args := [], Typ := .nonNull (.named "Int") } (by simp) (by decide),
    h3 { Name := "c", Args := [], Typ := .list (.named "String") } (by simp) (by decide),
    h3 { Name := "d", Args := [], Typ := .nonNull (.list (.nonNull (.named "String"))) }
      (by simp) (by decide)⟩

end typer

namespace typer
open introspection

/-- C2. Cross-reference identity: on a well-formed schema `ParseTypes` returns, and when the
object type `Q` has a field declared of the object type `T` and both are top-level entries
that are not skipped, unwrapping `Nullable` from the field of the root of `Q` and from the
root of `T` gives the same node, the one registered for `T`, wherever `Q` and `T` stand in
the input. -/
theorem ParseTypes_cross_reference (S : Schema) (Title : String → String)
    (names : List String) (hwf : WellFormed S names) (input : List IType) (Q T : String)
    (fs : List Field) (fld : Field) (hQ : isObjKind (S Q).Kind) (hT : isObjKind (S T).Kind)
    (hfs : (S Q).Fields = some fs) (hnd : (fs.map fun f => f.Name).Nodup) (hfld : fld ∈ fs)
    (hty : fld.Typ = .named T) (i j : Nat) (hi : (kept input)[i]? = some (.named Q))
    (hj : (kept input)[j]? = some (.named T)) (fuel : Nat)
    (hfuel : fuelBound S names input ≤ fuel) :
    ∃ roots st rQ rT aT, ParseTypes S Title fuel input = .ok roots st ∧
      roots[i]? = some rQ ∧ roots[j]? = some rT ∧ st.atoms.get T = some aT ∧
      unwrapNullable st.heap rT = some aT ∧
      unwrapNullable st.heap (fieldOf st.heap (unwrapNullable st.heap rQ) fld.Name) =
        some aT := by
  obtain ⟨roots, st, hrun, hinv, hroots⟩ := ParseTypes_spec S Title names hwf input fuel hfuel
  obtain ⟨rQ, hrQ, hokQ⟩ := forall₂_getElem? hroots i _ hi
  obtain ⟨rT, hrT, hokT⟩ := forall₂_getElem? hroots j _ hj
  obtain ⟨aQ, haQ, hrefQ⟩ := hokQ Q rfl hQ
  obtain ⟨aT, haT, hrefT⟩ := hokT T rfl hT
  obtain ⟨aT2, haT2, hfield⟩ := fieldOf_complete hinv hQ hT haQ hfs hnd hfld hty
  rw [haT] at haT2
  cases haT2
  refine ⟨roots, st, rQ, rT, aT, hrun, hrQ, hrT, haT, hrefT.unwrap, ?_⟩
  rw [hrefQ.unwrap]
  exact hfield

/-- Instances of `WellFormed` for the example schemas. -/
theorem examples_wellFormed :
    WellFormed examples.appleSchema ["Query", "Apple"] ∧
    WellFormed examples.cycleSchema ["A", "B"] := by
  refine ⟨⟨?_, ?_⟩, ⟨?_, ?_⟩⟩
  · intro n
    unfold examples.appleSchema
    split_ifs <;> exact ⟨by decide, by decide⟩
  · intro n
    unfold examples.appleSchema
    split_ifs with h1 h2
    · intro _; simp [h1]
    · intro _; simp [h2]
    · intro h; exact absurd h (by decide)
  · intro n
    unfold examples.cycleSchema
    split_ifs <;> exact ⟨by decide, by decide⟩
  · intro n
    unfold examples.cycleSchema
    split_ifs with h1 h2
    · intro _; simp [h1]
    · intro _; simp [h2]
    · intro h; exact absurd h (by decide)

/-- Witness of C2: the test `single-simple-type`, in the order of the test (`Apple` first)
and in the other order. -/
theorem ParseTypes_cross_reference_witness :
    (∃ roots st rQ rT aT,
      ParseTypes examples.appleSchema id 4 [.named "Apple", .named "Query"] = .ok roots st ∧
      roots[1]? = some rQ ∧ roots[0]? = some rT ∧ st.atoms.get "Apple" = some aT ∧
      unwrapNullable st.heap rT = some aT ∧
      unwrapNullable st.heap (fieldOf st.heap (unwrapNullable st.heap rQ) "a") = some aT) ∧
    (∃ roots st rQ rT aT,
      ParseTypes examples.appleSchema id 4 [.named "Query", .named "Apple"] = .ok roots st ∧
      roots[0]? = some rQ ∧ roots[1]? = some rT ∧ st.atoms.get "Apple" = some aT ∧
      unwrapNullable st.heap rT = some aT ∧
      unwrapNullable st.heap (fieldOf st.heap (unwrapNullable st.heap rQ) "a") = some aT) :=
  ⟨ParseTypes_cross_reference examples.appleSchema id ["Query", "Apple"]
      examples_wellFormed.1 [.named "Apple", .named "Query"] "Query" "Apple"
      [{ Name := "a", Args := [], Typ := .named "Apple" }]
      { Name := "a", Args := [], Typ := .named "Apple" }
      (by decide) (by decide) (by decide) (by decide) (by decide) rfl 1 0 (by decide)
      (by decide) 4 (by decide),
    ParseTypes_cross_reference examples.appleSchema id ["Query", "Apple"]
      examples_wellFormed.1 [.named "Query", .named "Apple"] "Query" "Apple"
      [{ Name := "a", Args := [], Typ := .named "Apple" }]
      { Name := "a", Args := [], Typ := .named "Apple" }
      (by decide) (by decide) (by decide) (by decide) (by decide) rfl 0 1 (by decide)
      (by decide) 4 (by decide)⟩

/-- C3. Cycle termination and identity: on a well-formed schema in which the object type `A`
has a field of type `B` and `B` has a field of type `A`, `ParseTypes` returns on every
input; when `A` is a top-level entry, both types are registered, the field of the node of
`A` refers to the node registered for `B` and the field of the node of `B` refers to the
node registered for `A`.  A visit of a name that is already registered returns the
registered node, resolves no field and leaves the registry as it is; every call of
`resolveType` returns. -/
theorem ParseTypes_cycle (S : Schema) (Title : String → String) (names : List String)
    (hwf : WellFormed S names) (input : List IType) (A B : String)
    (fsA fsB : List Field) (fa fb : Field) (hA : isObjKind (S A).Kind)
    (hB : isObjKind (S B).Kind)
    (hfA : (S A).Fields = some fsA) (hndA : (fsA.map fun f => f.Name).Nodup)
    (hfa : fa ∈ fsA) (hta : fa.Typ = .named B)
    (hfB : (S B).Fields = some fsB) (hndB : (fsB.map fun f => f.Name).Nodup)
    (hfb : fb ∈ fsB) (htb : fb.Typ = .named A) :
    (∀ fuel, fuelBound S names input ≤ fuel →
      ∃ roots st, ParseTypes S Title fuel input = .ok roots st ∧
        (.named A ∈ kept input →
          ∃ a b, st.atoms.get A = some a ∧ st.atoms.get B = some b ∧
            unwrapNullable st.heap (fieldOf st.heap (some a) fa.Name) = some b ∧
            unwrapNullable st.heap (fieldOf st.heap (some b) fb.Name) = some a)) ∧
    (∀ fuel nullable st a, st.atoms.get A = some a →
      resolveType S Title (fuel + 1) nullable (.named A) st =
        .ok (some a) { st with heap := st.heap ++ [objNode S A] }) ∧
    (∀ fuel nullable t st, fuelFor S names st t ≤ fuel →
      ∃ r st2, resolveType S Title fuel nullable t st = .ok r st2) := by
  refine ⟨?_, ?_, ?_⟩
  · intro fuel hfuel
    obtain ⟨roots, st, hrun, hinv, hroots⟩ :=
      ParseTypes_spec S Title names hwf input fuel hfuel
    refine ⟨roots, st, hrun, ?_⟩
    intro hmem
    obtain ⟨i, hi⟩ := List.mem_iff_getElem?.mp hmem
    obtain ⟨rA, _, hokA⟩ := forall₂_getElem? hroots i _ hi
    obtain ⟨a, ha, _⟩ := hokA A rfl hA
    obtain ⟨b, hb, hab⟩ := fieldOf_complete hinv hA hB ha hfA hndA hfa hta
    obtain ⟨a2, ha2, hba⟩ := fieldOf_complete hinv hB hA hb hfB hndB hfb htb
    rw [ha] at ha2
    cases ha2
    exact ⟨a, b, ha, hb, hab, hba⟩
  · intro fuel nullable st a ha
    rw [resolveType_object S Title fuel nullable A st hA]
    simp only [ha]
  · intro fuel nullable t st hfuel
    exact resolveType_ok S Title names hwf fuel nullable t st hfuel

/-- Witness of C3: the schema `A{b: B}`, `B{a: A}` with the input `A`, `B`. -/
theorem ParseTypes_cycle_witness :
    (∃ roots st a b,
      ParseTypes examples.cycleSchema id 3 [.named "A", .named "B"] = .ok roots st ∧
      st.atoms.get "A" = some a ∧ st.atoms.get "B" = some b ∧
      unwrapNullable st.heap (fieldOf st.heap (some a) "b") = some b ∧
      unwrapNullable st.heap (fieldOf st.heap (some b) "a") = some a) ∧
    resolveType examples.cycleSchema id (0 + 1) true (.named "A")
        { heap := [objNode examples.cycleSchema "A"], atoms := [("A", 0)] } =
      .ok (some 0)
        { heap := [objNode examples.cycleSchema "A"] ++ [objNode examples.cycleSchema "A"],
          atoms := [("A", 0)] } := by
  have h := ParseTypes_cycle examples.cycleSchema id ["A", "B"] examples_wellFormed.2
    [.named "A", .named "B"] "A" "B"
    [{ Name := "b", Args := [], Typ := .named "B" }]
    [{ Name := "a", Args := [], Typ := .named "A" }]
    { Name := "b", Args := [], Typ := .named "B" }
    { Name := "a", Args := [], Typ := .named "A" }
    (by decide) (by decide) (by decide) (by decide) (by decide) rfl
    (by decide) (by decide) (by decide) rfl
  obtain ⟨roots, st, hrun, hcyc⟩ := h.1 3 (by decide)
  obtain ⟨a, b, h1, h2, h3, h4⟩ := hcyc (by decide)
  exact ⟨⟨roots, st, a, b, hrun, h1, h2, h3, h4⟩,
    h.2.1 0 true { heap := [objNode examples.cycleSchema "A"], atoms := [("A", 0)] } 0 rfl⟩

/-- The cyclic schema, evaluated: with a recursion depth of 3 `ParseTypes` returns two
roots; `A` is the node 0 and `B` the node 1, each the target of the field of the other. -/
theorem ParseTypes_cycle_evaluated :
    ∃ st, ParseTypes examples.cycleSchema id 3 [.named "A", .named "B"] =
        .ok [some 4, some 1] st ∧
      st.atoms = [("A", 0), ("B", 1)] ∧
      unwrapNullable st.heap (fieldOf st.heap (some 0) "b") = some 1 ∧
      unwrapNullable st.heap (fieldOf st.heap (some 1) "a") = some 0 :=
  ⟨_, rfl, rfl, rfl, rfl⟩

end typer

namespace typer
open introspection

/-- The test `single-int` of `typer_test.go`: the root is a `Nullable` box around the object
`Query` whose field `a` is a `Nullable` box around the scalar `Int`. -/
theorem ParseTypes_test_single_int :
    ∃ st, ParseTypes examples.intSchema id 2 [.named "Int", .named "Query"] =
        .ok [some 3] st ∧
      st.heap =
        [{ Named := "Query", Object := some [("a", { Field := some 2 })] },
         { Scalar := { Value := "Int" } },
         { Nullable := some 1 },
         { Nullable := some 0 }] :=
  ⟨_, rfl, rfl⟩

/-- The test `single-simple-type` of `typer_test.go`: the first root is a `Nullable` box
around `Apple`, the second a `Nullable` box around `Query`, whose field `a` is the node of
`Apple` itself, which is what the validation of the test compares. -/
theorem ParseTypes_test_single_simple_type :
    ∃ st, ParseTypes examples.appleSchema id 3
        [.named "Apple", .named "Query", .named "String"] = .ok [some 3, some 6] st ∧
      st.heap[3]? = some { Nullable := some 0 } ∧
      st.heap[0]? = some { Named := "Apple", Object := some [("s", { Field := some 2 })] } ∧
      st.heap[2]? = some { Nullable := some 1 } ∧
      st.heap[1]? = some { Scalar := { Value := "String" } } ∧
      st.heap[6]? = some { Nullable := some 4 } ∧
      st.heap[4]? = some { Named := "Query", Object := some [("a", { Field := some 0 })] } :=
  ⟨_, rfl, rfl, rfl, rfl, rfl, rfl, rfl⟩

/-- C4, the code at a failing input: `Banana` is registered through the field `b` of
`Apple`, so the top-level visit of `Banana` returns the registered node itself: the second
root is the object node, not a `Nullable` box. -/
theorem ParseTypes_root_not_boxed :
    ∃ st, ParseTypes examples.basketSchema id 3 [.named "Apple", .named "Banana"] =
        .ok [some 5, some 1] st ∧
      skipped (.named "Banana") = false ∧
      isNullableBox st.heap (some 5) = true ∧
      isNullableBox st.heap (some 1) = false ∧
      st.atoms.get "Banana" = some 1 :=
  ⟨_, rfl, rfl, rfl, rfl, rfl⟩

/-- C5 as stated fails: for a union `resolveType` returns nil and no error, and `ParseTypes`
returns a root list, with a nil root for the union, and the populated registry. -/
theorem ParseTypes_union_not_rejected :
    (examples.unionSchema "SearchResult").Kind = "UNION" ∧
    resolveType examples.unionSchema id 1 true (.named "SearchResult") {} = .ok none {} ∧
    ∃ st, ParseTypes examples.unionSchema id 3 [.named "Query", .named "SearchResult"] =
        .ok [some 3, none] st ∧
      st.atoms = [("Query", 0), ("Int", 1)] :=
  ⟨rfl, rfl, _, rfl, rfl⟩

/-- C5 amended. For a type whose kind is `UNION` or none of the seven handled kinds,
`resolveType` returns nil and leaves the registry and the nodes as they are; `ParseTypes`
does not abort on such an entry: unless the entry is skipped, the loop records a nil root
for it and goes on with the rest of the input. -/
theorem resolveType_unsupported_kind (S : Schema) (Title : String → String) (t : IType)
    (hk : Unsupported (t.Kind S)) (fuel : Nat) (nullable : Bool) (st : St) :
    resolveType S Title (fuel + 1) nullable t st = .ok none st ∧
    (skipped t = false → ∀ rest types,
      parseLoop S Title (fuel + 1) (t :: rest) types st =
        parseLoop S Title (fuel + 1) rest (types ++ [none]) st) := by
  have h : resolveType S Title (fuel + 1) nullable t st = .ok none st ∧
      resolveType S Title (fuel + 1) true t st = .ok none st := by
    rcases hk with hk | ⟨h1, h2, h3, h4, h5, h6, h7⟩
    · constructor <;>
        exact resolveType_unsupported S Title fuel _ t st (by rw [hk]; decide)
          (by rw [hk]; decide) (by rw [hk]; decide) (by rw [hk]; decide) (by rw [hk]; decide)
    · have hno : ¬ isObjKind (t.Kind S) := by
        rintro (h | h | h)
        · exact h3 h
        · exact h4 h
        · exact h5 h
      constructor <;> exact resolveType_unsupported S Title fuel _ t st h1 h2 hno h6 h7
  refine ⟨h.1, ?_⟩
  intro hs rest types
  simp only [parseLoop, hs, h.2, Res.bind_ok]
  simp

/-- Witness of C5 amended: the union of `unionSchema`. -/
theorem resolveType_unsupported_kind_witness :
    resolveType examples.unionSchema id (0 + 1) true (.named "SearchResult") {} =
      .ok none {} ∧
    parseLoop examples.unionSchema id (0 + 1) [.named "SearchResult"] [] {} =
      parseLoop examples.unionSchema id (0 + 1) [] ([] ++ [none]) {} :=
  ⟨(resolveType_unsupported_kind examples.unionSchema id (.named "SearchResult")
      (Or.inl rfl) 0 true {}).1,
    (resolveType_unsupported_kind examples.unionSchema id (.named "SearchResult")
      (Or.inl rfl) 0 true {}).2 rfl [] []⟩

end typer

namespace typer
open introspection
open graphql (Outcome)

/-- C19, the code on a `Nullable` or `List` node whose name differs from `name`: the method
calls itself on the same node with the same name, so no recursion depth is enough. -/
theorem TypeIsObject_diverges (order : GoMap ObjectField → List (String × ObjectField))
    (heap : List TypeNode) (a : Nat) (t : TypeNode) (name : String)
    (ha : heap[a]? = some t) (hn : t.Named ≠ name)
    (hb : t.Nullable ≠ none ∨ t.ListOf ≠ none) :
    ∀ fuel, TypeIsObject order heap fuel (some a) name = .outOfFuel := by
  intro fuel
  induction fuel with
  | zero => rfl
  | succ fuel ih =>
    unfold TypeIsObject
    simp only [ha, hn, if_false]
    by_cases h1 : t.Nullable ≠ none
    · simp only [h1, if_true, ne_eq, not_false_eq_true]
      exact ih
    · have h2 : t.ListOf ≠ none := hb.resolve_left h1
      simp only [h1, h2, if_true, if_false, ne_eq, not_false_eq_true]
      exact ih

/-- Witness of C19: the node that `resolveType` returns for a field `a: Int`, a `Nullable`
box around the scalar `Int`, asked for the name `Apple`. -/
theorem TypeIsObject_diverges_witness :
    TypeIsObject id [{ Scalar := { Value := "Int" } }, { Nullable := some 0 }] 1000
      (some 1) "Apple" = .outOfFuel :=
  TypeIsObject_diverges id [{ Scalar := { Value := "Int" } }, { Nullable := some 0 }] 1
    { Nullable := some 0 } "Apple" rfl (by decide) (Or.inl (by decide)) 1000

/-- C16. Type canonicalization: `ToGoType` returns the resolver pointer for a named node and
the same string for a `Nullable` box around it; the Go name of the five built-in scalars
and its own name for any other scalar; `string` for an enum; `[]` before the type of the
element for a list; and `*` before the type of the content for a `Nullable` box whose
content has a type that does not begin with `*`. -/
theorem ToGoType_canonical (heap : List TypeNode) (a : Nat) (t : TypeNode)
    (ha : heap[a]? = some t) (fuel : Nat) :
    (t.Named ≠ "" →
      ToGoType heap (fuel + 1) (some a) = .ret ("*" ++ t.Named ++ "Resolver")) ∧
    (∀ b u, t.Named = "" → t.ListOf = none → t.Nullable = some b → heap[b]? = some u →
      u.Named ≠ "" →
      ToGoType heap (fuel + 2) (some a) = .ret ("*" ++ u.Named ++ "Resolver")) ∧
    (t.Named = "" → t.ListOf = none → t.Nullable = none → t.Enum = none →
      ToGoType heap (fuel + 1) (some a) =
        .ret (if t.Scalar.Value = "String" then "string"
          else if t.Scalar.Value = "Float" then "float64"
          else if t.Scalar.Value = "ID" then "graphql.ID"
          else if t.Scalar.Value = "Int" then "int32"
          else if t.Scalar.Value = "Boolean" then "bool"
          else t.Scalar.Value)) ∧
    (t.Named = "" → t.ListOf = none → t.Nullable = none → t.Enum ≠ none →
      ToGoType heap (fuel + 1) (some a) = .ret "string") ∧
    (∀ e inner, t.Named = "" → t.ListOf = some e → ToGoType heap fuel (some e) = .ret inner →
      ToGoType heap (fuel + 1) (some a) = .ret ("[]" ++ inner)) ∧
    (∀ x inner c cs, t.Named = "" → t.ListOf = none → t.Nullable = some x →
      ToGoType heap fuel (some x) = .ret inner → inner.data = c :: cs → c ≠ '*' →
      ToGoType heap (fuel + 1) (some a) = .ret ("*" ++ inner)) := by
  refine ⟨?_, ?_, ?_, ?_, ?_, ?_⟩
  · intro h
    simp [ToGoType, ha, h]
  · intro b u h1 h2 h3 hb hu
    have hinner : ToGoType heap (fuel + 1) (some b) = .ret ("*" ++ u.Named ++ "Resolver") := by
      simp [ToGoType, hb, hu]
    have hdata : ("*" ++ u.Named ++ "Resolver").data = '*' :: (u.Named ++ "Resolver").data := by
      simp [String.data_append]
    rw [ToGoType]
    simp only [ha, h1, h2, h3, hinner, Outcome.bind, hdata]
    simp
  · intro h1 h2 h3 h4
    simp [ToGoType, ha, h1, h2, h3, h4, scalarGoType]
  · intro h1 h2 h3 h4
    simp [ToGoType, ha, h1, h2, h3, h4]
  · intro e inner h1 h2 h3
    simp [ToGoType, ha, h1, h2, h3, Outcome.bind]
  · intro x inner c cs h1 h2 h3 h4 h5 h6
    rw [ToGoType]
    simp only [ha, h1, h2, h3, h4, Outcome.bind, h5]
    simp [h6]


/-- Witness of C16, on the nodes built for `Query{a: Apple}`, `Apple{s: String}`: the object
`Apple`, the `Nullable` box around it, and the `Nullable` box around the scalar `String`. -/
theorem ToGoType_canonical_witness :
    ToGoType examples.appleHeap 1 (some 0) = .ret "*AppleResolver" ∧
    ToGoType examples.appleHeap 2 (some 3) = .ret "*AppleResolver" ∧
    ToGoType examples.appleHeap 1 (some 1) = .ret "string" ∧
    ToGoType examples.appleHeap 2 (some 2) = .ret "*string" := by
  have h0 := (ToGoType_canonical examples.appleHeap 0 _ rfl 0).1 (by decide)
  have h3 := (ToGoType_canonical examples.appleHeap 3 _ rfl 0).2.1 0 _ rfl rfl rfl rfl
    (by decide)
  have h1 := (ToGoType_canonical examples.appleHeap 1 _ rfl 0).2.2.1 rfl rfl rfl rfl
  have h2 := (ToGoType_canonical examples.appleHeap 2 _ rfl 1).2.2.2.2.2 1 "string" 's'
    "tring".data rfl rfl rfl h1 rfl (by decide)
  exact ⟨h0, h3, h1, h2⟩

end typer

namespace typer
open introspection

theorem GoMap.keys_set {V : Type} (m : GoMap V) (k : String) (v : V) :
    (m.set k v).map Prod.fst = m.map Prod.fst ∨
    ((m.set k v).map Prod.fst = m.map Prod.fst ++ [k] ∧ k ∉ m.map Prod.fst) := by
  induction m with
  | nil => right; simp [GoMap.set]
  | cons e m ih =>
    obtain ⟨k2, v2⟩ := e
    by_cases h : k2 = k
    · left
      simp [GoMap.set, h]
    · rcases ih with ih | ⟨ih1, ih2⟩
      · left
        simp [GoMap.set, h, ih]
      · right
        refine ⟨by simp [GoMap.set, h, ih1], ?_⟩
        simp only [List.map_cons, List.mem_cons, not_or]
        exact ⟨fun e => h e.symm, ih2⟩

theorem GoMap.nodup_set {V : Type} (m : GoMap V) (k : String) (v : V)
    (h : (m.map Prod.fst).Nodup) : ((m.set k v).map Prod.fst).Nodup := by
  rcases GoMap.keys_set m k v with e | ⟨e, hk⟩
  · rw [e]; exact h
  · rw [e]
    exact List.Nodup.append h (List.nodup_singleton k) (by
      intro x hx hx2
      rw [List.mem_singleton.mp hx2] at hx
      exact hk hx)

theorem GoMap.get_of_mem {V : Type} (m : GoMap V) (h : (m.map Prod.fst).Nodup) (k : String)
    (v : V) (hm : (k, v) ∈ m) : m.get k = some v := by
  induction m with
  | nil => cases hm
  | cons e m ih =>
    obtain ⟨k2, v2⟩ := e
    simp only [List.map_cons, List.nodup_cons] at h
    rcases List.mem_cons.mp hm with hm | hm
    · cases hm
      simp [GoMap.get]
    · have hne : k2 ≠ k := by
        rintro rfl
        exact h.1 (List.mem_map.mpr ⟨(k2, v), hm, rfl⟩)
      simp [GoMap.get, hne, ih h.2 hm]

theorem RegEntryOK.extendHeap {S : Schema} {heap heap2 : List TypeNode} {n : String} {a : Nat}
    (hp : heap <+: heap2) (h : RegEntryOK S heap n a) : RegEntryOK S heap2 n a := by
  rcases h with ⟨ho, o, h1, h2⟩ | ⟨hs, h1⟩
  · exact Or.inl ⟨ho, o, prefix_getElem? hp h1, h2⟩
  · exact Or.inr ⟨hs, prefix_getElem? hp h1⟩

/-- Allocation keeps the invariant of the registry. -/
theorem RegOK.afterAlloc {S : Schema} {st : St} (h : RegOK S st) (v : TypeNode) :
    RegOK S { st with heap := st.heap ++ [v] } :=
  ⟨h.keys, fun n a ha => (h.entries n a ha).extendHeap (List.prefix_append _ _)⟩

/-- Registering the node just allocated keeps the invariant when it has the form of its
key. -/
theorem RegOK.registerNew {S : Schema} {st : St} (h : RegOK S st) (v : TypeNode)
    (n : String) (hv : RegEntryOK S (st.heap ++ [v]) n st.heap.length) :
    RegOK S { heap := st.heap ++ [v], atoms := st.atoms.set n st.heap.length } := by
  refine ⟨GoMap.nodup_set _ _ _ h.keys, ?_⟩
  intro n2 a2 ha
  by_cases hne : n2 = n
  · subst hne
    rw [GoMap.get_set_self] at ha
    cases ha
    exact hv
  · rw [GoMap.get_set_ne _ _ _ _ hne] at ha
    exact (h.entries n2 a2 ha).extendHeap (List.prefix_append _ _)

/-- Storing the fields of a registered object keeps the invariant. -/
theorem RegOK.storeFields {S : Schema} {st : St} (h : RegOK S st) (n : String) (obj : Nat)
    (ho : isObjKind (S n).Kind) (hreg : st.atoms.get n = some obj)
    (m : GoMap ObjectField) :
    RegOK S (st.modify obj fun o => { o with Object := some m }) := by
  have hobj : ∃ o, st.heap[obj]? = some o ∧ o = { objNode S n with Object := o.Object } := by
    rcases h.entries n obj hreg with ⟨_, o, h1, h2⟩ | ⟨hs, _⟩
    · exact ⟨o, h1, h2⟩
    · rw [hs] at ho
      exact absurd ho (by decide)
  obtain ⟨oo, hoo1, hoo2⟩ := hobj
  refine ⟨h.keys, ?_⟩
  intro n2 a2 ha
  have ha' : st.atoms.get n2 = some a2 := ha
  rcases h.entries n2 a2 ha' with ⟨ho2, o, h1, h2⟩ | ⟨hs, h1⟩
  · left
    refine ⟨ho2, ?_⟩
    by_cases hpa : obj = a2
    · subst hpa
      refine ⟨{ o with Object := some m }, by simp [St.modify, List.getElem?_modify, h1], ?_⟩
      rw [h2]
    · exact ⟨o, by simp [St.modify, List.getElem?_modify_ne _ _ hpa, h1], h2⟩
  · right
    refine ⟨hs, ?_⟩
    have hpa : obj ≠ a2 := by
      rintro rfl
      rw [hoo1] at h1
      cases h1
      have hname : (objNode S n).Named = "" := by
        have := congrArg TypeNode.Named hoo2
        simpa using this.symm
      have hval : n2 = "" := by
        have := congrArg (fun t => t.Scalar.Value) hoo2
        simpa [objNode] using this
      have hn : n = "" := by simpa [objNode] using hname
      rw [hn] at ho
      rw [hval] at hs
      rw [hs] at ho
      exact absurd ho (by decide)
    simp [St.modify, List.getElem?_modify_ne _ _ hpa, h1]

theorem boxIf_reg {S : Schema} (nullable : Bool) (a : Nat) (st : St) (r : Ptr) (st2 : St)
    (h : boxIf nullable a st = .ok r st2) (hreg : RegOK S st) : RegOK S st2 := by
  unfold boxIf at h
  cases nullable with
  | true =>
    simp only [alloc, if_true] at h
    cases h
    exact hreg.afterAlloc _
  | false =>
    simp only [Bool.false_eq_true, if_false] at h
    cases h
    exact hreg

theorem resolveArgs_reg (S : Schema) (Title : String → String)
    (rec : Bool → IType → St → Res Ptr)
    (hrec : ∀ nullable t st r st2, RegOK S st → rec nullable t st = .ok r st2 → RegOK S st2) :
    ∀ (args : List InputValue) (acc : List Argument) (st : St) (r : List Argument) (st2 : St),
      RegOK S st → resolveArgs Title rec args acc st = .ok r st2 → RegOK S st2 := by
  intro args
  induction args with
  | nil =>
    intro acc st r st2 hreg h
    simp only [resolveArgs] at h
    cases h
    exact hreg
  | cons arg rest ih =>
    intro acc st r st2 hreg h
    simp only [resolveArgs] at h
    obtain ⟨p, st1, h1, h2⟩ := Res.bind_eq_ok h
    exact ih _ _ _ _ (hrec _ _ _ _ _ hreg h1) h2

theorem resolveFields_reg (S : Schema) (Title : String → String)
    (rec : Bool → IType → St → Res Ptr)
    (hrec : ∀ nullable t st r st2, RegOK S st → rec nullable t st = .ok r st2 → RegOK S st2) :
    ∀ (fs : List Field) (m : GoMap ObjectField) (st : St) (r : GoMap ObjectField) (st2 : St),
      RegOK S st → resolveFields Title rec fs m st = .ok r st2 → RegOK S st2 := by
  intro fs
  induction fs with
  | nil =>
    intro m st r st2 hreg h
    simp only [resolveFields] at h
    cases h
    exact hreg
  | cons fld rest ih =>
    intro m st r st2 hreg h
    simp only [resolveFields] at h
    obtain ⟨fa, st1, h1, h2⟩ := Res.bind_eq_ok h
    obtain ⟨ft, st1b, h3, h4⟩ := Res.bind_eq_ok h2
    exact ih _ _ _ _
      (hrec _ _ _ _ _ (resolveArgs_reg S Title rec hrec _ _ _ _ _ hreg h1) h3) h4

/-- `resolveType` keeps the invariant of the registry. -/
theorem resolveType_reg (S : Schema) (Title : String → String) :
    ∀ (fuel : Nat) (nullable : Bool) (t : IType) (st : St) (r : Ptr) (st2 : St),
      RegOK S st → resolveType S Title fuel nullable t st = .ok r st2 → RegOK S st2 := by
  intro fuel
  induction fuel with
  | zero => intro nullable t st r st2 _ h; simp [resolveType] at h
  | succ fuel ih =>
    intro nullable t st r st2 hreg h
    cases t with
    | nonNull u =>
      rw [resolveType_nonNull] at h
      exact ih _ _ _ _ _ hreg h
    | list u =>
      rw [resolveType_list] at h
      obtain ⟨e, st1, h1, h2⟩ := Res.bind_eq_ok h
      exact boxIf_reg _ _ _ _ _ h2 ((ih _ _ _ _ _ hreg h1).afterAlloc _)
    | named n =>
      rcases kind_cases (S n).Kind with hk | hk | hk | hk | hk | ⟨k1, k2, k3, k4, k5⟩
      · rw [resolveType_wrapperKind S Title fuel nullable n st (Or.inl hk)] at h; cases h
      · rw [resolveType_wrapperKind S Title fuel nullable n st (Or.inr hk)] at h; cases h
      · rw [resolveType_scalar S Title fuel nullable n st hk] at h
        exact boxIf_reg _ _ _ _ _ h (hreg.registerNew _ n (Or.inr ⟨hk, by simp⟩))
      · rw [resolveType_object S Title fuel nullable n st hk] at h
        cases hg : st.atoms.get n with
        | some a =>
          simp only [hg] at h
          cases h
          exact hreg.afterAlloc _
        | none =>
          simp only [hg] at h
          have hreg3 := hreg.registerNew (objNode S n) n
            (Or.inl ⟨hk, objNode S n, by simp, rfl⟩)
          cases hf : (S n).Fields with
          | none =>
            simp only [hf] at h
            exact boxIf_reg _ _ _ _ _ h hreg3
          | some fs =>
            simp only [hf] at h
            obtain ⟨m, st1, h1, h2⟩ := Res.bind_eq_ok h
            have hreg4 := resolveFields_reg S Title _ (ih) fs [] _ m st1 hreg3 h1
            have hx34 := resolveFields_ext S Title _ (resolveType_ext S Title fuel)
              _ _ _ _ _ h1
            have hget : st1.atoms.get n = some st.heap.length :=
              hx34.objs n _ hk (GoMap.get_set_self _ _ _)
            exact boxIf_reg _ _ _ _ _ h2 (hreg4.storeFields n _ hk hget m)
      · rw [resolveType_enum S Title fuel nullable n st hk] at h
        exact boxIf_reg _ _ _ _ _ h (hreg.afterAlloc _)
      · rw [resolveType_unsupported S Title fuel nullable (.named n) st k1 k2 k3 k4 k5] at h
        cases h
        exact hreg

theorem parseLoop_reg (S : Schema) (Title : String → String) (fuel : Nat) :
    ∀ (input : List IType) (types : List Ptr) (st : St) (roots : List Ptr) (st2 : St),
      RegOK S st → parseLoop S Title fuel input types st = .ok roots st2 → RegOK S st2 := by
  intro input
  induction input with
  | nil =>
    intro types st roots st2 hreg h
    simp only [parseLoop] at h
    cases h
    exact hreg
  | cons t rest ih =>
    intro types st roots st2 hreg h
    simp only [parseLoop] at h
    split_ifs at h with hs
    · exact ih _ _ _ _ hreg h
    · obtain ⟨r, st1, h1, h2⟩ := Res.bind_eq_ok h
      exact ih _ _ _ _ (resolveType_reg S Title _ _ _ _ _ _ hreg h1) h2

/-- C17 as stated fails: after `ParseTypes` on `Query{a: Apple}`, `Apple{s: String}` the
registry has the key `String`, and the node stored under it is a scalar node, with no
name. -/
theorem ParseTypes_registry_holds_scalar :
    ∃ roots st,
      ParseTypes examples.appleSchema id 4 [.named "Apple", .named "Query"] = .ok roots st ∧
      ("String", 1) ∈ st.atoms ∧
      st.heap[1]? = some { Scalar := { Value := "String" } } ∧
      (st.heap[1]?.map fun o => o.Named) ≠ some "String" :=
  ⟨_, _, rfl, by decide, rfl, by decide⟩

/-- C17 amended. The registry that `ParseTypes` returns holds object nodes and scalar nodes
only: the entry of an object, interface or input object type is its object node, whose
`Named` is the key; the entry of a scalar type is a scalar node whose value is the key; so
no `Enum`, `List` or `Nullable` node is stored. -/
theorem ParseTypes_registry (S : Schema) (Title : String → String) (names : List String)
    (hwf : WellFormed S names) (input : List IType) (fuel : Nat)
    (hfuel : fuelBound S names input ≤ fuel) :
    ∃ roots st, ParseTypes S Title fuel input = .ok roots st ∧
      ∀ n a, (n, a) ∈ st.atoms →
        (isObjKind (S n).Kind ∧ ∃ o, st.heap[a]? = some o ∧ o.Named = n ∧
          o = { objNode S n with Object := o.Object }) ∨
        ((S n).Kind = "SCALAR" ∧ st.heap[a]? = some { Scalar := { Value := n } }) := by
  obtain ⟨roots, st, hrun, _, _⟩ := ParseTypes_spec S Title names hwf input fuel hfuel
  have hreg : RegOK S st :=
    parseLoop_reg S Title fuel input [] {} roots st
      ⟨by simp, fun n a h => by simp [GoMap.get] at h⟩ hrun
  refine ⟨roots, st, hrun, ?_⟩
  intro n a hmem
  rcases hreg.entries n a (GoMap.get_of_mem _ hreg.keys n a hmem) with
    ⟨ho, o, h1, h2⟩ | h
  · left
    refine ⟨ho, o, h1, ?_, h2⟩
    rw [h2]
    rfl
  · exact Or.inr h

/-- Witness of C17 amended: the registry of `appleSchema`. -/
theorem ParseTypes_registry_witness :
    ∃ roots st,
      ParseTypes examples.appleSchema id 4 [.named "Apple", .named "Query"] = .ok roots st ∧
      ∀ n a, (n, a) ∈ st.atoms →
        (isObjKind (examples.appleSchema n).Kind ∧ ∃ o, st.heap[a]? = some o ∧
          o.Named = n ∧ o = { objNode examples.appleSchema n with Object := o.Object }) ∨
        ((examples.appleSchema n).Kind = "SCALAR" ∧
          st.heap[a]? = some { Scalar := { Value := n } }) :=
  ParseTypes_registry examples.appleSchema id ["Query", "Apple"] examples_wellFormed.1
    [.named "Apple", .named "Query"] 4 (by decide)

end typer

namespace typer
open introspection

theorem isTopLevel_eq (t : IType) : isTopLevel t = !skipped t := by
  unfold isTopLevel skipped
  cases t.Name with
  | none => rfl
  | some n =>
    simp only []
    cases HasPrefix n "_" <;> simp

theorem filter_isTopLevel (input : List IType) : input.filter isTopLevel = kept input := by
  unfold kept
  congr 1
  funext t
  exact isTopLevel_eq t

theorem boxIf_some (nullable : Bool) (a : Nat) (st : St) (r : Ptr) (st2 : St)
    (h : boxIf nullable a st = .ok r st2) : r ≠ none := by
  unfold boxIf at h
  cases nullable with
  | true =>
    simp only [alloc, if_true] at h
    cases h
    exact Option.some_ne_none _
  | false =>
    simp only [Bool.false_eq_true, if_false] at h
    cases h
    exact Option.some_ne_none _

/-- For a named type of a supported kind, `resolveType` returns a node, not nil. -/
theorem resolveType_some (S : Schema) (Title : String → String) (fuel : Nat)
    (nullable : Bool) (n : String) (st : St) (r : Ptr) (st2 : St)
    (hk : ¬ Unsupported ((S n).Kind))
    (h : resolveType S Title fuel nullable (.named n) st = .ok r st2) : r ≠ none := by
  cases fuel with
  | zero => simp [resolveType] at h
  | succ fuel =>
    rcases kind_cases (S n).Kind with hk1 | hk1 | hk1 | hk1 | hk1 | ⟨k1, k2, k3, k4, k5⟩
    · rw [resolveType_wrapperKind S Title fuel nullable n st (Or.inl hk1)] at h; cases h
    · rw [resolveType_wrapperKind S Title fuel nullable n st (Or.inr hk1)] at h; cases h
    · rw [resolveType_scalar S Title fuel nullable n st hk1] at h
      exact boxIf_some _ _ _ _ _ h
    · rw [resolveType_object S Title fuel nullable n st hk1] at h
      cases hg : st.atoms.get n with
      | some a =>
        simp only [hg] at h
        cases h
        exact Option.some_ne_none _
      | none =>
        simp only [hg] at h
        cases hf : (S n).Fields with
        | none =>
          simp only [hf] at h
          exact boxIf_some _ _ _ _ _ h
        | some fs =>
          simp only [hf] at h
          obtain ⟨m, st1, _, h2⟩ := Res.bind_eq_ok h
          exact boxIf_some _ _ _ _ _ h2
    · rw [resolveType_enum S Title fuel nullable n st hk1] at h
      exact boxIf_some _ _ _ _ _ h
    · exfalso
      apply hk
      right
      refine ⟨k1, k2, ?_, ?_, ?_, k4, k5⟩
      · exact fun e => k3 (Or.inl e)
      · exact fun e => k3 (Or.inr (Or.inl e))
      · exact fun e => k3 (Or.inr (Or.inr e))

theorem parseLoop_roots (S : Schema) (Title : String → String) (fuel : Nat) :
    ∀ (input done : List IType) (types : List Ptr) (st : St) (roots : List Ptr) (st2 : St),
      (∀ t ∈ input, ¬ Unsupported (t.Kind S)) →
      List.Forall₂ (fun t r => r ≠ none ∧ ∃ s1 s2,
        resolveType S Title fuel true t s1 = .ok r s2 ∧ Ext S s2 st) done types →
      parseLoop S Title fuel input types st = .ok roots st2 →
      Ext S st st2 ∧
      List.Forall₂ (fun t r => r ≠ none ∧ ∃ s1 s2,
        resolveType S Title fuel true t s1 = .ok r s2 ∧ Ext S s2 st2)
        (done ++ kept input) roots := by
  intro input
  induction input with
  | nil =>
    intro done types st roots st2 _ hdone h
    simp only [parseLoop] at h
    cases h
    simpa [kept] using ⟨Ext.refl S st, hdone⟩
  | cons t rest ih =>
    intro done types st roots st2 hsup hdone h
    have hsup2 : ∀ u ∈ rest, ¬ Unsupported (u.Kind S) :=
      fun u hu => hsup u (List.mem_cons_of_mem _ hu)
    simp only [parseLoop] at h
    split_ifs at h with hs
    · have := ih done types st roots st2 hsup2 hdone h
      simpa [kept, hs] using this
    · obtain ⟨r, st1, h1, h2⟩ := Res.bind_eq_ok h
      have hx := resolveType_ext S Title _ _ _ _ _ _ h1
      have hr : r ≠ none := by
        cases t with
        | named n =>
          exact resolveType_some S Title fuel true n st r st1
            (hsup _ (List.mem_cons_self _ _)) h1
        | list u => simp [skipped, IType.Name] at hs
        | nonNull u => simp [skipped, IType.Name] at hs
      have hdone1 : List.Forall₂ (fun t r => r ≠ none ∧ ∃ s1 s2,
          resolveType S Title fuel true t s1 = .ok r s2 ∧ Ext S s2 st1) (done ++ [t])
          (types ++ [r]) :=
        List.rel_append
          (hdone.imp fun _ _ hf => ⟨hf.1, by
            obtain ⟨s1, s2, e1, e2⟩ := hf.2
            exact ⟨s1, s2, e1, e2.trans hx⟩⟩)
          (List.Forall₂.cons ⟨hr, st, st1, h1, Ext.refl S st1⟩ List.Forall₂.nil)
      obtain ⟨hx2, hall⟩ := ih (done ++ [t]) (types ++ [r]) st1 roots st2 hsup2 hdone1 h2
      exact ⟨hx.trans hx2, by simpa [kept, hs] using hall⟩

/-- C18. Top-level filtering and order: on a well-formed schema and an input of supported
kinds, `ParseTypes` returns one root per input entry that has a name which does not start
with `_` and is no built-in scalar, in the order of the input: the i-th root is the node,
not nil, that `resolveType` returned for the i-th such entry in a nullable context, and it
is still there in the final state.  The other entries contribute nothing. -/
theorem ParseTypes_roots (S : Schema) (Title : String → String) (names : List String)
    (hwf : WellFormed S names) (input : List IType)
    (hsup : ∀ t ∈ input, ¬ Unsupported (t.Kind S)) (fuel : Nat)
    (hfuel : fuelBound S names input ≤ fuel) :
    ∃ roots st, ParseTypes S Title fuel input = .ok roots st ∧
      roots.length = (input.filter isTopLevel).length ∧
      List.Forall₂ (fun t r => r ≠ none ∧ ∃ s1 s2,
        resolveType S Title fuel true t s1 = .ok r s2 ∧ Ext S s2 st)
        (input.filter isTopLevel) roots := by
  obtain ⟨roots, st, hrun, _, _⟩ := ParseTypes_spec S Title names hwf input fuel hfuel
  obtain ⟨_, hall⟩ := parseLoop_roots S Title fuel input [] [] {} roots st hsup
    List.Forall₂.nil hrun
  rw [filter_isTopLevel]
  have hall2 : List.Forall₂ (fun t r => r ≠ none ∧ ∃ s1 s2,
      resolveType S Title fuel true t s1 = .ok r s2 ∧ Ext S s2 st) (kept input) roots := by
    simpa using hall
  exact ⟨roots, st, hrun, hall2.length_eq.symm, hall2⟩

/-- Witness of C18: the introspected types of `Query{a: Apple}`, `Apple{s: String}` in the
order of the library, with the built-in scalars and an internal type; two roots come
back. -/
theorem ParseTypes_roots_witness :
    ∃ roots st,
      ParseTypes examples.appleSchema id 4
        [.named "Apple", .named "Boolean", .named "Query", .named "String",
          .named "__Schema"] = .ok roots st ∧
      roots.length = 2 ∧
      List.Forall₂ (fun t r => r ≠ none ∧ ∃ s1 s2,
        resolveType examples.appleSchema id 4 true t s1 = .ok r s2 ∧
          Ext examples.appleSchema s2 st)
        [.named "Apple", .named "Query"] roots :=
  ParseTypes_roots examples.appleSchema id ["Query", "Apple"] examples_wellFormed.1
    [.named "Apple", .named "Boolean", .named "Query", .named "String", .named "__Schema"]
    (by
      intro t ht
      have hk : t.Kind examples.appleSchema = "OBJECT" ∨
          t.Kind examples.appleSchema = "SCALAR" := by
        simp only [List.mem_cons, List.mem_singleton, List.not_mem_nil, or_false] at ht
        rcases ht with rfl | rfl | rfl | rfl | rfl <;> decide
      rcases hk with hk | hk <;> rw [hk] <;> unfold Unsupported <;> decide)
    4 (by decide)

end typer

/-! ## Package `graphql` -/

namespace graphql
open reflect

theorem Resolve_state_cases (lower : Char → Char) (assignable : RType → RType → Bool)
    (r : ScanResolver) (entity field : String) (args zero : GoValue)
    (object list nullable : Bool) :
    (Resolve lower assignable r entity field args zero object list nullable).2 = r ∨
    ∃ path zt, resolvePath r.Fields entity field = .ret path ∧ TypeOf zero = some zt ∧
      (Resolve lower assignable r entity field args zero object list nullable).2 =
        { r with Fields := r.Fields ++ [newEntry lower entity field args zt path object list] } := by
  unfold Resolve
  cases hp : resolvePath r.Fields entity field with
  | panic => simp
  | outOfFuel => simp
  | ret path =>
    cases hz : TypeOf zero with
    | none => simp
    | some zt =>
      right
      refine ⟨path, zt, rfl, rfl, ?_⟩
      simp only [newEntry]
      split_ifs <;> try rfl
      all_goals (split <;> try rfl)
      all_goals (split <;> rfl)

theorem Resolve_state_of_ret (lower : Char → Char) (assignable : RType → RType → Bool)
    (r : ScanResolver) (entity field : String) (args zero : GoValue)
    (object list nullable : Bool) (path : String) (zt : RType)
    (hp : resolvePath r.Fields entity field = .ret path) (hz : TypeOf zero = some zt) :
    (Resolve lower assignable r entity field args zero object list nullable).2 =
      { r with Fields := r.Fields ++ [newEntry lower entity field args zt path object list] } := by
  unfold Resolve
  simp only [hp, hz, newEntry]
  split_ifs <;> try rfl
  all_goals (split <;> try rfl)
  all_goals (split <;> rfl)

theorem resolvePathPartFrom_lt (fields : List Field) (entity : String) :
    ∀ n j, resolvePathPartFrom fields entity n = .ret (some j) → j < n := by
  intro n
  induction n with
  | zero => intro j h; simp [resolvePathPartFrom] at h
  | succ n ih =>
    intro j h
    unfold resolvePathPartFrom at h
    split at h
    · cases h
    · split at h
      · cases h
      · split_ifs at h with he
        · cases h; exact Nat.lt_succ_self _
        · exact Nat.lt_succ_of_lt (ih j h)

theorem resolvePathPartFrom_typed (fields : List Field) (entity : String)
    (ht : TypedLog fields) :
    ∀ n, n ≤ fields.length →
      (∃ i f, resolvePathPartFrom fields entity n = .ret (some i) ∧ i < n ∧
        fields[i]? = some f ∧ Matches f entity ∧
        ∀ k g, i < k → k < n → fields[k]? = some g → ¬ Matches g entity) ∨
      (resolvePathPartFrom fields entity n = .ret none ∧
        ∀ k g, k < n → fields[k]? = some g → ¬ Matches g entity) := by
  intro n
  induction n with
  | zero =>
    intro _
    right
    exact ⟨rfl, fun k g hk => absurd hk (Nat.not_lt_zero k)⟩
  | succ n ih =>
    intro hn
    have hlt : n < fields.length := hn
    obtain ⟨f, hf⟩ : ∃ f, fields[n]? = some f := ⟨fields[n], List.getElem?_eq_getElem hlt⟩
    have hmem : f ∈ fields := List.getElem?_mem hf
    obtain ⟨u, hu⟩ : ∃ u, f.UnderlyingType = some u := by
      cases h : f.UnderlyingType with
      | none => exact absurd h (ht f hmem)
      | some u => exact ⟨u, rfl⟩
    by_cases he : entity = u.Name
    · left
      refine ⟨n, f, ?_, Nat.lt_succ_self n, hf, ⟨u, hu, he.symm⟩, ?_⟩
      · simp [resolvePathPartFrom, hf, hu, he]
      · intro k g hk hk'
        omega
    · have hstep : resolvePathPartFrom fields entity (n + 1) =
          resolvePathPartFrom fields entity n := by
        simp [resolvePathPartFrom, hf, hu, he]
      have hnot : ¬ Matches f entity := by
        rintro ⟨u', hu', hn'⟩
        rw [hu] at hu'
        cases hu'
        exact he hn'.symm
      rcases ih (Nat.le_of_lt hlt) with ⟨i, fi, h1, h2, h3, h4, h5⟩ | ⟨h1, h2⟩
      · left
        refine ⟨i, fi, hstep.trans h1, Nat.lt_succ_of_lt h2, h3, h4, ?_⟩
        intro k g hik hk hg
        rcases Nat.lt_succ_iff_lt_or_eq.mp hk with hk | hk
        · exact h5 k g hik hk hg
        · subst hk
          rw [hf] at hg
          cases hg
          exact hnot
      · right
        refine ⟨hstep.trans h1, ?_⟩
        intro k g hk hg
        rcases Nat.lt_succ_iff_lt_or_eq.mp hk with hk | hk
        · exact h2 k g hk hg
        · subst hk
          rw [hf] at hg
          cases hg
          exact hnot

theorem TypedLog.take {fields : List Field} (ht : TypedLog fields) (n : Nat) :
    TypedLog (fields.take n) :=
  fun f hf => ht f (List.mem_of_mem_take hf)

theorem resolvePathPart_typed (fields : List Field) (entity : String) (ht : TypedLog fields) :
    (∃ i f, resolvePathPart fields entity = .ret (some i) ∧ i < fields.length ∧
      fields[i]? = some f ∧ Matches f entity ∧
      ∀ k g, i < k → fields[k]? = some g → ¬ Matches g entity) ∨
    (resolvePathPart fields entity = .ret none ∧ ∀ g ∈ fields, ¬ Matches g entity) := by
  unfold resolvePathPart
  rcases resolvePathPartFrom_typed fields entity ht fields.length (Nat.le_refl _) with
    ⟨i, f, h1, h2, h3, h4, h5⟩ | ⟨h1, h2⟩
  · left
    refine ⟨i, f, h1, h2, h3, h4, ?_⟩
    intro k g hik hg
    have hk : k < fields.length := (List.getElem?_eq_some.mp hg).1
    exact h5 k g hik hk hg
  · right
    refine ⟨h1, ?_⟩
    intro g hg
    obtain ⟨k, hk⟩ := List.mem_iff_getElem?.mp hg
    exact h2 k g (List.getElem?_eq_some.mp hk).1 hk

/-- With enough fuel the loop of `Resolve` returns a path on a typed log. -/
theorem pathLoop_typed (fields : List Field) (ht : TypedLog fields) :
    ∀ fuel idx path, idx < fuel → idx < fields.length →
      ∃ p, pathLoop fields fuel idx path = .ret p := by
  intro fuel
  induction fuel with
  | zero => intro idx path h; exact absurd h (Nat.not_lt_zero _)
  | succ fuel ih =>
    intro idx path hfuel hidx
    obtain ⟨f, hf⟩ : ∃ f, fields[idx]? = some f := ⟨fields[idx], List.getElem?_eq_getElem hidx⟩
    unfold pathLoop
    simp only [hf]
    rcases resolvePathPart_typed (fields.take idx) f.On (ht.take idx) with
      ⟨j, g, h1, h2, -⟩ | ⟨h1, -⟩
    · simp only [h1]
      have hj : j < idx := by
        have := h2
        simp only [List.length_take] at this
        omega
      exact ih j _ (by omega) (by omega)
    · simp only [h1]
      exact ⟨_, rfl⟩

theorem resolvePath_typed (fields : List Field) (entity field : String)
    (ht : TypedLog fields) : ∃ p, resolvePath fields entity field = .ret p := by
  unfold resolvePath
  rcases resolvePathPart_typed fields entity ht with ⟨i, f, h1, h2, -⟩ | ⟨h1, -⟩
  · simp only [h1]
    exact pathLoop_typed fields ht (i + 1) i field (Nat.lt_succ_self i) h2
  · simp only [h1]
    exact ⟨_, rfl⟩

/-- The loop reads only the entries up to its index, needs only `idx + 1` units of fuel, and
prepends to the path it is given. -/
theorem pathLoop_take_append (fields : List Field) (n : Nat) :
    ∀ fuel idx X p, pathLoop (fields.take n) fuel idx X = .ret p → idx < n →
      ∀ fuel2, idx < fuel2 → ∀ Y, pathLoop fields fuel2 idx (X ++ Y) = .ret (p ++ Y) := by
  intro fuel
  induction fuel with
  | zero => intro idx X p h; simp [pathLoop] at h
  | succ fuel ih =>
    intro idx X p h hidx fuel2 hfuel2 Y
    obtain ⟨k, rfl⟩ : ∃ k, fuel2 = k + 1 := ⟨fuel2 - 1, by omega⟩
    unfold pathLoop at h ⊢
    rw [List.getElem?_take_of_lt hidx] at h
    cases hf : fields[idx]? with
    | none => simp [hf] at h
    | some f =>
      simp only [hf] at h ⊢
      have htake : (fields.take n).take idx = fields.take idx := by
        rw [List.take_take, Nat.min_eq_left (Nat.le_of_lt hidx)]
      rw [htake] at h
      cases hr : resolvePathPart (fields.take idx) f.On with
      | panic => simp [hr] at h
      | outOfFuel => simp [hr] at h
      | ret o =>
        cases o with
        | none =>
          simp only [hr] at h ⊢
          cases h
          simp [String.append_assoc]
        | some j =>
          simp only [hr] at h ⊢
          have hj : j < idx := by
            have := resolvePathPartFrom_lt _ _ _ _ hr
            simp only [List.length_take] at this
            omega
          have := ih j _ p h (by omega) k (by omega) Y
          rw [← this]
          simp [String.append_assoc]

theorem ToLower_append (lower : Char → Char) (a b : String) :
    ToLower lower (a ++ b) = ToLower lower a ++ ToLower lower b := by
  apply String.ext
  simp [ToLower, String.data_append]

theorem ToLower_dot (lower : Char → Char) (hdot : lower '.' = '.') :
    ToLower lower "." = "." := by
  apply String.ext
  simp [ToLower, hdot]

theorem LogInv_append (lower : Char → Char) (fields : List Field) (entity field : String)
    (args : GoValue) (zt : RType) (path : String) (object list : Bool)
    (hinv : LogInv lower fields) (hp : resolvePath fields entity field = .ret path) :
    LogInv lower (fields ++ [newEntry lower entity field args zt path object list]) := by
  obtain ⟨ht, hpath⟩ := hinv
  refine ⟨?_, ?_⟩
  · intro f hf
    rcases List.mem_append.mp hf with hf | hf
    · exact ht f hf
    · rw [List.mem_singleton.mp hf]
      simp [newEntry]
  · intro i f hf
    by_cases hi : i < fields.length
    · rw [List.getElem?_append_left hi] at hf
      rw [List.take_append_of_le_length (Nat.le_of_lt hi)]
      exact hpath i f hf
    · have hi2 : fields.length ≤ i := Nat.le_of_not_lt hi
      rw [List.getElem?_append_right hi2] at hf
      have hi3 : i - fields.length = 0 := by
        by_contra hne
        have : ([newEntry lower entity field args zt path object list])[i - fields.length]? = none := by
          apply List.getElem?_eq_none
          simp
          omega
        rw [this] at hf
        cases hf
      have hi4 : i = fields.length := by omega
      subst hi4
      simp at hf
      subst hf
      rw [List.take_left]
      exact ⟨path, hp, rfl⟩

theorem Reachable.logInv {lower : Char → Char} {assignable : RType → RType → Bool}
    {r : ScanResolver} (hr : Reachable lower assignable r) : LogInv lower r.Fields := by
  induction hr with
  | init types =>
    refine ⟨fun f hf => by simp at hf, fun i f hf => by simp at hf⟩
  | step r entity field args zero object list nullable _ ih =>
    rcases Resolve_state_cases lower assignable r entity field args zero object list nullable
      with h | ⟨path, zt, hp, _, h⟩
    · rw [h]; exact ih
    · rw [h]
      exact LogInv_append lower r.Fields entity field args zt path object list ih hp

/-- The path that `Resolve` computes on a log written by `Resolve`, in terms of the nearest
earlier entry whose underlying type is named `entity`. -/
theorem resolvePath_of_logInv (lower : Char → Char) (hdot : lower '.' = '.')
    (fields : List Field) (hinv : LogInv lower fields) (entity field path : String)
    (hp : resolvePath fields entity field = .ret path) :
    (∀ (i : Nat) (f : Field), fields[i]? = some f → Matches f entity →
        (∀ (k : Nat) (g : Field), i < k → fields[k]? = some g → ¬ Matches g entity) →
        ToLower lower path = f.Path ++ "." ++ ToLower lower field) ∧
    ((∀ g ∈ fields, ¬ Matches g entity) → ToLower lower path = ToLower lower field) := by
  obtain ⟨ht, hpath⟩ := hinv
  constructor
  · intro i f hf hm hlast
    rcases resolvePathPart_typed fields entity ht with ⟨i2, f2, h1, h2, h3, h4, h5⟩ | ⟨_, h2⟩
    · have hii : i2 = i := by
        rcases Nat.lt_trichotomy i2 i with hlt | heq | hgt
        · exact absurd hm (h5 i f hlt hf)
        · exact heq
        · exact absurd h4 (hlast i2 f2 hgt h3)
      subst hii
      rw [hf] at h3
      cases h3
      obtain ⟨p, hp1, hp2⟩ := hpath i2 f hf
      unfold resolvePath at hp hp1
      simp only [h1] at hp
      unfold pathLoop at hp
      simp only [hf] at hp
      cases hr : resolvePathPart (fields.take i2) f.On with
      | panic => simp [hr] at hp
      | outOfFuel => simp [hr] at hp
      | ret o =>
        cases o with
        | none =>
          simp only [hr] at hp hp1
          cases hp
          cases hp1
          rw [hp2, ToLower_append, ToLower_append, ToLower_dot lower hdot]
        | some j =>
          simp only [hr] at hp hp1
          have hj : j < i2 := by
            have := resolvePathPartFrom_lt _ _ _ _ hr
            simp only [List.length_take] at this
            omega
          have := pathLoop_take_append fields i2 (j + 1) j f.Name p hp1 hj i2 hj ("." ++ field)
          rw [← String.append_assoc, hp] at this
          cases this
          rw [hp2, ← String.append_assoc, ToLower_append, ToLower_append,
            ToLower_dot lower hdot]
    · exact absurd hm (h2 f (List.getElem?_mem hf))
  · intro hnone
    rcases resolvePathPart_typed fields entity ht with ⟨i2, f2, _, _, h3, h4, _⟩ | ⟨h1, _⟩
    · exact absurd h4 (hnone f2 (List.getElem?_mem h3))
    · unfold resolvePath at hp
      simp only [h1] at hp
      cases hp
      rfl

/-- C6. Path reconstruction: on a log built from the empty log by `Resolve` calls only, a
call with a typed `zero` appends one entry, and the path of the appended entry is the path
of the last earlier entry whose underlying type is named `entity`, joined by a dot with the
lower-cased field name; when there is no such entry it is the lower-cased field name. -/
theorem Resolve_path_reconstruction (lower : Char → Char)
    (assignable : RType → RType → Bool) (hdot : lower '.' = '.') (r : ScanResolver)
    (hr : Reachable lower assignable r) (entity field : String) (args zero : GoValue)
    (object list nullable : Bool) :
    (TypeOf zero ≠ none → ∃ e,
      (Resolve lower assignable r entity field args zero object list nullable).2.Fields =
        r.Fields ++ [e]) ∧
    ∀ e,
      (Resolve lower assignable r entity field args zero object list nullable).2.Fields =
        r.Fields ++ [e] →
      (∀ (i : Nat) (f : Field), r.Fields[i]? = some f → Matches f entity →
        (∀ (k : Nat) (g : Field), i < k → r.Fields[k]? = some g → ¬ Matches g entity) →
        e.Path = f.Path ++ "." ++ ToLower lower field) ∧
      ((∀ g ∈ r.Fields, ¬ Matches g entity) → e.Path = ToLower lower field) := by
  have hinv := hr.logInv
  constructor
  · intro hz
    obtain ⟨zt, hzt⟩ : ∃ zt, TypeOf zero = some zt := by
      cases h : TypeOf zero with
      | none => exact absurd h hz
      | some zt => exact ⟨zt, rfl⟩
    obtain ⟨path, hp⟩ := resolvePath_typed r.Fields entity field hinv.1
    exact ⟨_, by rw [Resolve_state_of_ret lower assignable r entity field args zero object list
      nullable path zt hp hzt]⟩
  · intro e he
    rcases Resolve_state_cases lower assignable r entity field args zero object list nullable
      with h | ⟨path, zt, hp, _, h⟩
    · rw [h] at he
      have := congrArg List.length he
      simp at this
    · rw [h] at he
      have he2 := List.append_cancel_left he
      simp only [List.cons.injEq, and_true] at he2
      subst he2
      exact resolvePath_of_logInv lower hdot r.Fields hinv entity field path hp

/-- Witness of C6: after field `a` on `Query` (declared type named `Apple`), resolving field
`s` on `Apple` records the path `a.s`. -/
theorem Resolve_path_reconstruction_witness :
    ∃ e, (Resolve Char.toLower examples.sameType examples.afterQueryA "Apple" "s" .nil
        examples.zeroString false false true).2.Fields = examples.afterQueryA.Fields ++ [e] ∧
      e.Path = "a.s" := by
  have h := Resolve_path_reconstruction Char.toLower examples.sameType (by decide)
    examples.afterQueryA
    (Reachable.step _ "Query" "a" .nil examples.zeroApple true false true
      (Reachable.init examples.appleTypes))
    "Apple" "s" .nil examples.zeroString false false true
  obtain ⟨e, he⟩ := h.1 (by simp [examples.zeroString, TypeOf])
  refine ⟨e, he, ?_⟩
  have h0 : ∃ f, examples.afterQueryA.Fields[0]? = some f ∧ f.Path = "a" ∧
      Matches f "Apple" := ⟨_, rfl, by decide, ⟨_, rfl, rfl⟩⟩
  obtain ⟨f, hf, hfp, hfm⟩ := h0
  have := (h.2 e he).1 0 f hf hfm (by
    intro k g hk hg
    have hlen : examples.afterQueryA.Fields.length = 1 := rfl
    have := (List.getElem?_eq_some.mp hg).1
    omega)
  rw [this, hfp]
  decide

/-- C7, the code at the witness of the claim: the registry holds `Apple`, the declared type
of field `a`, yet `Resolve` looks up the field name `a` and fails. -/
theorem Resolve_object_lookup_by_field_name :
    examples.appleTypes.get "Apple" = some 0 ∧
    examples.appleTypes.get "Query" = some 4 ∧
    examples.appleTypes.get "a" = none ∧
    (Resolve Char.toLower examples.sameType { Types := examples.appleTypes } "Query" "a" .nil
      examples.zeroApple true false true).1 =
      .ret (examples.zeroApple, some "no such object a") := by
  refine ⟨by decide, by decide, by decide, ?_⟩
  rfl

/-- C8 as stated fails: the failed object field has been appended to the log. -/
theorem Resolve_unknown_object_appends :
    examples.appleTypes.get "a" = none ∧
    (Resolve Char.toLower examples.sameType { Types := examples.appleTypes } "Query" "a" .nil
      examples.zeroApple true false true).2.Fields ≠
      ({ Types := examples.appleTypes } : ScanResolver).Fields := by
  refine ⟨by decide, ?_⟩
  intro h
  have := congrArg List.length h
  revert this
  decide

/-- C8 amended. Unknown-object failure: when `object` is true and the field name is not a key
of `r.Types`, `Resolve` returns `zero` with the error `no such object <field>`, and the log
has grown by exactly one entry, for the failed field, with `Leaf` false. -/
theorem Resolve_unknown_object (lower : Char → Char) (assignable : RType → RType → Bool)
    (r : ScanResolver) (entity field : String) (args zero : GoValue) (list nullable : Bool)
    (ht : TypedLog r.Fields) (hz : TypeOf zero ≠ none)
    (habs : r.Types.get field = none) :
    ∃ e, Resolve lower assignable r entity field args zero true list nullable =
        (.ret (zero, some ("no such object " ++ field)),
          { r with Fields := r.Fields ++ [e] }) ∧
      e.On = entity ∧ e.Name = field ∧ e.Args = args ∧ e.Leaf = false := by
  obtain ⟨zt, hzt⟩ : ∃ zt, TypeOf zero = some zt := by
    cases h : TypeOf zero with
    | none => exact absurd h hz
    | some zt => exact ⟨zt, rfl⟩
  obtain ⟨path, hp⟩ := resolvePath_typed r.Fields entity field ht
  refine ⟨newEntry lower entity field args zt path true list, ?_, rfl, rfl, rfl, rfl⟩
  unfold Resolve
  simp only [hp, hzt, habs, newEntry]
  simp

/-- Witness of C8 amended. -/
theorem Resolve_unknown_object_witness :
    ∃ e, Resolve Char.toLower examples.sameType { Types := examples.appleTypes } "Query" "a"
        .nil examples.zeroApple true false true =
        (.ret (examples.zeroApple, some ("no such object " ++ "a")),
          { Types := examples.appleTypes, Fields := [] ++ [e] }) ∧
      e.On = "Query" ∧ e.Name = "a" ∧ e.Args = .nil ∧ e.Leaf = false :=
  Resolve_unknown_object Char.toLower examples.sameType { Types := examples.appleTypes }
    "Query" "a" .nil examples.zeroApple false true
    (fun f hf => by simp at hf) (by simp [examples.zeroApple, TypeOf]) (by decide)

/-- C9. Append-only record: whatever the state and the arguments, and whether the call
returns a value, returns an error or panics, the log after the call has the log before the
call as a prefix: every earlier entry is still at its index, and the length has not
decreased. -/
theorem Resolve_append_only (lower : Char → Char) (assignable : RType → RType → Bool)
    (r : ScanResolver) (entity field : String) (args zero : GoValue)
    (object list nullable : Bool) :
    r.Fields <+: (Resolve lower assignable r entity field args zero object list
        nullable).2.Fields ∧
    (∀ i : Nat, i < r.Fields.length →
      (Resolve lower assignable r entity field args zero object list nullable).2.Fields[i]? =
        r.Fields[i]?) ∧
    r.Fields.length ≤
      (Resolve lower assignable r entity field args zero object list
        nullable).2.Fields.length := by
  rcases Resolve_state_cases lower assignable r entity field args zero object list nullable
    with h | ⟨path, zt, _, _, h⟩
  · rw [h]
    exact ⟨List.prefix_refl _, fun _ _ => rfl, Nat.le_refl _⟩
  · rw [h]
    refine ⟨List.prefix_append _ _, fun i hi => List.getElem?_append_left hi, ?_⟩
    simp

/-- C10, the code at a nil `zero`: a leaf call (`object` and `list` false) on the empty log
whose `zero` is the nil interface does not return `zero` with a nil error and appends
nothing: `reflect.TypeOf(nil)` is nil, `getUnderlying` calls `Kind` on it and panics while
the entry is being built. -/
theorem Resolve_leaf_nil_zero_panics :
    Resolve Char.toLower examples.sameType { Types := examples.appleTypes } "Apple" "s" .nil
        .nil false false true =
      (.panic, { Types := examples.appleTypes }) ∧
    (Resolve Char.toLower examples.sameType { Types := examples.appleTypes } "Apple" "s" .nil
        .nil false false true).1 ≠ .ret (.nil, none) ∧
    (Resolve Char.toLower examples.sameType { Types := examples.appleTypes } "Apple" "s" .nil
        .nil false false true).2.Fields = [] :=
  ⟨rfl, (by show Outcome.panic ≠ _; intro h; cases h), rfl⟩

/-- C10 amended. Leaf passthrough, on a log whose entries carry an underlying type.  A call
with a `zero` that is not the nil interface appends exactly one entry, with `On = entity`,
`Name = field` and `Args = args`; when `object` and `list` are both false the entry has
`Leaf` true and the call returns `zero` itself with a nil error; when `object` or `list` is
true the entry has `Leaf` false.  A call whose `zero` is the nil interface panics and
appends nothing. -/
theorem Resolve_leaf_passthrough (lower : Char → Char) (assignable : RType → RType → Bool)
    (r : ScanResolver) (entity field : String) (args zero : GoValue)
    (object list nullable : Bool) (ht : TypedLog r.Fields) :
    (TypeOf zero ≠ none →
      ∃ e,
        (Resolve lower assignable r entity field args zero object list nullable).2 =
          { r with Fields := r.Fields ++ [e] } ∧
        e.On = entity ∧ e.Name = field ∧ e.Args = args ∧
        (object = false ∧ list = false →
          e.Leaf = true ∧
          (Resolve lower assignable r entity field args zero object list nullable).1 =
            .ret (zero, none)) ∧
        (object = true ∨ list = true → e.Leaf = false)) ∧
    (TypeOf zero = none →
      Resolve lower assignable r entity field args zero object list nullable =
        (.panic, r)) := by
  obtain ⟨path, hp⟩ := resolvePath_typed r.Fields entity field ht
  constructor
  · intro hz
    obtain ⟨zt, hzt⟩ : ∃ zt, TypeOf zero = some zt := by
      cases h : TypeOf zero with
      | none => exact absurd h hz
      | some zt => exact ⟨zt, rfl⟩
    refine ⟨newEntry lower entity field args zt path object list,
      Resolve_state_of_ret lower assignable r entity field args zero object list nullable path
        zt hp hzt, rfl, rfl, rfl, ?_, ?_⟩
    · rintro ⟨ho, hl⟩
      subst ho hl
      refine ⟨rfl, ?_⟩
      unfold Resolve
      simp only [hp, hzt]
      simp
    · intro h
      rcases h with h | h <;> subst h <;> simp [newEntry]
  · intro hz
    unfold Resolve
    simp only [hp, hz]

/-- Witness of C10 amended: the leaf field `s` on `Apple`, after field `a` on `Query`. -/
theorem Resolve_leaf_passthrough_witness :
    ∃ e,
      (Resolve Char.toLower examples.sameType examples.afterQueryA "Apple" "s" .nil
        examples.zeroString false false true).2 =
        { examples.afterQueryA with Fields := examples.afterQueryA.Fields ++ [e] } ∧
      e.On = "Apple" ∧ e.Name = "s" ∧ e.Args = .nil ∧ e.Leaf = true ∧
      (Resolve Char.toLower examples.sameType examples.afterQueryA "Apple" "s" .nil
        examples.zeroString false false true).1 = .ret (examples.zeroString, none) := by
  obtain ⟨e, h1, h2, h3, h4, h5, _⟩ :=
    (Resolve_leaf_passthrough Char.toLower examples.sameType examples.afterQueryA "Apple" "s"
      .nil examples.zeroString false false true
      (fun f hf => by
        have h : ∃ f0, examples.afterQueryA.Fields = [f0] ∧ f0.UnderlyingType ≠ none :=
          ⟨_, rfl, Option.some_ne_none _⟩
        obtain ⟨f0, h1, h2⟩ := h
        rw [h1] at hf
        rw [List.mem_singleton.mp hf]
        exact h2)).1
      (by simp [examples.zeroString, TypeOf])
  exact ⟨e, h1, h2, h3, h4, (h5 ⟨rfl, rfl⟩).1, (h5 ⟨rfl, rfl⟩).2⟩

theorem resolvePathPartFrom_ne_outOfFuel (fields : List Field) (entity : String) :
    ∀ n, resolvePathPartFrom fields entity n ≠ .outOfFuel := by
  intro n
  induction n with
  | zero => simp [resolvePathPartFrom]
  | succ n ih =>
    unfold resolvePathPartFrom
    split
    · simp
    · split
      · simp
      · split_ifs
        · simp
        · exact ih

/-- The loop of `Resolve` ends: started at `idx` it needs no more than `idx + 1` rounds,
since every round continues at a smaller index. -/
theorem pathLoop_ne_outOfFuel (fields : List Field) :
    ∀ fuel idx path, idx < fuel → pathLoop fields fuel idx path ≠ .outOfFuel := by
  intro fuel
  induction fuel with
  | zero => intro idx path h; exact absurd h (Nat.not_lt_zero _)
  | succ fuel ih =>
    intro idx path hfuel
    unfold pathLoop
    cases hf : fields[idx]? with
    | none => simp
    | some f =>
      simp only []
      cases hr : resolvePathPart (fields.take idx) f.On with
      | panic => simp
      | outOfFuel => exact absurd hr (resolvePathPartFrom_ne_outOfFuel _ _ _)
      | ret o =>
        cases o with
        | none => simp
        | some j =>
          simp only []
          have hj : j < idx := by
            have := resolvePathPartFrom_lt _ _ _ _ hr
            simp only [List.length_take] at this
            omega
          exact ih j _ (by omega)

theorem resolvePath_ne_outOfFuel (fields : List Field) (entity field : String) :
    resolvePath fields entity field ≠ .outOfFuel := by
  unfold resolvePath
  cases hr : resolvePathPart fields entity with
  | panic => simp
  | outOfFuel => exact absurd hr (resolvePathPartFrom_ne_outOfFuel _ _ _)
  | ret o =>
    cases o with
    | none => simp
    | some idx => exact pathLoop_ne_outOfFuel fields (idx + 1) idx field (Nat.lt_succ_self _)

theorem resolveList_ne_unimplemented (assignable : RType → RType → Bool) (zero v : GoValue) :
    resolveList assignable zero ≠ .ret (v, some "unimplemented") := by
  unfold resolveList
  split
  · simp
  · split
    · simp
    · simp only []
      split
      · simp
      · split_ifs <;> simp

theorem resolveList_ne_outOfFuel (assignable : RType → RType → Bool) (zero : GoValue) :
    resolveList assignable zero ≠ .outOfFuel := by
  unfold resolveList
  split
  · simp
  · split
    · simp
    · simp only []
      split
      · simp
      · split_ifs <;> simp

theorem noSuchObject_ne_unimplemented (field : String) :
    "no such object " ++ field ≠ "unimplemented" := by
  intro h
  have := congrArg String.data h
  simp [String.data_append] at this

/-- C20. Flag classification is exhaustive: whatever the flags and the other arguments,
`Resolve` does not return the error `unimplemented`; with `object` true the call does the
same for either value of `list` and for any assignability check of the list branch, so the
object branch is the one taken; and the path loop ends, so the call does not run out of
fuel. -/
theorem Resolve_flags_exhaustive (lower : Char → Char) (assignable : RType → RType → Bool)
    (r : ScanResolver) (entity field : String) (args zero : GoValue)
    (object list nullable : Bool) :
    (∀ v, (Resolve lower assignable r entity field args zero object list nullable).1 ≠
      .ret (v, some "unimplemented")) ∧
    (∀ (assignable2 : RType → RType → Bool) (list2 : Bool),
      Resolve lower assignable r entity field args zero true list nullable =
        Resolve lower assignable2 r entity field args zero true list2 nullable) ∧
    (Resolve lower assignable r entity field args zero object list nullable).1 ≠
      .outOfFuel ∧
    resolvePath r.Fields entity field ≠ .outOfFuel := by
  have hpath := resolvePath_ne_outOfFuel r.Fields entity field
  refine ⟨?_, ?_, ?_, hpath⟩
  · intro v
    unfold Resolve
    cases hp : resolvePath r.Fields entity field with
    | panic => simp
    | outOfFuel => simp
    | ret path =>
      cases hz : TypeOf zero with
      | none => simp
      | some zt =>
        cases object <;> cases list
        · simp
        · simpa using resolveList_ne_unimplemented assignable zero v
        all_goals
          simp only [Bool.not_true, Bool.false_and, Bool.and_false, Bool.false_eq_true,
            if_false, if_true]
          cases r.Types.get field with
          | none =>
            simp only [ne_eq, Outcome.ret.injEq, Prod.mk.injEq, Option.some.injEq, not_and]
            intro _
            exact noSuchObject_ne_unimplemented field
          | some a =>
            simp only []
            cases zt.Elem <;> simp
  · intro assignable2 list2
    unfold Resolve
    cases hp : resolvePath r.Fields entity field with
    | panic => rfl
    | outOfFuel => rfl
    | ret path =>
      cases hz : TypeOf zero with
      | none => rfl
      | some zt => cases list <;> cases list2 <;> rfl
  · unfold Resolve
    cases hp : resolvePath r.Fields entity field with
    | panic => simp
    | outOfFuel => exact absurd hp hpath
    | ret path =>
      cases hz : TypeOf zero with
      | none => simp
      | some zt =>
        cases object <;> cases list
        · simp
        · simpa using resolveList_ne_outOfFuel assignable zero
        all_goals
          simp only [Bool.not_true, Bool.false_and, Bool.and_false, Bool.false_eq_true,
            if_false, if_true]
          cases r.Types.get field with
          | none => simp
          | some a =>
            simp only []
            cases zt.Elem <;> simp


/-- The list branch on a slice of pointers: with a typed log and a pointer slot that accepts
the pointer `reflect.New` makes, `Resolve` returns a slice of the type of `zero` with one
element, a pointer to a fresh zero value of the element type. -/
theorem Resolve_list_of_pointers (lower : Char → Char) (assignable : RType → RType → Bool)
    (r : ScanResolver) (entity field : String) (args : GoValue) (n pn : String)
    (elem : RType) (data : Nat) (nullable : Bool) (ht : TypedLog r.Fields)
    (ha : assignable (.ptr "" elem) (.ptr pn elem) = true) :
    (Resolve lower assignable r entity field args (.val (.slice n (.ptr pn elem)) data)
      false true nullable).1 =
      .ret (.slice (.slice n (.ptr pn elem)) [.new elem], none) := by
  obtain ⟨path, hp⟩ := resolvePath_typed r.Fields entity field ht
  unfold Resolve
  simp [hp, TypeOf, resolveList, RType.Elem, RType.isPtr, RType.isSlice, ha]

/-- C11, the code on a slice whose elements are no pointers: `reflect.New` makes a pointer
to the element type, the call `innerVal.Elem()` that would dereference it is discarded, and
`reflect.Append` is given a pointer for a slot that holds a value: `Resolve` panics. -/
theorem Resolve_list_of_values_panics (lower : Char → Char)
    (assignable : RType → RType → Bool) (r : ScanResolver) (entity field : String)
    (args : GoValue) (n : String) (slot : RType) (data : Nat) (nullable : Bool)
    (ht : TypedLog r.Fields) (hslot : slot.isPtr = false)
    (hna : assignable (.ptr "" slot) slot = false) :
    (Resolve lower assignable r entity field args (.val (.slice n slot) data)
      false true nullable).1 = .panic := by
  obtain ⟨path, hp⟩ := resolvePath_typed r.Fields entity field ht
  unfold Resolve
  simp [hp, TypeOf, resolveList, RType.Elem, RType.isSlice, hslot, hna]

/-- Witness of C11: the zero value of `[]string`, on the empty log. -/
theorem Resolve_list_of_values_panics_witness :
    (Resolve Char.toLower examples.sameType { Types := examples.appleTypes } "Query" "names"
      .nil (.val (.slice "" (.other "string")) 0) false true true).1 = .panic :=
  Resolve_list_of_values_panics Char.toLower examples.sameType
    { Types := examples.appleTypes } "Query" "names" .nil "" (.other "string") 0 true
    (fun f hf => by simp at hf) rfl (by decide)

end graphql

/-! ## Package `generate` -/

namespace generate

open typer
open graphql (Outcome)

theorem Outcome_isRet_iff {α : Type} (x : Outcome α) : x.isRet = true ↔ ∃ a, x = .ret a := by
  cases x <;> simp [Outcome.isRet]

theorem Outcome_bind_eq_ret {α β : Type} (x : Outcome α) (f : α → Outcome β) (b : β) :
    x.bind f = .ret b ↔ ∃ a, x = .ret a ∧ f a = .ret b := by
  cases x <;> simp [Outcome.bind]

theorem fieldsLoop_iff (Title : String → String) (heap : List TypeNode) (depth : Nat)
    (l : List (String × ObjectField)) (fs : List Field) :
    fieldsLoop Title heap depth l = .ret fs ↔
      List.Forall₂ (fun kv f => makeField Title heap depth kv.1 kv.2 = .ret f) l fs := by
  induction l generalizing fs with
  | nil =>
    cases fs <;> simp [fieldsLoop]
  | cons kv rest ih =>
    obtain ⟨key, field⟩ := kv
    simp only [fieldsLoop, Outcome_bind_eq_ret]
    constructor
    · rintro ⟨f, hf, fs2, hfs2, h⟩
      cases h
      exact List.Forall₂.cons hf ((ih fs2).1 hfs2)
    · intro h
      cases h with
      | cons hf hrest => exact ⟨_, hf, _, (ih _).2 hrest, rfl⟩

theorem fieldsLoop_perm (Title : String → String) (heap : List TypeNode) (depth : Nat)
    (l l2 : List (String × ObjectField)) (hp : l.Perm l2) (fs : List Field)
    (h : fieldsLoop Title heap depth l = .ret fs) :
    ∃ fs2, fieldsLoop Title heap depth l2 = .ret fs2 ∧ fs.Perm fs2 := by
  rw [fieldsLoop_iff] at h
  have h2 : Relation.Comp List.Perm
      (List.Forall₂ (fun kv f => makeField Title heap depth kv.1 kv.2 = .ret f)) l2 fs :=
    ⟨l, hp.symm, h⟩
  rw [← List.forall₂_comp_perm_eq_perm_comp_forall₂] at h2
  obtain ⟨fs2, h3, h4⟩ := h2
  exact ⟨fs2, (fieldsLoop_iff _ _ _ _ _).2 h3, h4.symm⟩

theorem fieldsLoop_ok (Title : String → String) (heap : List TypeNode) (depth : Nat)
    (l : List (String × ObjectField))
    (h : ∀ kv ∈ l, (makeField Title heap depth kv.1 kv.2).isRet = true) :
    ∃ fs, fieldsLoop Title heap depth l = .ret fs := by
  induction l with
  | nil => exact ⟨[], rfl⟩
  | cons kv rest ih =>
    obtain ⟨key, field⟩ := kv
    obtain ⟨f, hf⟩ := (Outcome_isRet_iff _).1 (h (key, field) (List.mem_cons_self _ _))
    obtain ⟨fs, hfs⟩ := ih fun kv hkv => h kv (List.mem_cons_of_mem _ hkv)
    exact ⟨f :: fs, by simp [fieldsLoop] at hf ⊢; simp [hf, hfs, Outcome.bind]⟩

end generate

namespace generate

open typer
open graphql (Outcome)

theorem contents_cons (heap : List TypeNode) (p : Ptr) (q : List Ptr) :
    contents heap (p :: q) = contents heap [p] ++ contents heap q := by
  unfold contents
  rw [← List.filterMap_append]
  rfl

theorem contents_single (heap : List TypeNode) (a : Nat) (val : TypeNode)
    (ha : heap[a]? = some val) :
    contents heap [some a] = if val.Nullable ≠ none then [val.Nullable] else [] := by
  by_cases h : val.Nullable = none <;> simp [contents, nodeAt, ha, h]

theorem tmplLoop_step (Title : String → String)
    (order : Nat → GoMap ObjectField → List (String × ObjectField))
    (heap : List TypeNode) (depth fuel i a : Nat) (rest : List Ptr) (acc : List Resolver)
    (val : TypeNode) (ha : heap[a]? = some val) :
    tmplLoop Title order heap depth (fuel + 1) i (some a :: rest) acc =
      if val.Named = "" then
        tmplLoop Title order heap depth fuel (i + 1) (rest ++ contents heap [some a]) acc
      else
        (fieldsLoop Title heap depth (order i (val.Object.getD []))).bind fun fields =>
          tmplLoop Title order heap depth fuel (i + 1) (rest ++ contents heap [some a])
            (acc ++ [resolverOf val fields]) := by
  rw [contents_single heap a val ha]
  by_cases h : val.Nullable = none <;> simp [tmplLoop, ha, h]

theorem tmplLoop_nil (Title : String → String)
    (order : Nat → GoMap ObjectField → List (String × ObjectField))
    (heap : List TypeNode) (depth fuel i : Nat) (acc : List Resolver) :
    tmplLoop Title order heap depth fuel i [] acc = .ret { Resolvers := acc } := by
  cases fuel <;> simp [tmplLoop]

theorem Unwraps.head {heap : List TypeNode} {p q : Ptr} {val : TypeNode}
    (hp : nodeAt heap p = some val) (hn : val.Nullable ≠ none)
    (h : Unwraps heap val.Nullable q) : Unwraps heap p q := by
  induction h with
  | refl => exact Unwraps.step (Unwraps.refl p) hp hn
  | step _ h2 h3 ih => exact Unwraps.step ih h2 h3

theorem tmplLoop_visits (Title : String → String)
    (order : Nat → GoMap ObjectField → List (String × ObjectField)) (horder : IsOrder order)
    (heap : List TypeNode) (depth : Nat) :
    ∀ (fuel i : Nat) (queue : List Ptr) (acc : List Resolver) (g : Generator),
      tmplLoop Title order heap depth fuel i queue acc = .ret g →
      ∃ V rs, V = queue ++ contents heap V ∧
        (∀ q ∈ V, ∃ r ∈ queue, Unwraps heap r q) ∧
        g.Resolvers = acc ++ rs ∧
        List.Forall₂ (Emits Title heap depth) (V.filter (isNamed heap)) rs := by
  intro fuel
  induction fuel with
  | zero =>
    intro i queue acc g h
    cases queue with
    | nil =>
      rw [tmplLoop_nil] at h
      cases h
      exact ⟨[], [], by simp [contents], by simp, by simp, by simp⟩
    | cons p rest => simp [tmplLoop] at h
  | succ fuel ih =>
    intro i queue acc g h
    cases queue with
    | nil =>
      rw [tmplLoop_nil] at h
      cases h
      exact ⟨[], [], by simp [contents], by simp, by simp, by simp⟩
    | cons p rest =>
      cases p with
      | none => simp [tmplLoop] at h
      | some a =>
        cases ha : heap[a]? with
        | none => simp [tmplLoop, ha] at h
        | some val =>
          rw [tmplLoop_step _ _ _ _ _ _ _ _ _ _ ha] at h
          have hat : nodeAt heap (some a) = some val := by simp [nodeAt, ha]
          have hsub : ∀ r ∈ rest ++ contents heap [some a], ∀ q, Unwraps heap r q →
              ∃ r2 ∈ some a :: rest, Unwraps heap r2 q := by
            intro r hr q hq
            rcases List.mem_append.1 hr with hr | hr
            · exact ⟨r, List.mem_cons_of_mem _ hr, hq⟩
            · rw [contents_single heap a val ha] at hr
              by_cases hn : val.Nullable = none
              · simp [hn] at hr
              · simp only [ne_eq, hn, not_false_eq_true, if_true, List.mem_singleton] at hr
                subst hr
                exact ⟨some a, List.mem_cons_self _ _, Unwraps.head hat hn hq⟩
          by_cases hname : val.Named = ""
          · rw [if_pos hname] at h
            obtain ⟨V, rs, hV, hreach, hres, hall⟩ := ih _ _ _ _ h
            refine ⟨some a :: V, rs, ?_, ?_, hres, ?_⟩
            · rw [contents_cons, List.cons_append, ← List.append_assoc, ← hV]
            · intro q hq
              rcases List.mem_cons.1 hq with rfl | hq
              · exact ⟨_, List.mem_cons_self _ _, Unwraps.refl _⟩
              · obtain ⟨r, hr, hrq⟩ := hreach q hq
                exact hsub r hr q hrq
            · have : isNamed heap (some a) = false := by simp [isNamed, hat, hname]
              simpa [List.filter_cons, this] using hall
          · rw [if_neg hname, Outcome_bind_eq_ret] at h
            obtain ⟨fields, hfields, h⟩ := h
            obtain ⟨V, rs, hV, hreach, hres, hall⟩ := ih _ _ _ _ h
            refine ⟨some a :: V, resolverOf val fields :: rs, ?_, ?_, ?_, ?_⟩
            · rw [contents_cons, List.cons_append, ← List.append_assoc, ← hV]
            · intro q hq
              rcases List.mem_cons.1 hq with rfl | hq
              · exact ⟨_, List.mem_cons_self _ _, Unwraps.refl _⟩
              · obtain ⟨r, hr, hrq⟩ := hreach q hq
                exact hsub r hr q hrq
            · simpa using hres
            · have : isNamed heap (some a) = true := by simp [isNamed, hat, hname]
              rw [List.filter_cons, this, if_pos rfl]
              exact List.Forall₂.cons ⟨val, _, fields, hat, horder _ _, hfields, rfl⟩ hall

end generate

namespace generate

open typer
open graphql (Outcome)

theorem tmplLoop_ok (Title : String → String)
    (order : Nat → GoMap ObjectField → List (String × ObjectField)) (horder : IsOrder order)
    (heap : List TypeNode) (depth : Nat) :
    ∀ (fuel i : Nat) (queue : List Ptr) (acc : List Resolver) (V : List Ptr),
      V = queue ++ contents heap V → (∀ p ∈ V, Renders Title heap depth p) →
      V.length ≤ fuel →
      ∃ g, tmplLoop Title order heap depth fuel i queue acc = .ret g := by
  intro fuel
  induction fuel with
  | zero =>
    intro i queue acc V hV _ hlen
    have : V = [] := List.eq_nil_of_length_eq_zero (Nat.le_zero.1 hlen)
    subst this
    cases queue with
    | nil => exact ⟨_, tmplLoop_nil _ _ _ _ _ _ _⟩
    | cons p rest => simp at hV
  | succ fuel ih =>
    intro i queue acc V hV hren hlen
    cases queue with
    | nil => exact ⟨_, tmplLoop_nil _ _ _ _ _ _ _⟩
    | cons p rest =>
      cases V with
      | nil => simp at hV
      | cons x V1 =>
        rw [List.cons_append, List.cons.injEq] at hV
        obtain ⟨hx, hV1⟩ := hV
        subst hx
        rw [contents_cons, ← List.append_assoc] at hV1
        have hp := hren x (List.mem_cons_self _ _)
        have hren1 : ∀ p ∈ V1, Renders Title heap depth p :=
          fun p hp => hren p (List.mem_cons_of_mem _ hp)
        have hlen1 : V1.length ≤ fuel := by
          simp only [List.length_cons] at hlen
          omega
        cases x with
        | none => simp [Renders, nodeAt] at hp
        | some a =>
          cases ha : heap[a]? with
          | none => simp [Renders, nodeAt, ha] at hp
          | some val =>
            rw [tmplLoop_step _ _ _ _ _ _ _ _ _ _ ha]
            by_cases hname : val.Named = ""
            · rw [if_pos hname]
              exact ih _ _ _ V1 hV1 hren1 hlen1
            · rw [if_neg hname]
              have hall : ∀ kv ∈ order i (val.Object.getD []),
                  (makeField Title heap depth kv.1 kv.2).isRet = true := by
                intro kv hkv
                have hkv2 := (horder i _).mem_iff.1 hkv
                simp only [Renders, nodeAt, Option.bind, ha, hname, false_or] at hp
                exact hp kv hkv2
              obtain ⟨fs, hfs⟩ := fieldsLoop_ok Title heap depth _ hall
              rw [hfs]
              exact ih _ _ _ V1 hV1 hren1 hlen1

theorem tmplLoop_perm (Title : String → String)
    (order1 order2 : Nat → GoMap ObjectField → List (String × ObjectField))
    (h1 : IsOrder order1) (h2 : IsOrder order2) (heap : List TypeNode) (depth : Nat) :
    ∀ (fuel i : Nat) (queue : List Ptr) (acc1 acc2 : List Resolver) (g1 : Generator),
      List.Forall₂ SameUpToFieldOrder acc1 acc2 →
      tmplLoop Title order1 heap depth fuel i queue acc1 = .ret g1 →
      ∃ g2, tmplLoop Title order2 heap depth fuel i queue acc2 = .ret g2 ∧
        List.Forall₂ SameUpToFieldOrder g1.Resolvers g2.Resolvers := by
  intro fuel
  induction fuel with
  | zero =>
    intro i queue acc1 acc2 g1 hacc h
    cases queue with
    | nil =>
      rw [tmplLoop_nil] at h
      cases h
      exact ⟨_, tmplLoop_nil _ _ _ _ _ _ _, hacc⟩
    | cons p rest => simp [tmplLoop] at h
  | succ fuel ih =>
    intro i queue acc1 acc2 g1 hacc h
    cases queue with
    | nil =>
      rw [tmplLoop_nil] at h
      cases h
      exact ⟨_, tmplLoop_nil _ _ _ _ _ _ _, hacc⟩
    | cons p rest =>
      cases p with
      | none => simp [tmplLoop] at h
      | some a =>
        cases ha : heap[a]? with
        | none => simp [tmplLoop, ha] at h
        | some val =>
          rw [tmplLoop_step _ _ _ _ _ _ _ _ _ _ ha] at h
          rw [tmplLoop_step _ _ _ _ _ _ _ _ _ _ ha]
          by_cases hname : val.Named = ""
          · rw [if_pos hname] at h ⊢
            exact ih _ _ _ _ _ hacc h
          · rw [if_neg hname] at h ⊢
            rw [Outcome_bind_eq_ret] at h
            obtain ⟨fields, hfields, h⟩ := h
            obtain ⟨fields2, hfields2, hperm⟩ := fieldsLoop_perm Title heap depth _
              (order2 i (val.Object.getD [])) ((h1 i _).trans (h2 i _).symm) fields hfields
            rw [hfields2]
            refine ih _ _ _ _ _ ?_ h
            exact List.rel_append hacc
              (List.Forall₂.cons ⟨rfl, rfl, rfl, hperm⟩ List.Forall₂.nil)

theorem Unwraps.mem_closed {heap : List TypeNode} {roots V : List Ptr}
    (hV : V = roots ++ contents heap V) {r q : Ptr} (hr : r ∈ roots)
    (h : Unwraps heap r q) : q ∈ V := by
  induction h with
  | refl =>
    rw [hV]
    exact List.mem_append_left _ hr
  | step _ h2 h3 ih =>
    rw [hV]
    refine List.mem_append_right _ ?_
    unfold contents
    rw [List.mem_filterMap]
    exact ⟨_, ih, by simp [h2, h3]⟩

end generate

namespace generate

open typer introspection
open graphql (Outcome)

/-- C12, the code: two runs of `TypesToTmpl` on the graph of `Query{a: Int, b: String}`, one
visiting the map `Object` as stored and one in reverse, return different `Generator`
values. -/
theorem TypesToTmpl_field_order_differs :
    ∃ roots st g1 g2,
      ParseTypes examples.pairSchema id 4 [.named "Query"] = .ok roots st ∧
      IsOrder examples.stored ∧ IsOrder examples.reversed ∧
      TypesToTmpl examples.title examples.stored st.heap 3 4 roots = .ret g1 ∧
      TypesToTmpl examples.title examples.reversed st.heap 3 4 roots = .ret g2 ∧
      g1 ≠ g2 :=
  ⟨_, _, _, _, rfl, fun _ _ => List.Perm.refl _, fun _ m => List.reverse_perm m, rfl, rfl,
    by decide⟩

/-- C12 amended. Two runs of `TypesToTmpl` on the same graph and the same roots, whatever
the order in which each visits the maps, both return, with the same resolvers in the same
order: the same name, interface flag and implemented interfaces, and the same fields (each
with the same arguments in the same order) but for the order of the fields. -/
theorem TypesToTmpl_deterministic_up_to_field_order (Title : String → String)
    (order1 order2 : Nat → GoMap ObjectField → List (String × ObjectField))
    (h1 : IsOrder order1) (h2 : IsOrder order2) (heap : List TypeNode) (depth fuel : Nat)
    (roots V : List Ptr) (hV : V = roots ++ contents heap V)
    (hren : ∀ p ∈ V, Renders Title heap depth p) (hfuel : V.length ≤ fuel) :
    ∃ g1 g2, TypesToTmpl Title order1 heap depth fuel roots = .ret g1 ∧
      TypesToTmpl Title order2 heap depth fuel roots = .ret g2 ∧
      List.Forall₂ SameUpToFieldOrder g1.Resolvers g2.Resolvers := by
  obtain ⟨g1, hg1⟩ := tmplLoop_ok Title order1 h1 heap depth fuel 0 roots [] V hV hren hfuel
  obtain ⟨g2, hg2, hrel⟩ := tmplLoop_perm Title order1 order2 h1 h2 heap depth fuel 0 roots
    [] [] g1 List.Forall₂.nil hg1
  exact ⟨g1, g2, hg1, hg2, hrel⟩

/-- Witness of C12 amended: the two runs on the graph of `Query{a: Int, b: String}`. -/
theorem TypesToTmpl_deterministic_up_to_field_order_witness :
    ∃ g1 g2, TypesToTmpl examples.title examples.stored examples.pairHeap 3 4 [some 5] = .ret g1 ∧
      TypesToTmpl examples.title examples.reversed examples.pairHeap 3 4 [some 5] = .ret g2 ∧
      List.Forall₂ SameUpToFieldOrder g1.Resolvers g2.Resolvers :=
  TypesToTmpl_deterministic_up_to_field_order examples.title examples.stored examples.reversed
    (fun _ _ => List.Perm.refl _) (fun _ m => List.reverse_perm m) examples.pairHeap 3 4
    [some 5] [some 5, some 0] (by decide) (by decide) (by decide)

end generate

namespace generate

open typer introspection
open graphql (Outcome)

theorem forall₂_exists_right {α β : Type} {R : α → β → Prop} {l1 : List α} {l2 : List β}
    (h : List.Forall₂ R l1 l2) {a : α} (ha : a ∈ l1) : ∃ b ∈ l2, R a b := by
  induction h with
  | nil => simp at ha
  | cons hab _ ih =>
    rcases List.mem_cons.1 ha with rfl | ha
    · exact ⟨_, List.mem_cons_self _ _, hab⟩
    · obtain ⟨b, hb, hr⟩ := ih ha
      exact ⟨b, List.mem_cons_of_mem _ hb, hr⟩

theorem forall₂_exists_left {α β : Type} {R : α → β → Prop} {l1 : List α} {l2 : List β}
    (h : List.Forall₂ R l1 l2) {b : β} (hb : b ∈ l2) : ∃ a ∈ l1, R a b := by
  induction h with
  | nil => simp at hb
  | cons hab _ ih =>
    rcases List.mem_cons.1 hb with rfl | hb
    · exact ⟨_, List.mem_cons_self _ _, hab⟩
    · obtain ⟨a, ha, hr⟩ := ih hb
      exact ⟨a, List.mem_cons_of_mem _ ha, hr⟩

/-- C13, the code: for the input `[Apple, Apple]` of `Query{a: Apple}`, `Apple{s: String}`
`ParseTypes` returns the node `Apple` twice, once in a `Nullable` box and once bare, and
`TypesToTmpl` emits the resolver of that one node twice. -/
theorem TypesToTmpl_emits_twice :
    ∃ roots st g r,
      ParseTypes examples.appleSchema id 4 [.named "Apple", .named "Apple"] = .ok roots st ∧
      roots = [some 3, some 0] ∧
      (nodeAt st.heap (some 3)).map (fun v => v.Nullable) = some (some 0) ∧
      TypesToTmpl examples.title examples.stored st.heap 3 4 roots = .ret g ∧
      g.Resolvers = [r, r] ∧ r.Name = "Apple" :=
  ⟨_, _, _, _, rfl, rfl, rfl, rfl, rfl, rfl⟩

/-- C13 amended. `TypesToTmpl` emits one resolver each time a node with a name is taken
from its queue.  The sequence `V` of the pointers taken from the queue is the root list
followed by the contents of the `Nullable` boxes of `V`, in order; every entry of `V` is
reached from a root by unwrapping boxes; and the resolvers of the output are, in order,
those of the entries of `V` that have a name.  A node that occurs twice in `V` is emitted
twice. -/
theorem TypesToTmpl_one_resolver_per_visit (Title : String → String)
    (order : Nat → GoMap ObjectField → List (String × ObjectField)) (horder : IsOrder order)
    (heap : List TypeNode) (depth fuel : Nat) (roots V0 : List Ptr)
    (hV : V0 = roots ++ contents heap V0)
    (hren : ∀ p ∈ V0, Renders Title heap depth p) (hfuel : V0.length ≤ fuel) :
    ∃ g V, TypesToTmpl Title order heap depth fuel roots = .ret g ∧
      V = roots ++ contents heap V ∧
      (∀ q ∈ V, ∃ r ∈ roots, Unwraps heap r q) ∧
      List.Forall₂ (Emits Title heap depth) (V.filter (isNamed heap)) g.Resolvers := by
  obtain ⟨g, hg⟩ := tmplLoop_ok Title order horder heap depth fuel 0 roots [] V0 hV hren hfuel
  obtain ⟨V, rs, h1, h2, h3, h4⟩ := tmplLoop_visits Title order horder heap depth fuel 0 roots
    [] g hg
  rw [List.nil_append] at h3
  rw [← h3] at h4
  exact ⟨g, V, hg, h1, h2, h4⟩

/-- Witness of C13 amended: the roots `[box around Apple, Apple]`. -/
theorem TypesToTmpl_one_resolver_per_visit_witness :
    ∃ g V, TypesToTmpl examples.title examples.stored examples.appleHeap 3 4 [some 3, some 0] = .ret g ∧
      V = [some 3, some 0] ++ contents examples.appleHeap V ∧
      (∀ q ∈ V, ∃ r ∈ [some 3, some 0], Unwraps examples.appleHeap r q) ∧
      List.Forall₂ (Emits examples.title examples.appleHeap 3) (V.filter (isNamed examples.appleHeap))
        g.Resolvers :=
  TypesToTmpl_one_resolver_per_visit examples.title examples.stored (fun _ _ => List.Perm.refl _)
    examples.appleHeap 3 4 [some 3, some 0] [some 3, some 0, some 0] (by decide) (by decide)
    (by decide)

/-- C14, the code: in the graph of `Query{h: _Hidden}`, `_Hidden{s: String}` the only root
is the box around `Query`; the object `_Hidden` is the content of the box that is the type
of the field `h`; and the output has the resolver of `Query` only. -/
theorem TypesToTmpl_skips_field_types :
    ∃ roots st g,
      ParseTypes examples.hiddenSchema id 4 [.named "Query", .named "_Hidden"] =
        .ok roots st ∧
      roots = [some 5] ∧
      (nodeAt st.heap (some 5)).map (fun v => v.Nullable) = some (some 0) ∧
      (nodeAt st.heap (some 0)).map (fun v => v.Object) =
        some (some [("h", { Field := some 4 })]) ∧
      (nodeAt st.heap (some 4)).map (fun v => v.Nullable) = some (some 1) ∧
      (nodeAt st.heap (some 1)).map (fun v => v.Named) = some "_Hidden" ∧
      TypesToTmpl examples.title examples.stored st.heap 3 4 roots = .ret g ∧
      g.Resolvers.map (fun r => r.Name) = ["Query"] :=
  ⟨_, _, _, rfl, rfl, rfl, rfl, rfl, rfl, rfl, rfl⟩

/-- C14 amended. Every node with a name that is a root, or is reached from a root by
unwrapping `Nullable` boxes, has its resolver in the output of `TypesToTmpl`; and every
resolver of the output is that of such a node.  The types of fields are not followed. -/
theorem TypesToTmpl_reaches_boxes_only (Title : String → String)
    (order : Nat → GoMap ObjectField → List (String × ObjectField)) (horder : IsOrder order)
    (heap : List TypeNode) (depth fuel : Nat) (roots V0 : List Ptr)
    (hV : V0 = roots ++ contents heap V0)
    (hren : ∀ p ∈ V0, Renders Title heap depth p) (hfuel : V0.length ≤ fuel) :
    ∃ g, TypesToTmpl Title order heap depth fuel roots = .ret g ∧
      (∀ r ∈ roots, ∀ q, Unwraps heap r q → isNamed heap q = true →
        ∃ res ∈ g.Resolvers, Emits Title heap depth q res) ∧
      (∀ res ∈ g.Resolvers, ∃ r ∈ roots, ∃ q, Unwraps heap r q ∧ isNamed heap q = true ∧
        Emits Title heap depth q res) := by
  obtain ⟨g, hg⟩ := tmplLoop_ok Title order horder heap depth fuel 0 roots [] V0 hV hren hfuel
  obtain ⟨V, rs, h1, h2, h3, h4⟩ := tmplLoop_visits Title order horder heap depth fuel 0 roots
    [] g hg
  rw [List.nil_append] at h3
  rw [← h3] at h4
  refine ⟨g, hg, ?_, ?_⟩
  · intro r hr q hq hnamed
    have hmem : q ∈ V.filter (isNamed heap) :=
      List.mem_filter.2 ⟨Unwraps.mem_closed h1 hr hq, hnamed⟩
    exact forall₂_exists_right h4 hmem
  · intro res hres
    obtain ⟨q, hq, hemit⟩ := forall₂_exists_left h4 hres
    obtain ⟨hqV, hnamed⟩ := List.mem_filter.1 hq
    obtain ⟨r, hr, hrq⟩ := h2 q hqV
    exact ⟨r, hr, q, hrq, hnamed, hemit⟩

/-- Witness of C14 amended: the roots that `ParseTypes` returns for `Query{a: Apple}`,
`Apple{s: String}`, two boxes. -/
theorem TypesToTmpl_reaches_boxes_only_witness :
    ∃ g, TypesToTmpl examples.title examples.stored examples.appleHeap 3 4 [some 3, some 6] = .ret g ∧
      (∀ r ∈ [some 3, some 6], ∀ q, Unwraps examples.appleHeap r q →
        isNamed examples.appleHeap q = true →
        ∃ res ∈ g.Resolvers, Emits examples.title examples.appleHeap 3 q res) ∧
      (∀ res ∈ g.Resolvers, ∃ r ∈ [some 3, some 6], ∃ q, Unwraps examples.appleHeap r q ∧
        isNamed examples.appleHeap q = true ∧ Emits examples.title examples.appleHeap 3 q res) :=
  TypesToTmpl_reaches_boxes_only examples.title examples.stored (fun _ _ => List.Perm.refl _)
    examples.appleHeap 3 4 [some 3, some 6] [some 3, some 6, some 0, some 4] (by decide)
    (by decide) (by decide)

/-- C15, the code: the flags `Object` and `List` are read from the node of the field
itself.  In the graph of `Apple{b: Banana}`, `Banana{s: String}` the type of `b` is a
`Nullable` box around the object `Banana`, and its `Field` has `Object = false` although
its `ResponseType` is the resolver of `Banana`; in the graph of `Query{l: [String]}` the
type of `l` is a `Nullable` box around a list, and its `Field` has `List = false`. -/
theorem TypesToTmpl_flags_of_boxed_field :
    (∃ roots st g,
      ParseTypes examples.basketSchema id 4 [.named "Apple", .named "Banana"] =
        .ok roots st ∧
      (nodeAt st.heap (some 0)).map (fun v => v.Object) =
        some (some [("b", { Field := some 4 })]) ∧
      (nodeAt st.heap (some 4)).map (fun v => v.Nullable) = some (some 1) ∧
      (nodeAt st.heap (some 1)).map (fun v => v.Named) = some "Banana" ∧
      TypesToTmpl examples.title examples.stored st.heap 3 4 roots = .ret g ∧
      g.Resolvers.map (fun r => (r.Name, r.Fields)) =
        [("Banana", [
          { Object := false, List := false, Nullable := true, Field := "S",
            ResponseType := "*string", HasArg := false, Args := [] }]),
         ("Apple", [
          { Object := false, List := false, Nullable := true, Field := "B",
            ResponseType := "*BananaResolver", HasArg := false, Args := [] }])]) ∧
    (∃ roots st g,
      ParseTypes examples.listSchema id 4 [.named "Query"] = .ok roots st ∧
      (nodeAt st.heap (some 0)).map (fun v => v.Object) =
        some (some [("l", { Field := some 4 })]) ∧
      (nodeAt st.heap (some 4)).map (fun v => v.Nullable) = some (some 3) ∧
      (nodeAt st.heap (some 3)).map (fun v => v.ListOf) = some (some 2) ∧
      TypesToTmpl examples.title examples.stored st.heap 4 4 roots = .ret g ∧
      g.Resolvers.map (fun r => (r.Name, r.Fields)) =
        [("Query", [
          { Object := false, List := false, Nullable := true, Field := "L",
            ResponseType := "*[]*string", HasArg := false, Args := [] }])]) :=
  ⟨⟨_, _, _, rfl, rfl, rfl, rfl, rfl, rfl⟩, ⟨_, _, _, rfl, rfl, rfl, rfl, rfl, rfl⟩⟩

end generate
